import Mathlib

/-!
The terminal layout core and the utilities of rirc (`src/draw.c`, `src/utils.c`)

A shallow embedding of the layout routines, the AVL tree and the message routines of rirc
and the properties proved of them.

Conventions of the embedding:

* a C string or byte range lives in one object, modelled as `List Nat` (its bytes, the
  terminating NUL included); a pointer into it is a `Nat` offset; a read outside the
  object is the outcome `Res.fault`;
* `fatal(...)` is the outcome `Res.fatal`;
* `unsigned int` values are `Nat` below `2 ^ 32`, with the wrap-around written out
  (`u32_add`, `u32_sub`); `int` is `Int`;
* a tree of `avl_node` is an inductive value, a pointer to a node the subtree below it;
  `longjmp` is an outcome of its own that carries the state of the tree at that moment;
* a loop whose model is bounded by a number of iterations gives `none` when the bound is
  used up.
-/

set_option autoImplicit false

namespace Rirc

/-! ## Outcomes -/

/-- Outcome of a routine that may call `fatal` or read outside its object. -/
inductive Res (α : Type) where
  | ok : α → Res α
  | fatal : Res α
  | fault : Res α
  deriving DecidableEq

/-- Sequencing of outcomes. -/
def Res.bind {α β : Type} (r : Res α) (f : α → Res β) : Res β :=
  match r with
  | .ok a => f a
  | .fatal => .fatal
  | .fault => .fault

/-! ## Machine integers -/

/-- Number of values of an `unsigned int`. -/
def UINT_SIZE : Nat := 2 ^ 32

/-- Addition of `unsigned int`. -/
def u32_add (a b : Nat) : Nat := (a + b) % UINT_SIZE

/-- Subtraction of `unsigned int` (wraps below zero). -/
def u32_sub (a b : Nat) : Nat := (a % UINT_SIZE + UINT_SIZE - b % UINT_SIZE) % UINT_SIZE

/-- Conversion of an `unsigned int` to `int` (two's complement), as done when `text_w`
is passed for the `int n` of `word_wrap`. -/
def int_of_uint (u : Nat) : Int :=
  if u % UINT_SIZE < 2 ^ 31 then ((u % UINT_SIZE : Nat) : Int)
  else ((u % UINT_SIZE : Nat) : Int) - (UINT_SIZE : Int)

/-! ## `word_wrap` (utils.c) -/

/-- The loop `while (ret > *str && *ret != ' ') ret--;` started at `ret = *str + k`;
the result is the final `ret - *str`. -/
def wrap_scan (mem : List Nat) (str : Nat) : Nat → Res Nat
  | 0 => .ok 0
  | k + 1 =>
    match mem[str + (k + 1)]? with
    | none => .fault
    | some b => if b = 32 then .ok (k + 1) else wrap_scan mem str k

/-- The loop `while (ret > *str && *(ret - 1) == ' ') ret--;` started at
`ret = *str + k`; the result is the final `ret - *str`. -/
def wrap_trim (mem : List Nat) (str : Nat) : Nat → Res Nat
  | 0 => .ok 0
  | k + 1 =>
    match mem[str + k]? with
    | none => .fault
    | some b => if b = 32 then wrap_trim mem str k else .ok (k + 1)

/-- The loop `while (*tmp == ' ') tmp++;` over the bytes of the object from `tmp` on;
the result is the final `tmp`. Running off the object is a fault. -/
def wrap_skip : List Nat → Nat → Res Nat
  | [], _ => .fault
  | b :: rest, tmp => if b = 32 then wrap_skip rest (tmp + 1) else .ok tmp

/-- The function `char *word_wrap(int n, char **str, char *end)`: the result is the pair
(returned pointer, new value of `*str`). -/
def word_wrap (n : Int) (mem : List Nat) (str end_ : Nat) : Res (Nat × Nat) :=
  if n < 1 then .fatal
  else if (end_ : Int) - (str : Int) ≤ n then .ok (end_, end_)
  else
    (wrap_scan mem str n.toNat).bind fun k =>
      if k = 0 then .ok (str + n.toNat, str + n.toNat)
      else
        (wrap_trim mem str k).bind fun j =>
          (wrap_skip (mem.drop (str + k)) (str + k)).bind fun tmp =>
            .ok (str + j, tmp)

/-- The loop `while (skip--) word_wrap(text_w, &p1, p2);` of `_draw_buffer_line`:
`skip` successive calls on the advancing cursor; the result is the final cursor. -/
def skip_wraps (n : Int) (mem : List Nat) (end_ : Nat) : Nat → Nat → Res Nat
  | 0, p1 => .ok p1
  | skip + 1, p1 =>
    (word_wrap n mem p1 end_).bind fun r => skip_wraps n mem end_ skip r.2

/-! ## Configuration and data consumed by `draw.c` -/

/-- Compile-time configuration that `draw.c` reads from `config.h`, a file that is not
among the sources at hand: the policy toggle `BUFFER_PADDING` (0 or 1) and the byte length
`strlen(VERTICAL_SEPARATOR)` of the separator string. -/
structure config where
  BUFFER_PADDING : Bool
  vsep_len : Nat
  deriving DecidableEq

/-- The fields of `struct buffer_line` that the layout reads: the byte length of the
author name, the body text (its bytes with the terminating NUL) and its length. -/
structure buffer_line where
  from_len : Nat
  text : List Nat
  text_len : Nat
  deriving DecidableEq

/-- Modelled from the spec: the message list of `struct buffer` (`buffer.c` is not among
the sources), "ordered, randomly-indexable access to message lines by index from a scroll
cursor in either direction". The lines are kept oldest first, so `buffer_tail` is index
`0`, `buffer_head` is the last index and `buffer_line(b, i)` is `lines[i]?` (`none` for
`NULL`); `scrollback` is the index of the scroll-cursor line and `pad` the header pad. -/
structure buffer where
  lines : List buffer_line
  scrollback : Nat
  pad : Nat
  deriving DecidableEq

/-- The type `struct coords`: inclusive terminal bounds, indexed from 1. -/
structure coords where
  c1 : Nat
  cN : Nat
  r1 : Nat
  rN : Nat
  deriving DecidableEq

/-! ## `split_buffer_cols` (draw.c) -/

/-- The value of `sizeof(" HH:MM   "VERTICAL_SEPARATOR" ")`: nine bytes, the separator,
one blank and
the terminating NUL. -/
def header_base (cfg : config) : Nat := 9 + cfg.vsep_len + 1 + 1

/-- The value of `_head_w` after `_head_w += pad` (or `+= line->from_len`). -/
def header_total (cfg : config) (line : buffer_line) (pad : Nat) : Nat :=
  if cfg.BUFFER_PADDING then u32_add (header_base cfg % UINT_SIZE) pad
  else u32_add (header_base cfg % UINT_SIZE) line.from_len

/-- The function `split_buffer_cols(line, &head_w, &text_w, cols, pad)`: the result is
the pair
`(head_w, text_w)`. -/
def split_buffer_cols (cfg : config) (line : buffer_line) (cols pad : Nat) : Nat × Nat :=
  let head_w0 := header_total cfg line pad
  let head_w1 := if head_w0 ≥ cols then cols / 2 else head_w0
  let head_w2 := u32_sub head_w1 1
  (head_w2, u32_add (u32_sub cols head_w2) 1)

/-! ## `_draw_buffer` (draw.c) -/

/-- One call `_draw_buffer_line(line, coords, head_w, text_w, skip, pad)` made by
`_draw_buffer`; `line` is the index of the line in the buffer. -/
structure line_draw where
  line : Nat
  coords : coords
  head_w : Nat
  text_w : Nat
  skip : Nat
  pad : Nat
  deriving DecidableEq

/-- The value `row_total = coords.rN - coords.r1 + 1`. -/
def row_total (cs : coords) : Nat := u32_add (u32_sub cs.rN cs.r1) 1

/-- The value `col_total = coords.cN - coords.c1 + 1`. -/
def col_total (cs : coords) : Nat := u32_add (u32_sub cs.cN cs.c1) 1

/-- The rectangle that `draw()` passes to `_draw_buffer` on a terminal of `term_cols`
columns and `term_rows` rows: `{ .c1 = 1, .cN = _term_cols(), .r1 = 3,
.rN = _term_rows() - 2 }`. -/
def buffer_coords (term_cols term_rows : Nat) : coords :=
  { c1 := 1, cN := term_cols, r1 := 3, rN := u32_sub term_rows 2 }

/-- The pad argument `BUFFER_PADDING ? (b->pad - line->from_len) : 0`. -/
def line_pad (cfg : config) (b : buffer) (line : buffer_line) : Nat :=
  if cfg.BUFFER_PADDING then u32_sub b.pad line.from_len else 0

/-- The "find top line" loop of `_draw_buffer`, entered with `buffer_i = i` and the
current `row_count`; the result is `(buffer_i, row_count)` at the `break`. The function
`rows` stands for `buffer_line_rows` of `buffer.c`, which is not among the sources. -/
def find_top (cfg : config) (rows : buffer_line → Nat → Nat) (b : buffer) (cs : coords) :
    Nat → Nat → Res (Nat × Nat)
  | 0, row_count =>
    match b.lines[0]? with
    | none => .fault
    | some line =>
      .ok (0, u32_add row_count (rows line (split_buffer_cols cfg line (col_total cs) b.pad).2))
  | i + 1, row_count =>
    match b.lines[i + 1]? with
    | none => .fault
    | some line =>
      let row_count1 :=
        u32_add row_count (rows line (split_buffer_cols cfg line (col_total cs) b.pad).2)
      if row_count1 ≥ row_total cs then .ok (i + 1, row_count1)
      else find_top cfg rows b cs i row_count1

/-- The "draw all remaining lines" loop of `_draw_buffer`, entered with `buffer_i = i`;
`d` is the number of lines between that line and `buffer_head`, so `line == head` is
`d = 0`. The result is the list of `_draw_buffer_line` calls in order. -/
def draw_remaining (cfg : config) (rows : buffer_line → Nat → Nat) (b : buffer)
    (col_total : Nat) : Nat → Nat → coords → Res (List line_draw)
  | 0, i, cs =>
    if cs.r1 ≤ cs.rN then
      match b.lines[i]? with
      | none => .fault
      | some line =>
        let w := split_buffer_cols cfg line col_total b.pad
        .ok [{ line := i, coords := cs, head_w := w.1, text_w := w.2, skip := 0,
               pad := line_pad cfg b line }]
    else .ok []
  | d + 1, i, cs =>
    if cs.r1 ≤ cs.rN then
      match b.lines[i]? with
      | none => .fault
      | some line =>
        let w := split_buffer_cols cfg line col_total b.pad
        (draw_remaining cfg rows b col_total d (i + 1)
            { cs with r1 := u32_add cs.r1 (rows line w.2) }).bind fun rest =>
          .ok ({ line := i, coords := cs, head_w := w.1, text_w := w.2, skip := 0,
                 pad := line_pad cfg b line } :: rest)
    else .ok []

/-- The function `_draw_buffer(b, coords)`: the result is the list of `_draw_buffer_line`
calls it
makes, in order. The clearing of the rows `r1..rN` that precedes them is not recorded. -/
def _draw_buffer (cfg : config) (rows : buffer_line → Nat → Nat) (b : buffer)
    (cs : coords) : Res (List line_draw) :=
  if cs.r1 > cs.rN then .fatal
  else if cs.c1 > cs.cN then .fatal
  else
    match b.lines[b.scrollback]? with
    | none => .ok []
    | some _ =>
      (find_top cfg rows b cs b.scrollback 0).bind fun top =>
        if top.2 > row_total cs then
          match b.lines[top.1]? with
          | none => .fault
          | some line =>
            let w := split_buffer_cols cfg line (col_total cs) b.pad
            let skip := u32_sub top.2 (row_total cs)
            let call : line_draw :=
              { line := top.1, coords := cs, head_w := w.1, text_w := w.2, skip := skip,
                pad := line_pad cfg b line }
            if top.1 + 1 = b.lines.length then .ok [call]
            else
              (draw_remaining cfg rows b (col_total cs) (b.lines.length - 1 - (top.1 + 1))
                  (top.1 + 1)
                  { cs with r1 := u32_add cs.r1 (u32_sub (rows line w.2) skip) }).bind
                fun rest => .ok (call :: rest)
        else
          draw_remaining cfg rows b (col_total cs) (b.lines.length - 1 - top.1) top.1 cs

/-- Row count of the line at index `i`, as `_draw_buffer` computes it:
`buffer_line_rows(line, text_w)` at the body width from `split_buffer_cols`. -/
def line_rows (cfg : config) (rows : buffer_line → Nat → Nat) (b : buffer) (cs : coords)
    (i : Nat) : Nat :=
  match b.lines[i]? with
  | none => 0
  | some line => rows line (split_buffer_cols cfg line (col_total cs) b.pad).2

/-- Sum of the row counts of the `n` lines starting at index `lo`. -/
def rows_sum (cfg : config) (rows : buffer_line → Nat → Nat) (b : buffer) (cs : coords) :
    Nat → Nat → Nat
  | _, 0 => 0
  | lo, n + 1 => line_rows cfg rows b cs lo + rows_sum cfg rows b cs (lo + 1) n

/-- The call `_draw_buffer_line` for the line at index `i`, placed on row `row` with the
given `skip`, with the widths and pad that `_draw_buffer` passes. -/
def line_call (cfg : config) (b : buffer) (cs : coords) (i row skip : Nat) : line_draw :=
  let line := b.lines.getD i { from_len := 0, text := [], text_len := 0 }
  let w := split_buffer_cols cfg line (col_total cs) b.pad
  { line := i, coords := { cs with r1 := row }, head_w := w.1, text_w := w.2, skip := skip,
    pad := line_pad cfg b line }

/-- The header sum `sizeof(...) + pad` (or `+ line->from_len`) as a natural number,
before any reduction to `unsigned int`. -/
def header_plain (cfg : config) (line : buffer_line) (pad : Nat) : Nat :=
  header_base cfg + (if cfg.BUFFER_PADDING then pad else line.from_len)

/-- Example from the spec: a buffer of three lines, scroll cursor on the newest. -/
def example_buffer : buffer :=
  { lines := [⟨3, [97, 0], 1⟩, ⟨3, [98, 0], 1⟩, ⟨3, [99, 0], 1⟩], scrollback := 2, pad := 3 }

/-- Example from the spec: every line needs four wrapped rows. -/
def example_rows : buffer_line → Nat → Nat := fun _ _ => 4

/-- Example configuration: padded headers, a one-byte vertical separator. -/
def example_config : config := { BUFFER_PADDING := true, vsep_len := 1 }

/-- Example from the spec: a rectangle of ten rows (rows 1 to 10) and 80 columns. -/
def example_coords : coords := { c1 := 1, cN := 80, r1 := 1, rN := 10 }

/-- A rectangle of twenty rows and 80 columns, taller than `example_buffer` needs. -/
def example_coords_tall : coords := { c1 := 1, cN := 80, r1 := 1, rN := 20 }

/-! ## `_draw_nav` (draw.c) -/

/-- The fields of a channel that the nav reads: its name (bytes, without the NUL) and its
activity level. -/
structure channel where
  name : List Nat
  active : Nat
  deriving DecidableEq

/-- The length `strlen(c->name)` of the channel at position `i` of the list. -/
def name_len (chans : List channel) (i : Nat) : Nat :=
  match chans[i]? with
  | some ch => ch.name.length
  | none => 0

/-- Modelled from the spec: the channel list of `state.c` (not among the sources), "a
channel list supporting next/previous traversal and first/last lookup" with "equality
comparison by identity". A channel is identified by its position in the list;
`channel_get_first` is position 0. -/
def channel_get_first : Nat := 0

/-- Modelled from the spec: `channel_get_last`, the last position of the channel list. -/
def channel_get_last (chans : List channel) : Nat := chans.length - 1

/-- Modelled from the spec: `channel_get_next`. The traversal is circular (the channel
after the last one is the first), which is what the test `tmp != c_first` of `_draw_nav`
guards against. -/
def channel_get_next (chans : List channel) (c : Nat) : Nat :=
  if c + 1 < chans.length then c + 1 else 0

/-- Modelled from the spec: `channel_get_prev`. The traversal is circular (the channel
before the first one is the last), which is what the test `tmp != c_last` of `_draw_nav`
guards against. -/
def channel_get_prev (chans : List channel) (c : Nat) : Nat :=
  if c = 0 then chans.length - 1 else c - 1

/-- The static variables `frame_prev`, `frame_next` of `_draw_nav`; `none` is `NULL`. A
position outside the list stands for a pointer that equals no channel of the list. -/
structure nav_frame where
  frame_prev : Option Nat
  frame_next : Option Nat
  deriving DecidableEq

/-- The "pad out nextward" loop
`while ((total_len += (len + 2)) < _term_cols() && tmp != c_first) { tmp_next = tmp; ... }`
entered with `tmp = channel_get_next(tmp_next)`; the result is the final `tmp_next`.
The first argument bounds the number of iterations (`none` when it is used up). -/
def pad_nextward (chans : List channel) (cols : Nat) : Nat → Nat → Nat → Nat → Option Nat
  | 0, _, _, _ => none
  | fuel + 1, tmp_next, tmp, total_len =>
    if total_len + (name_len chans tmp + 2) < cols ∧ tmp ≠ channel_get_first then
      pad_nextward chans cols fuel tmp (channel_get_next chans tmp)
        (total_len + (name_len chans tmp + 2))
    else some tmp_next

/-- The "pad out prevward" loop
`while ((total_len += (len + 2)) < _term_cols() && tmp != c_last) { tmp_prev = tmp; ... }`
entered with `tmp = channel_get_prev(tmp_prev)`; the result is the final `tmp_prev`. -/
def pad_prevward (chans : List channel) (cols : Nat) : Nat → Nat → Nat → Nat → Option Nat
  | 0, _, _, _ => none
  | fuel + 1, tmp_prev, tmp, total_len =>
    if total_len + (name_len chans tmp + 2) < cols ∧ tmp ≠ channel_get_last chans then
      pad_prevward chans cols fuel tmp (channel_get_prev chans tmp)
        (total_len + (name_len chans tmp + 2))
    else some tmp_prev

/-- The `for (;;)` loop of `_draw_nav` that calculates the new frame; the result is the
final `(tmp_prev, tmp_next)`. The third argument bounds the number of iterations. -/
def frame_loop (chans : List channel) (cols : Nat) (frame_prev frame_next : Option Nat) :
    Nat → Nat → Nat → Nat → Bool → Option (Nat × Nat)
  | 0, _, _, _, _ => none
  | fuel + 1, tmp_prev, tmp_next, total_len, nextward =>
    if tmp_prev = channel_get_first ∨ some tmp_prev = frame_prev then
      (pad_nextward chans cols (chans.length + 1) tmp_next (channel_get_next chans tmp_next)
        total_len).map fun tn => (tmp_prev, tn)
    else if tmp_next = channel_get_last chans ∨ some tmp_next = frame_next then
      (pad_prevward chans cols (chans.length + 1) tmp_prev (channel_get_prev chans tmp_prev)
        total_len).map fun tp => (tp, tmp_next)
    else
      let tmp := if nextward then channel_get_next chans tmp_next
        else channel_get_prev chans tmp_prev
      if total_len + (name_len chans tmp + 2) ≥ cols then some (tmp_prev, tmp_next)
      else if nextward then
        frame_loop chans cols frame_prev frame_next fuel tmp_prev tmp
          (total_len + (name_len chans tmp + 2)) false
      else
        frame_loop chans cols frame_prev frame_next fuel tmp tmp_next
          (total_len + (name_len chans tmp + 2)) true

/-- The drawing loop `for (c = frame_prev; ; c = channel_get_next(c))` that ends after
`frame_next`; the result is the list of channels whose label is printed, in order. -/
def nav_labels (chans : List channel) (frame_next : Nat) : Nat → Nat → Option (List Nat)
  | 0, _ => none
  | fuel + 1, c =>
    if c = frame_next then some [c]
    else (nav_labels chans frame_next fuel (channel_get_next chans c)).map fun l => c :: l

/-- The "bump the channel frames" step of `_draw_nav`. -/
def bump_frame (chans : List channel) (st : nav_frame) (c : Nat) : nav_frame :=
  if some c = st.frame_prev ∧ st.frame_prev ≠ some channel_get_first then
    { st with frame_prev := st.frame_prev.map (channel_get_prev chans) }
  else if some c = st.frame_next ∧ st.frame_next ≠ some (channel_get_last chans) then
    { st with frame_next := st.frame_next.map (channel_get_next chans) }
  else st

/-- The function `_draw_nav(c)` for the active channel at position `c`, terminal width
`cols` and the
persisted frame `st`: the result is the new persisted frame and the list of channels
whose label is printed. `none` stands for a loop that exceeds its iteration bound. The
`size_t` sums of name lengths are taken not to wrap. -/
def _draw_nav (chans : List channel) (cols : Nat) (st : nav_frame) (c : Nat) :
    Option (nav_frame × List Nat) :=
  if name_len chans c + 2 ≥ cols then some (st, [])
  else
    let st1 := bump_frame chans st c
    (frame_loop chans cols st1.frame_prev st1.frame_next (chans.length + 1) c c
        (name_len chans c + 2) true).bind fun fr =>
      (nav_labels chans fr.2 (chans.length + 1) fr.1).map fun drawn =>
        ({ frame_prev := some fr.1, frame_next := some fr.2 }, drawn)

/-- Example from the spec: five channels named "a" to "e". -/
def example_channels : List channel :=
  [⟨[97], 0⟩, ⟨[98], 0⟩, ⟨[99], 0⟩, ⟨[100], 0⟩, ⟨[101], 0⟩]

/-- Sum of the padded label widths `strlen(name) + 2` of the `n` channels starting at
position `lo`. -/
def width_sum (chans : List channel) : Nat → Nat → Nat
  | _, 0 => 0
  | lo, n + 1 => (name_len chans lo + 2) + width_sum chans (lo + 1) n

/-! ## `_draw_input` (draw.c) -/

/-- The pointers of `input` that `_draw_input` uses, as offsets from `in->line->text`:
the edit cursor `head`, the start `tail` of the text after the cursor, and the left edge
`window` of the visible slice. -/
structure input where
  head : Nat
  tail : Nat
  window : Nat
  deriving DecidableEq

/-- What `_draw_input` puts on the input row after the prompt: the offsets of the
characters printed from `window` up to `head`, the offsets of the characters printed from
`tail` on, and the column `col + 6` of the final cursor move. -/
structure input_view where
  head_part : List Nat
  tail_part : List Nat
  cursor_col : Int
  deriving DecidableEq

/-- The function `_draw_input(c)` on a terminal of `cols` columns: the result is the
input state after the call and what was drawn (`none` when an action message overrides
the input bar). `max_input` is the constant `MAX_INPUT`, which is not among the sources.
Pointer comparisons are comparisons of the offsets as integers. -/
def _draw_input (cols max_input : Nat) (action_message : Bool) (inp : input) :
    input × Option input_view :=
  if action_message then (inp, none)
  else
    let winsz := cols / 3
    let window : Nat :=
      if (inp.head : Int) > (inp.window : Int) + (cols : Int) - 6 then inp.window + winsz
      else if (inp.head : Int) = (inp.window : Int) - 1 then
        (if (inp.window : Int) - (winsz : Int) > 0 then inp.window - winsz else 0)
      else inp.window
    let end_ : Int := (inp.tail : Int) + (cols : Int) - 5 - ((inp.head : Int) - (window : Int))
    ({ inp with window := window },
     some { head_part := List.range' window (inp.head - window),
            tail_part := List.range' inp.tail ((min end_ (max_input : Int)).toNat - inp.tail),
            cursor_col := ((inp.head : Int) - (window : Int)) + 6 })

/-! ## Formatting into byte buffers -/

/-- The string held in a `char` buffer: its bytes before the first NUL. -/
def c_string (buff : List Nat) : List Nat := buff.takeWhile (fun b => b != 0)

/-- The effect of `snprintf(buff + pos, size, ...)` (and `vsnprintf`) when the complete
formatted output would be `text`: at most `size - 1` bytes of `text` and a NUL are stored
from `pos` on, nothing when `size` is 0; the result is the buffer and the return value,
the length of `text`. A store outside the buffer is a fault. -/
def snprintf (buff : List Nat) (pos size : Nat) (text : List Nat) : Res (List Nat × Nat) :=
  if size = 0 then .ok (buff, text.length)
  else if pos + (min text.length (size - 1) + 1) ≤ buff.length then
    .ok (buff.take pos ++ (text.take (size - 1) ++ [0])
          ++ buff.drop (pos + (min text.length (size - 1) + 1)), text.length)
  else .fault

/-- Decimal digits of a number, most significant first, in front of `acc`; the first
argument bounds the number of digits. -/
def dec_digits : Nat → Nat → List Nat → List Nat
  | 0, _, acc => acc
  | fuel + 1, n, acc =>
    if n / 10 = 0 then (48 + n % 10) :: acc
    else dec_digits fuel (n / 10) ((48 + n % 10) :: acc)

/-- The text that `printf` produces for `%d` (and `%lld`). -/
def fmt_d (v : Int) : List Nat :=
  if v < 0 then 45 :: dec_digits ((-v).toNat + 1) (-v).toNat []
  else dec_digits (v.toNat + 1) v.toNat []

/-- The text that `printf` produces for `%02d`. -/
def fmt_02d (v : Int) : List Nat :=
  if 0 ≤ v ∧ v < 10 then 48 :: fmt_d v else fmt_d v

/-! ## `_draw_status` (draw.c) -/

/-- The kinds of buffer that `_draw_status` tells apart (`buffer.h` is not among the
sources). -/
inductive buffer_t where
  | BUFFER_OTHER
  | BUFFER_CHANNEL
  | BUFFER_PRIVATE
  deriving DecidableEq

/-- The fields of `c->server` that `_draw_status` reads: the bytes of the `usermodes`
array (read as a C string) and `latency_delta`. -/
structure server_status where
  usermodes : List Nat
  latency_delta : Int
  deriving DecidableEq

/-- The state that `_draw_status` reads from the channel: `c->server` (`none` for
`NULL`), `c->buffer.type`, `c->nick_count`, `c->type_flag`, the bytes of `c->chanmodes`
(read as a C string), and for the `float` of `buffer_scrollback_status` the value
`(int)(sb * 100)` when `sb` is non-zero (`none` when it is zero). -/
structure status_state where
  server : Option server_status
  buffer_type : buffer_t
  nick_count : Int
  type_flag : Nat
  chanmodes : List Nat
  scrollback : Option Int
  deriving DecidableEq

/-- The array `status_buff` and the counter `col`. -/
structure status_buf where
  buff : List Nat
  col : Nat
  deriving DecidableEq

/-- Control after a step of `_draw_status`: go on with the next statement, jump to
`print_status`, or fault. -/
inductive Flow (α : Type) where
  | next : α → Flow α
  | stop : α → Flow α
  | fault : Flow α
  deriving DecidableEq

/-- Sequencing of steps: a jump to `print_status` skips what follows. -/
def Flow.bind {α : Type} (r : Flow α) (f : α → Flow α) : Flow α :=
  match r with
  | .next a => f a
  | .stop a => .stop a
  | .fault => .fault

/-- One step
`ret = snprintf(status_buff + col, cols - col + 1, ...);
 if (ret < 0 || (col += ret) >= cols) goto print_status;`
for formatted output `text` (output errors of `snprintf` are left out). -/
def status_put (cols : Nat) (s : status_buf) (text : List Nat) : Flow status_buf :=
  match snprintf s.buff s.col (u32_add (u32_sub cols s.col) 1) text with
  | .ok r =>
    if s.col + r.2 ≥ cols then .stop { buff := r.1, col := s.col + r.2 }
    else .next { buff := r.1, col := s.col + r.2 }
  | _ => .fault

/-- The block `/* -[usermodes] */` of `_draw_status`; `hsep` is the string
`HORIZONTAL_SEPARATOR` of `config.h`. -/
def status_usermodes (hsep : List Nat) (cols : Nat) (st : status_state) (s : status_buf) :
    Flow status_buf :=
  match st.server with
  | none => .next s
  | some srv =>
    if c_string srv.usermodes ≠ [] then
      ((status_put cols s (hsep ++ [91, 43])).bind fun s1 =>
        status_put cols s1 (c_string srv.usermodes)).bind fun s2 =>
        status_put cols s2 [93]
    else .next s

/-- The block `/* If private chat buffer: -[priv] */` of `_draw_status`. -/
def status_priv (hsep : List Nat) (cols : Nat) (st : status_state) (s : status_buf) :
    Flow status_buf :=
  if st.buffer_type = .BUFFER_PRIVATE then
    status_put cols s (hsep ++ [91, 112, 114, 105, 118, 93])
  else .next s

/-- The block `/* If IRC channel buffer: -[chancount chantype chanmodes] */` of
`_draw_status`. -/
def status_chan (hsep : List Nat) (cols : Nat) (st : status_state) (s : status_buf) :
    Flow status_buf :=
  if st.buffer_type = .BUFFER_CHANNEL then
    (((status_put cols s (hsep ++ [91] ++ fmt_d st.nick_count)).bind fun s1 =>
      if st.type_flag ≠ 0 then status_put cols s1 [32, st.type_flag] else .next s1).bind
      fun s2 =>
      if c_string st.chanmodes ≠ [] then
        status_put cols s2 ([32, 43] ++ c_string st.chanmodes)
      else .next s2).bind fun s3 => status_put cols s3 [93]
  else .next s

/-- The block `/* -(latency) */` of `_draw_status`. -/
def status_latency (hsep : List Nat) (cols : Nat) (st : status_state) (s : status_buf) :
    Flow status_buf :=
  match st.server with
  | none => .next s
  | some srv =>
    if srv.latency_delta ≠ 0 then
      status_put cols s (hsep ++ [40] ++ fmt_d srv.latency_delta ++ [115, 41])
    else .next s

/-- The block `/* -(scrollback%) */` of `_draw_status`. -/
def status_scrollback (hsep : List Nat) (cols : Nat) (st : status_state) (s : status_buf) :
    Flow status_buf :=
  match st.scrollback with
  | none => .next s
  | some pct => status_put cols s (hsep ++ [40] ++ fmt_02d pct ++ [37, 41])

/-- The composition part of `_draw_status`, from the `memset` of `status_buff` to the
label `print_status`. -/
def status_compose (hsep : List Nat) (cols : Nat) (st : status_state) : Flow status_buf :=
  (((((Flow.next { buff := List.replicate (cols + 1) 0, col := 0 }).bind
    (status_usermodes hsep cols st)).bind
    (status_priv hsep cols st)).bind
    (status_chan hsep cols st)).bind
    (status_latency hsep cols st)).bind
    (status_scrollback hsep cols st)

/-- What `_draw_status` prints: the rule on row 2, and on row `rows - 1` the string of
`status_buff` followed by the trailing separators. -/
structure status_view where
  rule : List Nat
  status_row : Nat
  status : List Nat
  deriving DecidableEq

/-- The function `_draw_status(c)` on a terminal of `cols` columns and `rows` rows: the
result is what is printed, `none` when `cols < 3` and nothing is printed. -/
def _draw_status (hsep : List Nat) (cols rows : Nat) (st : status_state) :
    Res (Option status_view) :=
  if cols < 3 then .ok none
  else
    match status_compose hsep cols st with
    | .fault => .fault
    | .next s =>
      .ok (some { rule := c_string (List.replicate cols (hsep.headD 0)),
                  status_row := u32_sub rows 1,
                  status := c_string s.buff ++ (List.replicate (cols - s.col) hsep).flatten })
    | .stop s =>
      .ok (some { rule := c_string (List.replicate cols (hsep.headD 0)),
                  status_row := u32_sub rows 1,
                  status := c_string s.buff ++ (List.replicate (cols - s.col) hsep).flatten })

/-- The formatted pieces of the user modes block. -/
def frag_usermodes (hsep : List Nat) (st : status_state) : List (List Nat) :=
  match st.server with
  | none => []
  | some srv =>
    if c_string srv.usermodes ≠ [] then [hsep ++ [91, 43], c_string srv.usermodes, [93]]
    else []

/-- The formatted piece of the private buffer block. -/
def frag_priv (hsep : List Nat) (st : status_state) : List (List Nat) :=
  if st.buffer_type = .BUFFER_PRIVATE then [hsep ++ [91, 112, 114, 105, 118, 93]] else []

/-- The formatted pieces of the channel block. -/
def frag_chan (hsep : List Nat) (st : status_state) : List (List Nat) :=
  if st.buffer_type = .BUFFER_CHANNEL then
    [hsep ++ [91] ++ fmt_d st.nick_count]
      ++ (if st.type_flag ≠ 0 then [[32, st.type_flag]] else [])
      ++ (if c_string st.chanmodes ≠ [] then [[32, 43] ++ c_string st.chanmodes] else [])
      ++ [[93]]
  else []

/-- The formatted piece of the latency block. -/
def frag_latency (hsep : List Nat) (st : status_state) : List (List Nat) :=
  match st.server with
  | none => []
  | some srv =>
    if srv.latency_delta ≠ 0 then [hsep ++ [40] ++ fmt_d srv.latency_delta ++ [115, 41]]
    else []

/-- The formatted piece of the scrollback block. -/
def frag_scrollback (hsep : List Nat) (st : status_state) : List (List Nat) :=
  match st.scrollback with
  | none => []
  | some pct => [hsep ++ [40] ++ fmt_02d pct ++ [37, 41]]

/-- The formatted pieces that `_draw_status` composes for a channel state, in order. -/
def status_fragments (hsep : List Nat) (st : status_state) : List (List Nat) :=
  frag_usermodes hsep st ++ frag_priv hsep st ++ frag_chan hsep st ++ frag_latency hsep st
    ++ frag_scrollback hsep st

/-- The loop of steps of `status_put` over a list of formatted pieces. -/
def put_all (cols : Nat) : List (List Nat) → status_buf → Flow status_buf
  | [], s => .next s
  | f :: fs, s => (status_put cols s f).bind (put_all cols fs)

/-- A channel of 12 members with modes, on a server with user modes and latency. -/
def example_status : status_state :=
  { server := some { usermodes := [105, 119, 0, 0], latency_delta := 3 },
    buffer_type := .BUFFER_CHANNEL, nick_count := 12, type_flag := 64,
    chanmodes := [110, 116, 0], scrollback := some 5 }

/-- A private chat buffer without a server. -/
def example_status_priv : status_state :=
  { server := none, buffer_type := .BUFFER_PRIVATE, nick_count := 0, type_flag := 0,
    chanmodes := [0], scrollback := none }

/-! ## `_draw_fmt` (draw.c) -/

/-- The store `*(buff + i) = v`; a store outside the buffer is a fault. -/
def store (buff : List Nat) (i v : Nat) : Res (List Nat) :=
  if i < buff.length then .ok (buff.set i v) else .fault

/-- The buffer `buff` and the three counters `*offset`, `*buff_n`, `*text_n` that
`_draw_fmt` works on. -/
structure fmt_state where
  buff : List Nat
  offset : Nat
  buff_n : Nat
  text_n : Nat
  deriving DecidableEq

/-- The function `_draw_fmt(buff, &offset, &buff_n, &text_n, txt, fmt, ...)`: `out` is the
complete output of the format (`none` when `vsnprintf` reports an output error, in which
case the buffer is taken to be untouched by it); the result is the return value and the
buffer and counters after the call. -/
def _draw_fmt (s : fmt_state) (txt : Bool) (out : Option (List Nat)) :
    Res (Nat × fmt_state) :=
  match out with
  | none => (store s.buff 0 0).bind fun b => .ok (0, { s with buff := b })
  | some text =>
    (snprintf s.buff s.offset s.buff_n text).bind fun r =>
      if txt = false ∧ r.2 ≥ s.buff_n then
        (store r.1 0 0).bind fun b => .ok (0, { s with buff := b })
      else if txt = true then
        if r.2 ≥ s.text_n then
          (store r.1 s.text_n 0).bind fun b => .ok (0, { s with buff := b })
        else if r.2 ≥ s.buff_n then .fatal
        else
          .ok (1, { buff := r.1, offset := s.offset + r.2, buff_n := s.buff_n - r.2,
                    text_n := s.text_n - r.2 })
      else
        .ok (1, { buff := r.1, offset := s.offset + r.2, buff_n := s.buff_n - r.2,
                  text_n := s.text_n })

/-- The array `header` of `_draw_buffer_line` and the counters it starts with, for a
header width `head_w`: `sizeof(header) = head_w + sizeof(FG(255) BG(255)) * 4 + 1` with
`sizeof(FG(255) BG(255)) = 23`, `buff_n = sizeof(header) - 1`, `offset = 0` and
`head_n = head_w - 1`. The array is shown zeroed. -/
def header_start (head_w : Nat) : fmt_state :=
  { buff := List.replicate (head_w + 23 * 4 + 1) 0, offset := 0, buff_n := head_w + 23 * 4,
    text_n := head_w - 1 }

/-- The escape sequences `FG(239) BG_R`, sixteen bytes. -/
def example_fg : List Nat :=
  [27, 91, 51, 56, 59, 53, 59, 50, 51, 57, 109, 27, 91, 52, 57, 109]

/-- The text `" 12:34 "` of the time stamp. -/
def example_time : List Nat := [32, 49, 50, 58, 51, 52, 32]

/-! ## `draw`, `draw_all` and the `draw_<bit>` setters (draw.c, draw.h) -/

/-- Minimum columns to safely draw. -/
def COLS_MIN : Nat := 5

/-- Minimum rows to safely draw. -/
def ROWS_MIN : Nat := 5

/-- The union `_draw`: the four one-bit fields of `DRAW_BITS`, and `spare`, which says
whether any other bit of `all_bits` is set. -/
structure draw_bits where
  buffer : Bool
  input : Bool
  nav : Bool
  status : Bool
  spare : Bool
  deriving DecidableEq

/-- The test `_draw.all_bits != 0`. -/
def all_bits (d : draw_bits) : Bool := d.buffer || d.input || d.nav || d.status || d.spare

/-- The spare bits of `all_bits` are set only together with the four flags: the states of
`_draw` that the zeroed static and the operations `draw_all`, `draw_<bit>` and `draw`
produce. -/
def draw_bits_ok (d : draw_bits) : Prop :=
  d.spare = true → d.buffer = true ∧ d.input = true ∧ d.nav = true ∧ d.status = true

/-- The function `draw_all()`: `_draw.all_bits = -1`. -/
def draw_all (_d : draw_bits) : draw_bits :=
  { buffer := true, input := true, nav := true, status := true, spare := true }

/-- The function `draw_buffer()`, generated from `DRAW_BITS`. -/
def draw_buffer (d : draw_bits) : draw_bits := { d with buffer := true }

/-- The function `draw_input()`, generated from `DRAW_BITS`. -/
def draw_input (d : draw_bits) : draw_bits := { d with input := true }

/-- The function `draw_nav()`, generated from `DRAW_BITS`. -/
def draw_nav (d : draw_bits) : draw_bits := { d with nav := true }

/-- The function `draw_status()`, generated from `DRAW_BITS`. -/
def draw_status (d : draw_bits) : draw_bits := { d with status := true }

/-- What `draw()` emits, in order: the placeholder `CLEAR_FULL MOVE(1, 1) "rirc"`, the
cursor save, a call of one of the four region routines (`_draw_buffer` with the rectangle
it is given), the attribute reset, the cursor restore, and the `fflush`. -/
inductive draw_op where
  | placeholder
  | cursor_save
  | region_buffer (cs : coords)
  | region_nav
  | region_input
  | region_status
  | clear_attributes
  | cursor_restore
  | flush
  deriving DecidableEq

/-- The function `draw()` on a terminal of `term_cols` columns and `term_rows` rows: the
result is the state of `_draw` after the call and what was emitted. -/
def draw (d : draw_bits) (term_cols term_rows : Nat) : draw_bits × List draw_op :=
  if all_bits d = false then (d, [])
  else if term_cols < COLS_MIN ∨ term_rows < ROWS_MIN then
    ({ buffer := false, input := false, nav := false, status := false, spare := false },
     [.placeholder, .flush])
  else
    ({ buffer := false, input := false, nav := false, status := false, spare := false },
     [.cursor_save]
       ++ (if d.buffer then [.region_buffer (buffer_coords term_cols term_rows)] else [])
       ++ (if d.nav then [.region_nav] else [])
       ++ (if d.input then [.region_input] else [])
       ++ (if d.status then [.region_status] else [])
       ++ [.clear_attributes, .cursor_restore, .flush])

/-! ## `_draw_buffer_line` (draw.c) -/

/-- One positioned output of `_draw_buffer_line`, with the row and column arguments of its
`MOVE`: the header line (`MOVE(r1, 1)`, the header text composed through `_draw_fmt` is
not part of this record), the separator, and a body segment, the bytes from `print_p1` up
to `print_p2` of the text. -/
inductive line_out where
  | header (row : Nat)
  | sep (row : Nat) (col : Int)
  | text (row col print_p1 print_p2 : Nat)
  deriving DecidableEq, Repr

/-- The row argument of the `MOVE` of an output. -/
def line_out.row : line_out → Nat
  | .header r => r
  | .sep r _ => r
  | .text r _ _ _ => r

/-- The separator block of the body loop: printed when
`(coords.cN - coords.c1) >= sizeof(*sep) + text_w`, where `sizeof(*sep)` is 1, at column
`(int)(coords.cN - (sizeof(*sep) + text_w + 1))`, computed in `size_t`. -/
def sep_out (cs : coords) (text_w r1 : Nat) : List line_out :=
  if u32_sub cs.cN cs.c1 ≥ 1 + text_w then
    [.sep r1 (int_of_uint ((cs.cN + 2 ^ 64 - (1 + text_w + 1)) % 2 ^ 64))]
  else []

/-- Outcome of a loop run with a bound on its iterations: `none` when the bound is used up,
otherwise the outputs so far put in front of the outputs of the rest of the run. -/
def emit (out : List line_out) :
    Option (Res (List line_out × Nat)) → Option (Res (List line_out × Nat))
  | some (.ok (rest, r)) => some (.ok (out ++ rest, r))
  | x => x

/-- The loop `do { ... coords.r1++; } while (*p1 && coords.r1 <= coords.rN);` of
`_draw_buffer_line`, bounded by a number of iterations: the outputs in order and the final
value of `coords.r1`. -/
def line_body (mem : List Nat) (p2 : Nat) (cs : coords) (head_w text_w : Nat) :
    Nat → Nat → Nat → Option (Res (List line_out × Nat))
  | 0, _, _ => none
  | fuel + 1, r1, p1 =>
    match mem[p1]? with
    | none => some .fault
    | some b =>
      if b ≠ 0 then
        match word_wrap (int_of_uint text_w) mem p1 p2 with
        | .ok (print_p2, p1') =>
          match mem[p1']? with
          | none => some .fault
          | some b' =>
            if b' ≠ 0 ∧ u32_add r1 1 ≤ cs.rN then
              emit (sep_out cs text_w r1 ++ [.text r1 head_w p1 print_p2])
                (line_body mem p2 cs head_w text_w fuel (u32_add r1 1) p1')
            else
              some (.ok (sep_out cs text_w r1 ++ [.text r1 head_w p1 print_p2], u32_add r1 1))
        | .fatal => some .fatal
        | .fault => some .fault
      else some (.ok (sep_out cs text_w r1, u32_add r1 1))

/-- The function `_draw_buffer_line(line, coords, head_w, text_w, skip, pad)`: `check_coords`,
the header when `skip == 0`, the skip loop and the body loop, with `p1` and `p2` as offsets
into `line->text`. The result is the outputs in order and the final `coords.r1`. -/
def _draw_buffer_line (line : buffer_line) (cs : coords) (head_w text_w skip : Nat)
    (_pad : Nat) : Option (Res (List line_out × Nat)) :=
  if cs.r1 > cs.rN ∨ cs.c1 > cs.cN then some .fatal
  else
    match skip_wraps (int_of_uint text_w) line.text line.text_len skip 0 with
    | .ok p1 =>
      emit (if skip = 0 then [.header cs.r1] else [])
        (line_body line.text line.text_len cs head_w text_w (line.text_len + 1) cs.r1 p1)
    | .fatal => some .fatal
    | .fault => some .fault

/-- Specification side of the rectangle claim: the `word_wrap` segments of the text from
the cursor `p1` to `end_`, each as (first byte, split), by repeated calls on the advancing
cursor. -/
def wrap_segments (n : Int) (mem : List Nat) (end_ : Nat) : Nat → Nat → List (Nat × Nat)
  | 0, _ => []
  | fuel + 1, p1 =>
    if p1 < end_ then
      match word_wrap n mem p1 end_ with
      | .ok (ret, p1') => (p1, ret) :: wrap_segments n mem end_ fuel p1'
      | _ => []
    else []

/-- Specification side of the rectangle claim: what one row of the body shows, the
separator and the segment of that row when there is one. -/
def row_out (cs : coords) (head_w text_w r1 : Nat) : Option (Nat × Nat) → List line_out
  | some s => sep_out cs text_w r1 ++ [.text r1 head_w s.1 s.2]
  | none => sep_out cs text_w r1

/-- The text `"wrap     testing"` of the `word_wrap` doc comment as a buffer line. -/
def example_line : buffer_line :=
  { from_len := 3,
    text := [119, 114, 97, 112, 32, 32, 32, 32, 32, 116, 101, 115, 116, 105, 110, 103, 0],
    text_len := 16 }

/-! ## Case-insensitive string comparison (C library) -/

/-- The function `tolower` of the C library in the "C" locale, on a byte. -/
def tolower (c : Nat) : Nat := if 65 ≤ c ∧ c ≤ 90 then c + 32 else c

/-- The bytes that a case-insensitive comparison looks at: the bytes of the C string (up
to its first NUL, or the end of the list), each through `tolower`. -/
def lower (s : List Nat) : List Nat := (c_string s).map tolower

/-- Three-way comparison of two byte sequences, byte by byte, a proper prefix being the
smaller one. The result is -1, 0 or 1: callers of `strcasecmp` test its sign only. -/
def cmp_bytes : List Nat → List Nat → Int
  | [], [] => 0
  | [], _ :: _ => -1
  | _ :: _, [] => 1
  | a :: s, b :: t => if a < b then -1 else if b < a then 1 else cmp_bytes s t

/-- The function `strcasecmp` of the C library, up to the magnitude of its result. -/
def strcasecmp (s1 s2 : List Nat) : Int := cmp_bytes (lower s1) (lower s2)

/-- The function `strncasecmp` of the C library, up to the magnitude of its result: the
comparison of the first `n` bytes of the two strings. -/
def strncasecmp (s1 s2 : List Nat) (n : Nat) : Int :=
  cmp_bytes ((lower s1).take n) ((lower s2).take n)

/-! ## AVL tree (utils.c) -/

/-- The type `avl_node` with the fields the functions of `utils.c` use (`height`, `l`, `r`,
`key`, `val`); `null` is the `NULL` pointer, the key is the bytes of its string and the
value an address. A pointer to a node is the subtree below it. -/
inductive avl_node where
  | null
  | node (height : Int) (l r : avl_node) (key : List Nat) (val : Nat)
  deriving DecidableEq, Repr

/-- The macro `H(N)`: `(N == NULL ? 0 : N->height)`. -/
def H : avl_node → Int
  | .null => 0
  | .node h _ _ _ _ => h

/-- How a call of `_avl_add` or `_avl_del` ends: it returns a node, or it leaves through
`longjmp` (with the state of the subtree it was called on at that moment), or it
dereferences `NULL`, or (for the bounded recursion of `_avl_del`) the bound is used up. -/
inductive avl_res where
  | ret (n : avl_node)
  | jmp (n : avl_node)
  | fault
  | out
  deriving DecidableEq, Repr

/-- The node with children `l`, `r` after the assignment
`n->height = MAX(H(n->l), H(n->r)) + 1`. -/
def with_height (l r : avl_node) (k : List Nat) (v : Nat) : avl_node :=
  .node (max (H l) (H r) + 1) l r k v

/-- The function `avl_rotate_R(r)`; `none` when the pivot `r->l` is `NULL`. -/
def avl_rotate_R : avl_node → Option avl_node
  | .node _ (.node _ a b pk pv) c rk rv =>
    some (with_height a (with_height b c rk rv) pk pv)
  | _ => none

/-- The function `avl_rotate_L(r)`; `none` when the pivot `r->r` is `NULL`. -/
def avl_rotate_L : avl_node → Option avl_node
  | .node _ a (.node _ b c pk pv) rk rv =>
    some (with_height (with_height a b rk rv) c pk pv)
  | _ => none

/-- The result of a rotation as the result of the call that returns it. -/
def rotated : Option avl_node → avl_res
  | some n => .ret n
  | none => .fault

/-- The tail of `_avl_add`, "recalculate height and rebalance", for the node with children
`l`, `r`: the double rotation is chosen by comparing `key` with the child's key. -/
def add_rebalance (key : List Nat) (l r : avl_node) (k : List Nat) (v : Nat) : avl_res :=
  if H l - H r > 1 then
    match l with
    | .null => .fault
    | .node _ _ _ lk _ =>
      if strcasecmp key lk > 0 then
        match avl_rotate_L l with
        | some l1 => rotated (avl_rotate_R (with_height l1 r k v))
        | none => .fault
      else rotated (avl_rotate_R (with_height l r k v))
  else if H l - H r < -1 then
    match r with
    | .null => .fault
    | .node _ _ _ rk _ =>
      if strcasecmp rk key > 0 then
        match avl_rotate_R r with
        | some r1 => rotated (avl_rotate_L (with_height l r1 k v))
        | none => .fault
      else rotated (avl_rotate_L (with_height l r k v))
  else .ret (with_height l r k v)

/-- The function `_avl_add(n, key, val)`; `avl_new_node` is taken to succeed. -/
def _avl_add : avl_node → List Nat → Nat → avl_res
  | .null, key, val => .ret (.node 1 .null .null key val)
  | .node h l r k v, key, val =>
    if strcasecmp key k = 0 then .jmp (.node h l r k v)
    else if strcasecmp key k > 0 then
      match _avl_add r key val with
      | .ret r1 => add_rebalance key l r1 k v
      | .jmp r1 => .jmp (.node h l r1 k v)
      | .fault => .fault
      | .out => .out
    else
      match _avl_add l key val with
      | .ret l1 => add_rebalance key l1 r k v
      | .jmp l1 => .jmp (.node h l1 r k v)
      | .fault => .fault
      | .out => .out

/-- The function `avl_add(n, key, val)`: the returned int and the tree at `*n` afterwards
(`none` when the call does not return). -/
def avl_add (n : avl_node) (key : List Nat) (val : Nat) : Option (Nat × avl_node) :=
  match _avl_add n key val with
  | .ret n1 => some (1, n1)
  | .jmp n1 => some (0, n1)
  | _ => none

/-- The tail of `_avl_del`, "recalculate height and rebalance", for the node with children
`l`, `r`: the double rotation is chosen by the heights below the child. -/
def del_rebalance (l r : avl_node) (k : List Nat) (v : Nat) : avl_res :=
  if H l - H r > 1 then
    match l with
    | .null => .fault
    | .node _ ll lr _ _ =>
      if H ll - H lr < 0 then
        match avl_rotate_L l with
        | some l1 => rotated (avl_rotate_R (with_height l1 r k v))
        | none => .fault
      else rotated (avl_rotate_R (with_height l r k v))
  else if H l - H r < -1 then
    match r with
    | .null => .fault
    | .node _ rl rr _ _ =>
      if H rl - H rr > 0 then
        match avl_rotate_R r with
        | some r1 => rotated (avl_rotate_L (with_height l r1 k v))
        | none => .fault
      else rotated (avl_rotate_L (with_height l r k v))
  else .ret (with_height l r k v)

/-- The node reached by `while (next->l) next = next->l;`: its key and value. -/
def leftmost : avl_node → Option (List Nat × Nat)
  | .null => none
  | .node _ .null _ k v => some (k, v)
  | .node _ l _ _ _ => leftmost l

/-- The stores `next->key = t.key; next->val = t.val;` into the node reached by
`while (next->l) next = next->l;`. -/
def set_leftmost (key : List Nat) (val : Nat) : avl_node → avl_node
  | .null => .null
  | .node h .null r _ _ => .node h .null r key val
  | .node h l r k v => .node h (set_leftmost key val l) r k v

/-- The function `_avl_del(n, key)`, its recursion bounded by the first argument. -/
def _avl_del : Nat → avl_node → List Nat → avl_res
  | 0, _, _ => .out
  | _ + 1, .null, _ => .jmp .null
  | fuel + 1, .node h l r k v, key =>
    if strcasecmp key k = 0 then
      match l, r with
      | .node lh ll lr lk lv, .node rh rl rr rk rv =>
        match leftmost (.node rh rl rr rk rv) with
        | none => .fault
        | some (nk, nv) =>
          match _avl_del fuel (set_leftmost k v (.node rh rl rr rk rv)) k with
          | .ret r1 => del_rebalance (.node lh ll lr lk lv) r1 nk nv
          | .jmp r1 => .jmp (.node h (.node lh ll lr lk lv) r1 nk nv)
          | .fault => .fault
          | .out => .out
      | .node lh ll lr lk lv, .null => .ret (.node lh ll lr lk lv)
      | .null, r => .ret r
    else if strcasecmp key k > 0 then
      match _avl_del fuel r key with
      | .ret r1 => del_rebalance l r1 k v
      | .jmp r1 => .jmp (.node h l r1 k v)
      | .fault => .fault
      | .out => .out
    else
      match _avl_del fuel l key with
      | .ret l1 => del_rebalance l1 r k v
      | .jmp l1 => .jmp (.node h l1 r k v)
      | .fault => .fault
      | .out => .out

/-- Number of nodes of a tree. -/
def avl_size : avl_node → Nat
  | .null => 0
  | .node _ l r _ _ => avl_size l + avl_size r + 1

/-- The function `avl_del(n, key)`: the returned int and the tree at `*n` afterwards
(`none` when the call does not return). -/
def avl_del (n : avl_node) (key : List Nat) : Option (Nat × avl_node) :=
  match _avl_del (avl_size n + 1) n key with
  | .ret n1 => some (1, n1)
  | .jmp n1 => some (0, n1)
  | _ => none

/-- The function `_avl_get(n, key, len)`: the node found, `none` for `longjmp`. -/
def _avl_get : avl_node → List Nat → Nat → Option avl_node
  | .null, _, _ => none
  | .node h l r k v, key, len =>
    if strncasecmp key k len > 0 then _avl_get r key len
    else if strncasecmp key k len < 0 then _avl_get l key len
    else some (.node h l r k v)

/-- The function `avl_get(n, key, len)`: the node found or `NULL`. -/
def avl_get (n : avl_node) (key : List Nat) (len : Nat) : avl_node :=
  match _avl_get n key len with
  | some m => m
  | none => .null

/-- Specification side: the (key, value) entries of a tree in order, left to right. -/
def entries : avl_node → List (List Nat × Nat)
  | .null => []
  | .node _ l r k v => entries l ++ (k, v) :: entries r

/-- Specification side: the keys of a tree in order. -/
def avl_keys (n : avl_node) : List (List Nat) := (entries n).map Prod.fst

/-- Specification side: the true height of a tree. -/
def height : avl_node → Nat
  | .null => 0
  | .node _ l r _ _ => max (height l) (height r) + 1

/-- Specification side: every stored height equals the true height of its subtree. -/
def heights_ok : avl_node → Bool
  | .null => true
  | .node h l r _ _ =>
    decide (h = ((max (height l) (height r) + 1 : Nat) : Int)) && heights_ok l && heights_ok r

/-- Specification side: at every node the heights of the two subtrees differ by at most
one. -/
def balanced : avl_node → Bool
  | .null => true
  | .node _ l r _ _ =>
    decide (height l ≤ height r + 1 ∧ height r ≤ height l + 1) && balanced l && balanced r

/-- Specification side: a binary search tree under case-insensitive comparison, the keys
in order strictly increasing. -/
def bst (n : avl_node) : Prop := (avl_keys n).Pairwise (fun a b => strcasecmp a b < 0)

instance bst_decidable (n : avl_node) : Decidable (bst n) := by
  unfold bst
  infer_instance

/-- A tree of the three keys `b`, `D`, `f`. -/
def example_tree : avl_node :=
  .node 2 (.node 1 .null .null [98] 1) (.node 1 .null .null [102] 3) [68] 2

/-! ## `getarg` and `parse` (utils.c) -/

/-- A loop `while (*ptr && cond(*ptr)) ptr++;` over the bytes of the object from `ptr` on;
the result is the final `ptr`. Running off the object is a fault. -/
def skip_while (cond : Nat → Bool) : List Nat → Nat → Res Nat
  | [], _ => .fault
  | b :: rest, ptr => if b ≠ 0 ∧ cond b = true then skip_while cond rest (ptr + 1) else .ok ptr

/-- The test `strchr(sep, c)` for a byte `c` other than NUL: `c` occurs in `sep`. -/
def strchr (sep : List Nat) (c : Nat) : Bool := decide (c ∈ sep)

/-- The function `getarg(str, sep)` on the object `mem`, for `*str` given as an offset
(`none` for `NULL`) and `sep` given by its bytes: the result is the object, the new `*str`
and the returned pointer. -/
def getarg (mem : List Nat) (str : Option Nat) (sep : List Nat) :
    Res (List Nat × Option Nat × Option Nat) :=
  match str with
  | none => .ok (mem, none, none)
  | some ptr0 =>
    (skip_while (strchr sep) (mem.drop ptr0) ptr0).bind fun ptr =>
      match mem[ptr]? with
      | none => .fault
      | some b =>
        if b = 0 then .ok (mem, some ptr0, none)
        else
          (skip_while (fun c => !strchr sep c) (mem.drop ptr) ptr).bind fun ptr2 =>
            match mem[ptr2]? with
            | none => .fault
            | some b2 =>
              (store mem ptr2 0).bind fun mem2 =>
                .ok (mem2, some (ptr2 + (if b2 ≠ 0 ∧ strchr sep b2 = true then 1 else 0)),
                  some ptr)

/-- The fields of `parsed_mesg` that `parse` sets, as offsets into the message (`none` for
`NULL`); `from_` is the field `from`. -/
structure parsed_mesg where
  from_ : Option Nat
  hostinfo : Option Nat
  command : Option Nat
  params : Option Nat
  trailing : Option Nat
  deriving DecidableEq, Repr

/-- The prefix loop `while (*mesg) { ... mesg++; }` of `parse` over the bytes of the object
from `mesg` on (its stores are behind the bytes still to be read): the result is the
object, the final `mesg` and `p->hostinfo`. -/
def prefix_scan : List Nat → List Nat → Nat → Option Nat → Res (List Nat × Nat × Option Nat)
  | _, [], _, _ => .fault
  | mem, b :: rest, mesg, hostinfo =>
    if b = 0 then .ok (mem, mesg, hostinfo)
    else if b = 33 ∨ (b = 64 ∧ hostinfo = none) then
      match store mem mesg 0 with
      | .ok mem1 =>
        match rest with
        | [] => prefix_scan mem1 [] (mesg + 2) (some (mesg + 1))
        | _ :: rest1 => prefix_scan mem1 rest1 (mesg + 2) (some (mesg + 1))
      | .fatal => .fatal
      | .fault => .fault
    else if b = 32 then
      (store mem mesg 0).bind fun mem1 => .ok (mem1, mesg + 1, hostinfo)
    else prefix_scan mem rest (mesg + 1) hostinfo

/-- The parameter loop `while (*mesg) { ... }` of `parse`, bounded by a number of
iterations (`none` when the bound is used up): the result is the fields set and
`param_end`. -/
def parse_params (mem : List Nat) :
    Nat → Nat → parsed_mesg → Option Nat → Int → Option (Res (parsed_mesg × Option Nat))
  | 0, _, _, _, _ => none
  | fuel + 1, mesg, p, param_end, param_count =>
    match mem[mesg]? with
    | none => some .fault
    | some b =>
      if b = 0 then some (.ok (p, param_end))
      else
        match skip_while (fun c => c == 32) (mem.drop mesg) mesg with
        | .ok m1 =>
          match mem[m1]? with
          | none => some .fault
          | some b1 =>
            if b1 ≠ 0 ∧ param_count = 14 then some (.ok ({ p with trailing := some m1 }, param_end))
            else if b1 ≠ 0 ∧ b1 = 58 then
              some (.ok ({ p with trailing := some (m1 + 1) }, param_end))
            else
              match skip_while (fun c => c != 32) (mem.drop m1) m1 with
              | .ok m2 =>
                parse_params mem fuel m2
                  (if b1 ≠ 0 ∧ p.params = none then { p with params := some m1 } else p)
                  (some m2) (param_count + 1)
              | .fatal => some .fatal
              | .fault => some .fault
        | .fatal => some .fatal
        | .fault => some .fault

/-- The part of `parse` up to the command: leading blanks, the prefix and `getarg`; the
result is the object, `mesg` after the command and the fields set, `none` in place of the
fields when `getarg` returns `NULL`. -/
def parse_head (mem : List Nat) (mesg : Nat) : Res (List Nat × Nat × Option parsed_mesg) :=
  (skip_while (fun c => c == 32) (mem.drop mesg) mesg).bind fun m0 =>
    match mem[m0]? with
    | none => .fault
    | some b =>
      (if b = 58 then
          (prefix_scan mem (mem.drop (m0 + 1)) (m0 + 1) none).bind fun r =>
            .ok (r.1, r.2.1, some (m0 + 1), r.2.2)
        else .ok (mem, m0, none, none)).bind fun r =>
        (getarg r.1 (some r.2.1) [32]).bind fun g =>
          match g.2.2, g.2.1 with
          | some cmd, some m1 =>
            .ok (g.1, m1, some { from_ := r.2.2.1, hostinfo := r.2.2.2, command := some cmd,
                                  params := none, trailing := none })
          | _, _ => .ok (g.1, r.2.1, none)

/-- The function `parse(p, mesg)` on the object `mem` that holds the message from offset
`mesg`: the result is the object afterwards and the returned `p` (`none` for `NULL`). -/
def parse (mem : List Nat) (mesg : Nat) : Option (Res (List Nat × Option parsed_mesg)) :=
  match parse_head mem mesg with
  | .ok (mem1, _, none) => some (.ok (mem1, none))
  | .ok (mem1, m1, some p) =>
    match parse_params mem1 (mem1.length + 1) m1 p none 0 with
    | some (.ok (p1, some param_end)) =>
      some ((store mem1 param_end 0).bind fun mem2 => .ok (mem2, some p1))
    | some (.ok (p1, none)) => some (.ok (mem1, some p1))
    | some .fatal => some .fatal
    | some .fault => some .fault
    | none => none
  | .fatal => some .fatal
  | .fault => some .fault

/-- The C string at offset `p` of an object; the empty list for `NULL`. -/
def string_at (mem : List Nat) : Option Nat → List Nat
  | some p => c_string (mem.drop p)
  | none => []

/-- The message `C a a a a a a a a a a a a a a :t`: a command, 14 middle parameters and a
trailing parameter introduced by a colon. -/
def example_mesg_14 : List Nat :=
  [67] ++ (List.replicate 14 [32, 97]).flatten ++ [32, 58, 116, 0]

/-- The message `C a a a a a a a a a a a a a :t`: a command, 13 middle parameters and a
trailing parameter introduced by a colon. -/
def example_mesg_13 : List Nat :=
  [67] ++ (List.replicate 13 [32, 97]).flatten ++ [32, 58, 116, 0]

/-- The strings that `parse` leaves for the command, the parameters and the trailing
parameter of the message at offset 0 of `mem`; `none` when `parse` returns `NULL` or does
not return. -/
def parse_strings (mem : List Nat) : Option (List Nat × List Nat × List Nat) :=
  match parse mem 0 with
  | some (.ok (mem1, some p)) =>
    some (string_at mem1 p.command, string_at mem1 p.params, string_at mem1 p.trailing)
  | _ => none

/-! ## `check_pinged` (utils.c) -/

/-- The function `irc_isnickchar(c)`. -/
def irc_isnickchar (c : Nat) : Bool :=
  decide (c = 45 ∨ (48 ≤ c ∧ c ≤ 57) ∨ (65 ≤ c ∧ c ≤ 125))

/-- The loop `while (!(*mesg >= 0x41 && *mesg <= 0x7D)) mesg++;` of `check_pinged` over the
bytes of the object from `mesg` on; the result is the final `mesg`. Running off the object
is a fault. -/
def skip_non_nick : List Nat → Nat → Res Nat
  | [], _ => .fault
  | b :: rest, mesg => if ¬ (65 ≤ b ∧ b ≤ 125) then skip_non_nick rest (mesg + 1) else .ok mesg

/-- The loop `while (*mesg) { ... }` of `check_pinged`, bounded by a number of iterations
(`none` when the bound is used up); the result is the returned int. The object `mem` holds
the message, `nick` the bytes of the nick and `len` is `strlen(nick)`. -/
def check_pinged_loop (mem nick : List Nat) (len : Nat) : Nat → Nat → Option (Res Nat)
  | 0, _ => none
  | fuel + 1, mesg =>
    match mem[mesg]? with
    | none => some .fault
    | some b =>
      if b = 0 then some (.ok 0)
      else
        match skip_non_nick (mem.drop mesg) mesg with
        | .ok m1 =>
          if strncasecmp (mem.drop m1) nick len = 0 then
            match mem[m1 + len]? with
            | none => some .fault
            | some c =>
              if irc_isnickchar c = false then some (.ok 1)
              else
                match skip_while (fun c => c != 32) (mem.drop m1) m1 with
                | .ok m2 => check_pinged_loop mem nick len fuel m2
                | .fatal => some .fatal
                | .fault => some .fault
          else
            match skip_while (fun c => c != 32) (mem.drop m1) m1 with
            | .ok m2 => check_pinged_loop mem nick len fuel m2
            | .fatal => some .fatal
            | .fault => some .fault
        | .fatal => some .fatal
        | .fault => some .fault

/-- The function `check_pinged(mesg, nick)` for the message held from offset 0 of the
object `mem`: the returned int, a fault for a read outside the object. -/
def check_pinged (mem nick : List Nat) : Option (Res Nat) :=
  check_pinged_loop mem nick (c_string nick).length (mem.length + 1) 0

/-- A chain of writes `if (!_draw_fmt(...)) goto print_header;`: the writes of the list
(the `txt` flag and the complete output of the format) are made in order until one
returns 0. The result is the buffer and counters at `print_header` and the `txt` flag of
the write that returned 0, `none` when every write returned 1. -/
def fmt_chain : fmt_state → List (Bool × List Nat) → Res (fmt_state × Option Bool)
  | s, [] => .ok (s, none)
  | s, w :: rest =>
    match _draw_fmt s w.1 (some w.2) with
    | .ok (r, s1) => if r = 0 then .ok (s1, some w.1) else fmt_chain s1 rest
    | .fatal => .fatal
    | .fault => .fault

/-- The writes of the header composition of `_draw_buffer_line`, in order: the styling
`FG(%d) BG_R`, the text of the time stamp, the text of the pad, the styling `FG_R BG_R`,
the styling chosen by `line->type` (`none` for `BUFFER_LINE_T_SIZE`, which writes nothing)
and the text of the author name; each given by the complete output of its format. -/
def header_writes (fg time padding reset : List Nat) (colour : Option (List Nat))
    (author : List Nat) : List (Bool × List Nat) :=
  [(false, fg), (true, time), (true, padding), (false, reset)] ++
    (match colour with
      | some c => [(false, c)]
      | none => []) ++
    [(true, author)]

/-! ## Facts about `word_wrap` -/

theorem wrap_scan_spec (mem : List Nat) (str : Nat) :
    ∀ k : Nat, str + k < mem.length →
      ∃ r, wrap_scan mem str k = .ok r ∧ r ≤ k ∧
        (r = 0 ∨ mem[str + r]? = some 32) ∧
        ∀ i, r < i → i ≤ k → mem[str + i]? ≠ some 32 := by
  intro k
  induction k with
  | zero =>
    intro _
    exact ⟨0, rfl, le_refl _, Or.inl rfl, fun i h1 h2 => by omega⟩
  | succ k ih =>
    intro hk
    have hb : mem[str + (k + 1)]? = some (mem[str + (k + 1)]) := List.getElem?_eq_getElem hk
    by_cases h32 : mem[str + (k + 1)] = 32
    · refine ⟨k + 1, ?_, le_refl _, Or.inr ?_, fun i h1 h2 => by omega⟩
      · simp [wrap_scan, hb, h32]
      · rw [hb, h32]
    · obtain ⟨r, hr, hrk, hr0, hall⟩ := ih (by omega)
      refine ⟨r, ?_, by omega, hr0, ?_⟩
      · simp [wrap_scan, hb, h32, hr]
      · intro i h1 h2
        by_cases hi : i = k + 1
        · subst hi
          rw [hb]
          simpa using h32
        · exact hall i h1 (by omega)

theorem wrap_trim_spec (mem : List Nat) (str : Nat) :
    ∀ k : Nat, str + k ≤ mem.length →
      ∃ j, wrap_trim mem str k = .ok j ∧ j ≤ k ∧
        (∀ i, j ≤ i → i < k → mem[str + i]? = some 32) ∧
        (j = 0 ∨ ∃ b, mem[str + (j - 1)]? = some b ∧ b ≠ 32) := by
  intro k
  induction k with
  | zero =>
    intro _
    exact ⟨0, rfl, le_refl _, fun i h1 h2 => by omega, Or.inl rfl⟩
  | succ k ih =>
    intro hk
    have hlt : str + k < mem.length := by omega
    have hb : mem[str + k]? = some (mem[str + k]) := List.getElem?_eq_getElem hlt
    by_cases h32 : mem[str + k] = 32
    · obtain ⟨j, hj, hjk, hall, hj0⟩ := ih (by omega)
      refine ⟨j, ?_, by omega, ?_, hj0⟩
      · simp [wrap_trim, hb, h32, hj]
      · intro i h1 h2
        by_cases hi : i = k
        · subst hi
          rw [hb, h32]
        · exact hall i h1 (by omega)
    · refine ⟨k + 1, ?_, le_refl _, fun i h1 h2 => by omega, Or.inr ⟨mem[str + k], ?_, h32⟩⟩
      · simp [wrap_trim, hb, h32]
      · simp

theorem wrap_skip_spec (mem : List Nat) (e : Nat) (he : ∃ b, mem[e]? = some b ∧ b ≠ 32) :
    ∀ d p : Nat, p + d = e →
      ∃ t, wrap_skip (mem.drop p) p = .ok t ∧ p ≤ t ∧ t ≤ e ∧
        (∀ i, p ≤ i → i < t → mem[i]? = some 32) ∧
        (∃ b, mem[t]? = some b ∧ b ≠ 32) := by
  obtain ⟨b0, hb0, hne0⟩ := he
  have helt : e < mem.length := by
    by_contra hcon
    rw [List.getElem?_eq_none (by omega)] at hb0
    exact Option.noConfusion hb0
  intro d
  induction d with
  | zero =>
    intro p hp
    have hpe : p = e := by omega
    subst hpe
    have hget : mem[p] = b0 := by
      rw [List.getElem?_eq_getElem helt] at hb0
      exact Option.some.inj hb0
    refine ⟨p, ?_, le_refl _, le_refl _, fun i h1 h2 => by omega, ⟨b0, hb0, hne0⟩⟩
    rw [List.drop_eq_getElem_cons helt]
    simp [wrap_skip, hget, hne0]
  | succ d ih =>
    intro p hp
    have hplt : p < mem.length := by omega
    have hb : mem[p]? = some (mem[p]) := List.getElem?_eq_getElem hplt
    rw [List.drop_eq_getElem_cons hplt]
    by_cases h32 : mem[p] = 32
    · obtain ⟨t, ht, hpt, hte, hall, hlast⟩ := ih (p + 1) (by omega)
      refine ⟨t, ?_, by omega, hte, ?_, hlast⟩
      · simp [wrap_skip, h32, ht]
      · intro i h1 h2
        by_cases hi : i = p
        · subst hi
          rw [hb, h32]
        · exact hall i (by omega) h2
    · refine ⟨p, ?_, le_refl _, by omega, fun i h1 h2 => by omega, ⟨mem[p], hb, h32⟩⟩
      simp [wrap_skip, h32]

theorem word_wrap_long (n : Nat) (mem : List Nat) (str end_ : Nat)
    (hn : 1 ≤ n) (hlong : str + n < end_) :
    word_wrap (n : Int) mem str end_ =
      (wrap_scan mem str n).bind fun k =>
        if k = 0 then .ok (str + n, str + n)
        else
          (wrap_trim mem str k).bind fun j =>
            (wrap_skip (mem.drop (str + k)) (str + k)).bind fun tmp =>
              .ok (str + j, tmp) := by
  have h1 : ¬ ((n : Int) < 1) := by omega
  have h2 : ¬ ((end_ : Int) - (str : Int) ≤ (n : Int)) := by omega
  simp [word_wrap, h1, h2]

theorem word_wrap_at_space (n : Nat) (mem : List Nat) (str end_ k : Nat)
    (hn : 1 ≤ n) (hlong : str + n < end_) (hnul : ∃ b, mem[end_]? = some b ∧ b ≠ 32)
    (hk1 : 1 ≤ k) (hkn : k ≤ n) (hsp : mem[str + k]? = some 32)
    (hmax : ∀ i, k < i → i ≤ n → mem[str + i]? ≠ some 32) :
    ∃ j t, word_wrap (n : Int) mem str end_ = .ok (str + j, t) ∧ j ≤ k ∧
      (∀ i, j ≤ i → i < k → mem[str + i]? = some 32) ∧
      (j = 0 ∨ ∃ b, mem[str + (j - 1)]? = some b ∧ b ≠ 32) ∧
      str + k ≤ t ∧ t ≤ end_ ∧
      (∀ i, str + k ≤ i → i < t → mem[i]? = some 32) ∧
      (∃ b, mem[t]? = some b ∧ b ≠ 32) := by
  have helt : end_ < mem.length := by
    obtain ⟨b0, hb0, _⟩ := hnul
    by_contra hcon
    rw [List.getElem?_eq_none (by omega)] at hb0
    exact Option.noConfusion hb0
  obtain ⟨r, hr, hrn, hr0, hrall⟩ := wrap_scan_spec mem str n (by omega)
  have hrk : r = k := by
    rcases Nat.lt_trichotomy r k with h | h | h
    · exact absurd hsp (hrall k h hkn)
    · exact h
    · rcases hr0 with h0 | h0
      · omega
      · exact absurd h0 (hmax r h hrn)
  subst hrk
  obtain ⟨j, hj, hjr, hjall, hj0⟩ := wrap_trim_spec mem str r (by omega)
  obtain ⟨t, ht, hpt, hte, htall, htlast⟩ :=
    wrap_skip_spec mem end_ hnul (end_ - (str + r)) (str + r) (by omega)
  refine ⟨j, t, ?_, hjr, hjall, hj0, hpt, hte, htall, htlast⟩
  have hne : r ≠ 0 := by omega
  rw [word_wrap_long n mem str end_ hn hlong]
  simp [Res.bind, hr, hne, hj, ht]

theorem getElem?_nul_ne_space (mem : List Nat) (e : Nat) (h : mem[e]? = some 0) :
    ∃ b, mem[e]? = some b ∧ b ≠ 32 :=
  ⟨0, h, by decide⟩

theorem word_wrap_no_space (n : Nat) (mem : List Nat) (str end_ : Nat)
    (hn : 1 ≤ n) (hlong : str + n < end_) (hlen : end_ ≤ mem.length)
    (hnone : ∀ i, 1 ≤ i → i ≤ n → mem[str + i]? ≠ some 32) :
    word_wrap (n : Int) mem str end_ = .ok (str + n, str + n) := by
  obtain ⟨r, hr, hrn, hr0, _⟩ := wrap_scan_spec mem str n (by omega)
  have hr00 : r = 0 := by
    rcases hr0 with h0 | h0
    · exact h0
    · by_contra hne
      exact hnone r (by omega) hrn h0
  subst hr00
  rw [word_wrap_long n mem str end_ hn hlong]
  simp [Res.bind, hr]

theorem word_wrap_first_n (n : Nat) (mem : List Nat) (str end_ : Nat)
    (hn : 1 ≤ n) (hlong : str + n < end_) (hnul : ∃ b, mem[end_]? = some b ∧ b ≠ 32)
    (hnosp : ∀ i, i < n → mem[str + i]? ≠ some 32) :
    ∃ t, word_wrap (n : Int) mem str end_ = .ok (str + n, t) := by
  have helt : end_ < mem.length := by
    obtain ⟨b0, hb0, _⟩ := hnul
    by_contra hcon
    rw [List.getElem?_eq_none (by omega)] at hb0
    exact Option.noConfusion hb0
  by_cases hsp : mem[str + n]? = some 32
  · obtain ⟨j, t, hw, hjn, hjall, _, _⟩ :=
      word_wrap_at_space n mem str end_ n hn hlong hnul hn (le_refl _) hsp
        (fun i h1 h2 => by omega)
    have hj : j = n := by
      by_contra hne
      exact hnosp j (by omega) (hjall j (le_refl _) (by omega))
    subst hj
    exact ⟨t, hw⟩
  · refine ⟨str + n, word_wrap_no_space n mem str end_ hn hlong (by omega) ?_⟩
    intro i h1 h2
    by_cases hi : i = n
    · subst hi
      exact hsp
    · exact hnosp i (by omega)

theorem word_wrap_progress (n : Nat) (mem : List Nat) (str end_ : Nat)
    (hn : 1 ≤ n) (hlt : str < end_) (hnul : ∃ b, mem[end_]? = some b ∧ b ≠ 32) :
    ∃ ret str', word_wrap (n : Int) mem str end_ = .ok (ret, str') ∧
      str < str' ∧ str' ≤ end_ ∧ str ≤ ret ∧ ret ≤ str' := by
  have helt : end_ < mem.length := by
    obtain ⟨b0, hb0, _⟩ := hnul
    by_contra hcon
    rw [List.getElem?_eq_none (by omega)] at hb0
    exact Option.noConfusion hb0
  by_cases hfit : end_ ≤ str + n
  · refine ⟨end_, end_, ?_, hlt, le_refl _, by omega, le_refl _⟩
    have h1 : ¬ ((n : Int) < 1) := by omega
    have h2 : (end_ : Int) - (str : Int) ≤ (n : Int) := by omega
    simp [word_wrap, h1, h2]
  · have hlong : str + n < end_ := by omega
    obtain ⟨r, hr, hrn, hr0, hrall⟩ := wrap_scan_spec mem str n (by omega)
    by_cases hz : r = 0
    · subst hz
      refine ⟨str + n, str + n, ?_, by omega, by omega, by omega, le_refl _⟩
      rw [word_wrap_long n mem str end_ hn hlong]
      simp [Res.bind, hr]
    · have hsp : mem[str + r]? = some 32 := by
        rcases hr0 with h0 | h0
        · exact absurd h0 hz
        · exact h0
      obtain ⟨j, t, hw, hjr, _, _, hkt, hte, _, _⟩ :=
        word_wrap_at_space n mem str end_ r hn hlong hnul (by omega) hrn hsp hrall
      have hr1 : 1 ≤ r := Nat.pos_of_ne_zero hz
      have h3 : str < t := lt_of_lt_of_le (by omega) hkt
      have h4 : str + j ≤ t := le_trans (by omega) hkt
      exact ⟨str + j, t, hw, h3, hte, Nat.le_add_right _ _, h4⟩

theorem skip_wraps_reaches_end (n : Nat) (mem : List Nat) (end_ : Nat)
    (hn : 1 ≤ n) (hnul : ∃ b, mem[end_]? = some b ∧ b ≠ 32) :
    ∀ d str : Nat, str ≤ end_ → end_ - str ≤ d →
      ∃ k, k ≤ end_ - str ∧ skip_wraps (n : Int) mem end_ k str = .ok end_ := by
  intro d
  induction d with
  | zero =>
    intro str h1 h2
    have : str = end_ := by omega
    subst this
    exact ⟨0, by omega, rfl⟩
  | succ d ih =>
    intro str h1 h2
    by_cases heq : str = end_
    · subst heq
      exact ⟨0, by omega, rfl⟩
    · obtain ⟨ret, str', hw, hlt, hle, _, _⟩ :=
        word_wrap_progress n mem str end_ hn (by omega) hnul
      obtain ⟨k, hk, hs⟩ := ih str' hle (by omega)
      refine ⟨k + 1, by omega, ?_⟩
      simp [skip_wraps, hw, Res.bind, hs]

/-! ## Claims about `word_wrap` -/

/-- C3. `word_wrap` breaking at a space: for `n ≥ 1`, a span `[str, end_)` longer than
`n` with NUL at `end_`, and `k` the greatest offset in `1..n` holding a space, the
returned split is `str + j` where `j` is the least offset with only spaces at offsets
`j..k-1` (so the segment is empty or ends in a non-space byte), and the cursor moves to
the first offset at or after `k` whose byte is not a space, at most `end_`. -/
theorem word_wrap_break_at_space (n : Nat) (mem : List Nat) (str end_ k : Nat)
    (hn : 1 ≤ n) (hlong : str + n < end_) (hnul : mem[end_]? = some 0)
    (hk1 : 1 ≤ k) (hkn : k ≤ n) (hsp : mem[str + k]? = some 32)
    (hmax : ∀ i, k < i → i ≤ n → mem[str + i]? ≠ some 32) :
    ∃ j t, word_wrap (n : Int) mem str end_ = .ok (str + j, t) ∧ j ≤ k ∧
      (∀ i, j ≤ i → i < k → mem[str + i]? = some 32) ∧
      (j = 0 ∨ ∃ b, mem[str + (j - 1)]? = some b ∧ b ≠ 32) ∧
      str + k ≤ t ∧ t ≤ end_ ∧
      (∀ i, str + k ≤ i → i < t → mem[i]? = some 32) ∧
      (∃ b, mem[t]? = some b ∧ b ≠ 32) :=
  word_wrap_at_space n mem str end_ k hn hlong (getElem?_nul_ne_space mem end_ hnul)
    hk1 hkn hsp hmax

/-- The example of the doc comment of `word_wrap`: 7 columns on `"wrap     testing"`
returns offset 4 and leaves the cursor on offset 9. -/
theorem word_wrap_break_at_space_witness :
    word_wrap 7 [119, 114, 97, 112, 32, 32, 32, 32, 32, 116, 101, 115, 116, 105, 110, 103, 0]
        0 16 = .ok (4, 9) ∧
    ∃ j t, word_wrap ((7 : Nat) : Int)
        [119, 114, 97, 112, 32, 32, 32, 32, 32, 116, 101, 115, 116, 105, 110, 103, 0]
        0 16 = .ok (0 + j, t) ∧ j ≤ 7 ∧
      (∀ i, j ≤ i → i < 7 →
        [119, 114, 97, 112, 32, 32, 32, 32, 32, 116, 101, 115, 116, 105, 110, 103, 0][0 + i]?
          = some 32) ∧
      (j = 0 ∨ ∃ b,
        [119, 114, 97, 112, 32, 32, 32, 32, 32, 116, 101, 115, 116, 105, 110, 103, 0][0 + (j - 1)]?
          = some b ∧ b ≠ 32) ∧
      0 + 7 ≤ t ∧ t ≤ 16 ∧
      (∀ i, 0 + 7 ≤ i → i < t →
        [119, 114, 97, 112, 32, 32, 32, 32, 32, 116, 101, 115, 116, 105, 110, 103, 0][i]?
          = some 32) ∧
      (∃ b,
        [119, 114, 97, 112, 32, 32, 32, 32, 32, 116, 101, 115, 116, 105, 110, 103, 0][t]?
          = some b ∧ b ≠ 32) :=
  ⟨by decide,
   word_wrap_break_at_space 7
     [119, 114, 97, 112, 32, 32, 32, 32, 32, 116, 101, 115, 116, 105, 110, 103, 0] 0 16 7
     (by decide) (by decide) (by decide) (by decide) (by decide) (by decide)
     (fun i h1 h2 => absurd h2 (Nat.not_le.mpr h1))⟩

/-- C4. `word_wrap` hard break: for `n ≥ 1` and a span `[str, end_)` longer than `n`
(NUL at `end_`) whose first `n` bytes hold no space, the returned split is exactly
`str + n`; and when no space occurs at offsets `1..n` the cursor is `str + n` too. -/
theorem word_wrap_hard_break (n : Nat) (mem : List Nat) (str end_ : Nat)
    (hn : 1 ≤ n) (hlong : str + n < end_) (hnul : mem[end_]? = some 0)
    (hnosp : ∀ i, i < n → mem[str + i]? ≠ some 32) :
    ∃ t, word_wrap (n : Int) mem str end_ = .ok (str + n, t) ∧
      ((∀ i, 1 ≤ i → i ≤ n → mem[str + i]? ≠ some 32) → t = str + n) := by
  obtain ⟨t, ht⟩ := word_wrap_first_n n mem str end_ hn hlong
    (getElem?_nul_ne_space mem end_ hnul) hnosp
  refine ⟨t, ht, fun hnone => ?_⟩
  have helt : end_ < mem.length := by
    by_contra hcon
    rw [List.getElem?_eq_none (by omega)] at hnul
    exact Option.noConfusion hnul
  have h2 := word_wrap_no_space n mem str end_ hn hlong (by omega) hnone
  rw [h2] at ht
  injection ht with ht
  injection ht with _ ht
  exact ht.symm

/-- A hard break of `"abcdefgh"` at 3 columns: split and cursor both at offset 3. -/
theorem word_wrap_hard_break_witness :
    ∃ t, word_wrap ((3 : Nat) : Int) [97, 98, 99, 100, 101, 102, 103, 104, 0] 0 8
        = .ok (0 + 3, t) ∧ t = 0 + 3 :=
  (word_wrap_hard_break 3 [97, 98, 99, 100, 101, 102, 103, 104, 0] 0 8
    (by decide) (by decide) (by decide)
    (fun i hi => by
      have h : ∀ j, j < 3 → [97, 98, 99, 100, 101, 102, 103, 104, 0][0 + j]? ≠ some 32 := by
        decide
      exact h i hi)).imp
    (fun t ht => ⟨ht.1, ht.2 (fun i _ hi => by
      have h : ∀ j, j ≤ 3 → [97, 98, 99, 100, 101, 102, 103, 104, 0][0 + j]? ≠ some 32 := by
        decide
      exact h i hi)⟩)

/-- C5. `word_wrap` when the whole span fits: for `n ≥ 1` and `end_ - str ≤ n` (the
empty span included) the call returns `end_` and sets the cursor to `end_`, whatever the
bytes are. -/
theorem word_wrap_all_fits (n : Int) (mem : List Nat) (str end_ : Nat)
    (hn : 1 ≤ n) (hfit : (end_ : Int) - (str : Int) ≤ n) :
    word_wrap n mem str end_ = .ok (end_, end_) := by
  have h1 : ¬ (n < 1) := by omega
  simp [word_wrap, h1, hfit]

/-- The remainder `"testing"` of the doc comment example fits 7 columns. -/
theorem word_wrap_all_fits_witness :
    word_wrap 7 [119, 114, 97, 112, 32, 32, 32, 32, 32, 116, 101, 115, 116, 105, 110, 103, 0]
      9 16 = .ok (16, 16) :=
  word_wrap_all_fits 7
    [119, 114, 97, 112, 32, 32, 32, 32, 32, 116, 101, 115, 116, 105, 110, 103, 0] 9 16
    (by decide) (by decide)

/-- C6. `word_wrap` is restartable and makes progress: for `n ≥ 1` and a non-empty span
`[str, end_)` with NUL at `end_`, one call succeeds with the new cursor strictly greater
than `str` and at most `end_`, and `str ≤ returned split ≤ new cursor`; and repeated
calls on the advancing cursor reach `end_` within `end_ - str` calls. -/
theorem word_wrap_restartable (n : Nat) (mem : List Nat) (str end_ : Nat)
    (hn : 1 ≤ n) (hlt : str < end_) (hnul : mem[end_]? = some 0) :
    (∃ ret str', word_wrap (n : Int) mem str end_ = .ok (ret, str') ∧
      str < str' ∧ str' ≤ end_ ∧ str ≤ ret ∧ ret ≤ str') ∧
    ∃ k, k ≤ end_ - str ∧ skip_wraps (n : Int) mem end_ k str = .ok end_ :=
  ⟨word_wrap_progress n mem str end_ hn hlt (getElem?_nul_ne_space mem end_ hnul),
   skip_wraps_reaches_end n mem end_ hn (getElem?_nul_ne_space mem end_ hnul)
     (end_ - str) str (Nat.le_of_lt hlt) (le_refl _)⟩

/-- Wrapping `"wrap     testing"` at 7 columns from its start. -/
theorem word_wrap_restartable_witness :
    (∃ ret str', word_wrap ((7 : Nat) : Int)
        [119, 114, 97, 112, 32, 32, 32, 32, 32, 116, 101, 115, 116, 105, 110, 103, 0] 0 16
          = .ok (ret, str') ∧
      0 < str' ∧ str' ≤ 16 ∧ 0 ≤ ret ∧ ret ≤ str') ∧
    ∃ k, k ≤ 16 - 0 ∧ skip_wraps ((7 : Nat) : Int)
        [119, 114, 97, 112, 32, 32, 32, 32, 32, 116, 101, 115, 116, 105, 110, 103, 0] 16 k 0
          = .ok 16 :=
  word_wrap_restartable 7
    [119, 114, 97, 112, 32, 32, 32, 32, 32, 116, 101, 115, 116, 105, 110, 103, 0] 0 16
    (by decide) (by decide) (by decide)

/-! ## Facts about `split_buffer_cols` -/

theorem header_total_eq_plain (cfg : config) (line : buffer_line) (pad : Nat)
    (hsum : header_plain cfg line pad < UINT_SIZE) :
    header_total cfg line pad = header_plain cfg line pad := by
  rcases cfg with ⟨p, v⟩
  cases p <;>
    simp only [header_total, header_plain, header_base, u32_add, UINT_SIZE, if_true,
      Bool.false_eq_true, if_false] at * <;> omega

theorem header_plain_ge (cfg : config) (line : buffer_line) (pad : Nat) :
    11 ≤ header_plain cfg line pad := by
  unfold header_plain header_base
  omega

theorem split_buffer_cols_clamped (cfg : config) (line : buffer_line) (cols pad : Nat)
    (hc : 5 ≤ cols) (hcu : cols < UINT_SIZE) (hge : cols ≤ header_total cfg line pad) :
    split_buffer_cols cfg line cols pad = (cols / 2 - 1, cols - (cols / 2 - 1) + 1) := by
  have h1 : header_total cfg line pad ≥ cols := hge
  simp only [split_buffer_cols, h1, if_true, u32_sub, u32_add]
  unfold UINT_SIZE at *
  refine Prod.ext ?_ ?_ <;> simp only <;> omega

theorem split_buffer_cols_plain_head (cfg : config) (line : buffer_line) (cols pad : Nat)
    (hcu : cols < UINT_SIZE) (hpos : 0 < header_total cfg line pad)
    (hlt : header_total cfg line pad < cols) :
    (split_buffer_cols cfg line cols pad).1 = header_total cfg line pad - 1 := by
  have h1 : ¬ (header_total cfg line pad ≥ cols) := by omega
  simp only [split_buffer_cols, h1, if_false, u32_sub, u32_add]
  unfold UINT_SIZE at *
  omega

theorem split_buffer_cols_plain (cfg : config) (line : buffer_line) (cols pad : Nat)
    (hcu : cols < UINT_SIZE) (hpos : 2 ≤ header_total cfg line pad)
    (hlt : header_total cfg line pad < cols) :
    split_buffer_cols cfg line cols pad =
      (header_total cfg line pad - 1, cols - (header_total cfg line pad - 1) + 1) := by
  have h1 : ¬ (header_total cfg line pad ≥ cols) := by omega
  simp only [split_buffer_cols, h1, if_false, u32_sub, u32_add]
  unfold UINT_SIZE at *
  refine Prod.ext ?_ ?_ <;> simp only <;> omega

theorem split_cols_of_fits (cfg : config) (line : buffer_line) (cols pad : Nat)
    (hc : 5 ≤ cols) (hcu : cols < UINT_SIZE) (hsum : header_plain cfg line pad < UINT_SIZE) :
    (split_buffer_cols cfg line cols pad).1 + (split_buffer_cols cfg line cols pad).2
        = cols + 1 ∧
      2 ≤ (split_buffer_cols cfg line cols pad).2 ∧
      (split_buffer_cols cfg line cols pad).2 ≤ cols := by
  have htot := header_total_eq_plain cfg line pad hsum
  have hge := header_plain_ge cfg line pad
  by_cases hcl : cols ≤ header_total cfg line pad
  · rw [split_buffer_cols_clamped cfg line cols pad hc hcu hcl]
    simp only
    omega
  · rw [split_buffer_cols_plain cfg line cols pad hcu (by omega) (by omega)]
    simp only
    omega

theorem wrap_scan_ne_fatal (mem : List Nat) (str : Nat) :
    ∀ k, wrap_scan mem str k ≠ .fatal := by
  intro k
  induction k with
  | zero => simp [wrap_scan]
  | succ k ih =>
    unfold wrap_scan
    split
    · simp
    · split
      · simp
      · exact ih

theorem wrap_trim_ne_fatal (mem : List Nat) (str : Nat) :
    ∀ k, wrap_trim mem str k ≠ .fatal := by
  intro k
  induction k with
  | zero => simp [wrap_trim]
  | succ k ih =>
    unfold wrap_trim
    split
    · simp
    · split
      · exact ih
      · simp

theorem wrap_skip_ne_fatal : ∀ (l : List Nat) (tmp : Nat), wrap_skip l tmp ≠ .fatal := by
  intro l
  induction l with
  | nil => intro tmp; simp [wrap_skip]
  | cons b rest ih =>
    intro tmp
    unfold wrap_skip
    split
    · exact ih (tmp + 1)
    · simp

theorem word_wrap_ne_fatal (n : Int) (mem : List Nat) (str end_ : Nat) (hn : 1 ≤ n) :
    word_wrap n mem str end_ ≠ .fatal := by
  have h1 : ¬ (n < 1) := by omega
  unfold word_wrap
  rw [if_neg h1]
  split
  · simp
  · cases hs : wrap_scan mem str n.toNat with
    | fatal => exact absurd hs (wrap_scan_ne_fatal mem str _)
    | fault => simp [Res.bind]
    | ok k =>
      simp only [Res.bind]
      split
      · simp
      · cases ht : wrap_trim mem str k with
        | fatal => exact absurd ht (wrap_trim_ne_fatal mem str _)
        | fault => simp
        | ok j =>
          cases hk : wrap_skip (List.drop (str + k) mem) (str + k) with
          | fatal => exact absurd hk (wrap_skip_ne_fatal _ _)
          | fault => simp
          | ok t => simp

theorem header_total_lt (cfg : config) (line : buffer_line) (pad : Nat) :
    header_total cfg line pad < UINT_SIZE := by
  unfold header_total u32_add
  split <;> exact Nat.mod_lt _ (by decide)

theorem split_buffer_cols_body_bounds (cfg : config) (line : buffer_line) (cols pad : Nat)
    (hc : 5 ≤ cols) (hcu : cols + 2 < UINT_SIZE) :
    1 ≤ (split_buffer_cols cfg line cols pad).2 ∧
      (split_buffer_cols cfg line cols pad).2 ≤ cols + 2 := by
  have hlt := header_total_lt cfg line pad
  simp only [split_buffer_cols]
  generalize header_total cfg line pad = h0 at hlt
  have hw1 : ∃ w, (if h0 ≥ cols then cols / 2 else h0) = w ∧ w ≤ cols := by
    by_cases hge : h0 ≥ cols
    · exact ⟨cols / 2, by rw [if_pos hge], by omega⟩
    · exact ⟨h0, by rw [if_neg hge], by omega⟩
  obtain ⟨w, hw, hwc⟩ := hw1
  rw [hw]
  unfold UINT_SIZE at hcu hlt
  by_cases hz : w = 0
  · have e2 : u32_sub w 1 = 4294967295 := by
      rw [hz]
      decide
    have e3 : u32_add (u32_sub cols 4294967295) 1 = cols + 2 := by
      unfold u32_sub u32_add UINT_SIZE
      omega
    rw [e2, e3]
    exact ⟨by omega, le_refl _⟩
  · have e2 : u32_sub w 1 = w - 1 := by
      unfold u32_sub UINT_SIZE
      omega
    have e3 : u32_add (u32_sub cols (w - 1)) 1 = cols - (w - 1) + 1 := by
      unfold u32_sub u32_add UINT_SIZE
      omega
    rw [e2, e3]
    exact ⟨by omega, by omega⟩

/-! ## Claims about `split_buffer_cols` -/

/-- C7, as stated, fails: with a one-byte separator and the padded policy, `cols = 5` and
`pad = 2 ^ 32 - 12` make the header sum wrap to `0`, the decrement wrap to `2 ^ 32 - 1`,
and the two widths add up to `2 ^ 32 + 6` instead of `6`. -/
theorem split_buffer_cols_sum_counterexample :
    split_buffer_cols ⟨true, 1⟩ ⟨0, [0], 0⟩ 5 4294967284 = (4294967295, 7) ∧
    (split_buffer_cols ⟨true, 1⟩ ⟨0, [0], 0⟩ 5 4294967284).1 +
      (split_buffer_cols ⟨true, 1⟩ ⟨0, [0], 0⟩ 5 4294967284).2 ≠ 5 + 1 := by
  decide

/-- C7, amended. For every `cols ≥ 5` and every pad (author length under the no-padding
policy) whose header sum `sizeof(...) + pad` does not exceed `UINT_MAX`, the widths
returned by `split_buffer_cols` satisfy `head_w + text_w = cols + 1` as natural
numbers. -/
theorem split_buffer_cols_sum (cfg : config) (line : buffer_line) (cols pad : Nat)
    (hc : 5 ≤ cols) (hcu : cols < UINT_SIZE) (hsum : header_plain cfg line pad < UINT_SIZE) :
    (split_buffer_cols cfg line cols pad).1 + (split_buffer_cols cfg line cols pad).2
      = cols + 1 :=
  (split_cols_of_fits cfg line cols pad hc hcu hsum).1

/-- An 80-column terminal with a pad of 9. -/
theorem split_buffer_cols_sum_witness :
    (split_buffer_cols ⟨true, 1⟩ ⟨3, [0], 0⟩ 80 9).1 +
      (split_buffer_cols ⟨true, 1⟩ ⟨3, [0], 0⟩ 80 9).2 = 80 + 1 :=
  split_buffer_cols_sum ⟨true, 1⟩ ⟨3, [0], 0⟩ 80 9 (by decide) (by decide) (by decide)

/-- C8, as stated, fails: with a one-byte separator and the padded policy,
`cols = 2 ^ 32 - 2` and `pad = 2 ^ 32 - 12` give body width `0`, and every `word_wrap`
call at that width ends in the fatal branch; `cols = 2 ^ 31 + 10` with `pad = 0` gives
body width `2 ^ 31`, which is negative as the `int n` of `word_wrap`, so every call at
that width ends in the fatal branch too; and so does `cols = 2 ^ 31 - 2` with
`pad = 2 ^ 32 - 12`, where the header sum wraps to `0` and the body width is `cols + 2`. -/
theorem split_buffer_cols_body_counterexample :
    ((split_buffer_cols ⟨true, 1⟩ ⟨0, [0], 0⟩ 4294967294 4294967284).2 = 0 ∧
      ∀ (mem : List Nat) (str end_ : Nat),
        word_wrap
          (int_of_uint (split_buffer_cols ⟨true, 1⟩ ⟨0, [0], 0⟩ 4294967294 4294967284).2)
          mem str end_ = .fatal) ∧
    ((split_buffer_cols ⟨true, 1⟩ ⟨0, [0], 0⟩ 2147483658 0).2 = 2147483648 ∧
      ∀ (mem : List Nat) (str end_ : Nat),
        word_wrap (int_of_uint (split_buffer_cols ⟨true, 1⟩ ⟨0, [0], 0⟩ 2147483658 0).2)
          mem str end_ = .fatal) ∧
    ((split_buffer_cols ⟨true, 1⟩ ⟨0, [0], 0⟩ 2147483646 4294967284).2 = 2147483648 ∧
      ∀ (mem : List Nat) (str end_ : Nat),
        word_wrap
          (int_of_uint (split_buffer_cols ⟨true, 1⟩ ⟨0, [0], 0⟩ 2147483646 4294967284).2)
          mem str end_ = .fatal) := by
  have h : (split_buffer_cols ⟨true, 1⟩ ⟨0, [0], 0⟩ 4294967294 4294967284).2 = 0 := by decide
  have h2 : (split_buffer_cols ⟨true, 1⟩ ⟨0, [0], 0⟩ 2147483658 0).2 = 2147483648 := by
    decide
  have h3 : (split_buffer_cols ⟨true, 1⟩ ⟨0, [0], 0⟩ 2147483646 4294967284).2
      = 2147483648 := by
    decide
  refine ⟨⟨h, fun mem str end_ => ?_⟩, ⟨h2, fun mem str end_ => ?_⟩,
    ⟨h3, fun mem str end_ => ?_⟩⟩
  · rw [h]
    simp [word_wrap, int_of_uint, UINT_SIZE]
  · rw [h2]
    simp [word_wrap, int_of_uint, UINT_SIZE]
  · rw [h3]
    simp [word_wrap, int_of_uint, UINT_SIZE]

/-- C8, amended. For every `cols` with `5 ≤ cols` and `cols + 2 ≤ INT_MAX` and every pad
(author length under the no-padding policy), header sums that wrap around included:
`cols` is the `col_total` that `_draw_buffer` computes from the rectangle `draw()` passes
on a terminal of `cols` columns; the body width returned by `split_buffer_cols` is at least
1 and at most `cols + 2`; it is at least 1 as the `int n` of `word_wrap`; and no
`word_wrap` call at that width ends in the fatal branch. -/
theorem split_buffer_cols_body_pos (cfg : config) (line : buffer_line)
    (cols term_rows pad : Nat)
    (hc : 5 ≤ cols) (hci : cols + 2 < 2 ^ 31) :
    col_total (buffer_coords cols term_rows) = cols ∧
    1 ≤ (split_buffer_cols cfg line cols pad).2 ∧
    (split_buffer_cols cfg line cols pad).2 ≤ cols + 2 ∧
    1 ≤ int_of_uint (split_buffer_cols cfg line cols pad).2 ∧
    ∀ (mem : List Nat) (str end_ : Nat),
      word_wrap (int_of_uint (split_buffer_cols cfg line cols pad).2) mem str end_
        ≠ .fatal := by
  have hcu : cols < UINT_SIZE := by unfold UINT_SIZE; omega
  have hb := split_buffer_cols_body_bounds cfg line cols pad hc
    (by unfold UINT_SIZE; omega)
  have hint : 1 ≤ int_of_uint (split_buffer_cols cfg line cols pad).2 := by
    unfold int_of_uint UINT_SIZE
    have hlt : (split_buffer_cols cfg line cols pad).2 % 2 ^ 32 < 2 ^ 31 := by omega
    rw [if_pos hlt]
    omega
  have hct : col_total (buffer_coords cols term_rows) = cols := by
    unfold col_total buffer_coords u32_add u32_sub UINT_SIZE at *
    simp only
    omega
  exact ⟨hct, hb.1, hb.2, hint, fun mem str end_ => word_wrap_ne_fatal _ mem str end_ hint⟩

/-- An 80-column, 24-row terminal with a pad of 9. -/
theorem split_buffer_cols_body_pos_witness :
    col_total (buffer_coords 80 24) = 80 ∧
    1 ≤ (split_buffer_cols ⟨true, 1⟩ ⟨3, [0], 0⟩ 80 9).2 ∧
    (split_buffer_cols ⟨true, 1⟩ ⟨3, [0], 0⟩ 80 9).2 ≤ 80 + 2 ∧
    1 ≤ int_of_uint (split_buffer_cols ⟨true, 1⟩ ⟨3, [0], 0⟩ 80 9).2 ∧
    ∀ (mem : List Nat) (str end_ : Nat),
      word_wrap (int_of_uint (split_buffer_cols ⟨true, 1⟩ ⟨3, [0], 0⟩ 80 9).2) mem str end_
        ≠ .fatal :=
  split_buffer_cols_body_pos ⟨true, 1⟩ ⟨3, [0], 0⟩ 80 24 9 (by decide) (by decide)

/-- C9, as stated, fails: with a one-byte separator and the padded policy, `cols = 30`
and `pad = 10` give a header sum of 22, which is below `cols` and so is not clamped; the
header width is 21, above `cols / 2 = 15`. -/
theorem split_buffer_cols_half_counterexample :
    (split_buffer_cols ⟨true, 1⟩ ⟨0, [0], 0⟩ 30 10).1 = 21 ∧
    ¬ ((split_buffer_cols ⟨true, 1⟩ ⟨0, [0], 0⟩ 30 10).1 ≤ 30 / 2) := by
  decide

/-- C9, amended. For every `cols ≥ 5` and every pad: when the header sum (as the
`unsigned int` the code holds) is at least `cols`, the header width is `cols / 2 - 1`,
hence at most `cols / 2`; when the sum is non-zero and below `cols`, the header width is
the sum minus one, hence at most `cols - 2`. -/
theorem split_buffer_cols_half (cfg : config) (line : buffer_line) (cols pad : Nat)
    (hc : 5 ≤ cols) (hcu : cols < UINT_SIZE) :
    (cols ≤ header_total cfg line pad →
      (split_buffer_cols cfg line cols pad).1 = cols / 2 - 1 ∧
      (split_buffer_cols cfg line cols pad).1 ≤ cols / 2) ∧
    (0 < header_total cfg line pad → header_total cfg line pad < cols →
      (split_buffer_cols cfg line cols pad).1 = header_total cfg line pad - 1 ∧
      (split_buffer_cols cfg line cols pad).1 ≤ cols - 2) := by
  constructor
  · intro hge
    rw [split_buffer_cols_clamped cfg line cols pad hc hcu hge]
    exact ⟨rfl, Nat.sub_le _ _⟩
  · intro hpos hlt
    rw [split_buffer_cols_plain_head cfg line cols pad hcu hpos hlt]
    omega

/-- A 20-column terminal with a pad of 9 (header sum 21, clamped to half), and a
30-column terminal with a pad of 10 (header sum 22, not clamped). -/
theorem split_buffer_cols_half_witness :
    (20 ≤ header_total ⟨true, 1⟩ ⟨3, [0], 0⟩ 9 ∧
      (split_buffer_cols ⟨true, 1⟩ ⟨3, [0], 0⟩ 20 9).1 = 20 / 2 - 1 ∧
      (split_buffer_cols ⟨true, 1⟩ ⟨3, [0], 0⟩ 20 9).1 ≤ 20 / 2) ∧
    (0 < header_total ⟨true, 1⟩ ⟨3, [0], 0⟩ 10 ∧
      header_total ⟨true, 1⟩ ⟨3, [0], 0⟩ 10 < 30 ∧
      (split_buffer_cols ⟨true, 1⟩ ⟨3, [0], 0⟩ 30 10).1
        = header_total ⟨true, 1⟩ ⟨3, [0], 0⟩ 10 - 1 ∧
      (split_buffer_cols ⟨true, 1⟩ ⟨3, [0], 0⟩ 30 10).1 ≤ 30 - 2) :=
  ⟨⟨by decide,
    (split_buffer_cols_half ⟨true, 1⟩ ⟨3, [0], 0⟩ 20 9 (by decide) (by decide)).1
      (by decide)⟩,
   ⟨by decide, by decide,
    (split_buffer_cols_half ⟨true, 1⟩ ⟨3, [0], 0⟩ 30 10 (by decide) (by decide)).2
      (by decide) (by decide)⟩⟩

/-! ## Facts about `_draw_buffer` -/

theorem u32_add_eq (a b : Nat) (h : a + b < UINT_SIZE) : u32_add a b = a + b :=
  Nat.mod_eq_of_lt h

theorem u32_sub_eq (a b : Nat) (hba : b ≤ a) (ha : a < UINT_SIZE) : u32_sub a b = a - b := by
  unfold u32_sub UINT_SIZE at *
  omega

theorem row_total_eq (cs : coords) (hr : cs.r1 ≤ cs.rN) (hrN : cs.rN + 1 < UINT_SIZE) :
    row_total cs = cs.rN - cs.r1 + 1 := by
  unfold row_total
  rw [u32_sub_eq cs.rN cs.r1 hr (by omega), u32_add_eq _ _ (by omega)]

section DrawBuffer

variable (cfg : config) (rows : buffer_line → Nat → Nat) (b : buffer) (cs : coords)

theorem line_rows_eq (i : Nat) (line : buffer_line) (h : b.lines[i]? = some line) :
    line_rows cfg rows b cs i = rows line (split_buffer_cols cfg line (col_total cs) b.pad).2 := by
  simp [line_rows, h]

theorem rows_sum_add (m n : Nat) : ∀ lo : Nat,
    rows_sum cfg rows b cs lo (m + n)
      = rows_sum cfg rows b cs lo m + rows_sum cfg rows b cs (lo + m) n := by
  induction m with
  | zero => intro lo; simp [rows_sum]
  | succ m ih =>
    intro lo
    have h1 : m + 1 + n = (m + n) + 1 := by omega
    have h2 : lo + (m + 1) = lo + 1 + m := by omega
    rw [h1, h2]
    simp only [rows_sum]
    rw [ih (lo + 1)]
    omega

theorem rows_sum_one (lo : Nat) :
    rows_sum cfg rows b cs lo 1 = line_rows cfg rows b cs lo := by
  simp [rows_sum]

theorem rows_sum_snoc (lo n : Nat) :
    rows_sum cfg rows b cs lo (n + 1)
      = rows_sum cfg rows b cs lo n + line_rows cfg rows b cs (lo + n) := by
  rw [rows_sum_add, rows_sum_one]

theorem rows_sum_ge (hrows : ∀ i, i < b.lines.length → 1 ≤ line_rows cfg rows b cs i)
    (n : Nat) : ∀ lo : Nat, lo + n ≤ b.lines.length → n ≤ rows_sum cfg rows b cs lo n := by
  induction n with
  | zero => intro lo _; exact Nat.zero_le _
  | succ n ih =>
    intro lo h
    have h1 := hrows lo (by omega)
    have h2 := ih (lo + 1) (by omega)
    simp only [rows_sum]
    omega

theorem find_top_spec
    (hfit : ∀ i, i < b.lines.length → row_total cs + line_rows cfg rows b cs i ≤ UINT_SIZE) :
    ∀ i rc : Nat, i < b.lines.length → rc < row_total cs →
      ∃ T n, T + n = i + 1 ∧ 1 ≤ n ∧
        find_top cfg rows b cs i rc = .ok (T, rc + rows_sum cfg rows b cs T n) ∧
        (T = 0 ∨ row_total cs ≤ rc + rows_sum cfg rows b cs T n) ∧
        ∀ t m, T < t → t + m = i + 1 → rc + rows_sum cfg rows b cs t m < row_total cs := by
  intro i
  induction i with
  | zero =>
    intro rc hlen hrc
    have hl : b.lines[0]? = some (b.lines[0]) := List.getElem?_eq_getElem hlen
    have hR := line_rows_eq cfg rows b cs 0 _ hl
    have hf := hfit 0 hlen
    refine ⟨0, 1, rfl, le_refl _, ?_, Or.inl rfl, ?_⟩
    · rw [rows_sum_one, hR]
      simp only [find_top, hl]
      rw [u32_add_eq _ _ (by rw [← hR]; omega)]
    · intro t m ht htm
      have hm : m = 0 := by omega
      subst hm
      simpa [rows_sum] using hrc
  | succ i ih =>
    intro rc hlen hrc
    have hl : b.lines[i + 1]? = some (b.lines[i + 1]) := List.getElem?_eq_getElem hlen
    have hR := line_rows_eq cfg rows b cs (i + 1) _ hl
    have hf := hfit (i + 1) hlen
    have hadd : u32_add rc (rows b.lines[i + 1]
        (split_buffer_cols cfg b.lines[i + 1] (col_total cs) b.pad).2)
        = rc + line_rows cfg rows b cs (i + 1) := by
      rw [← hR]
      exact u32_add_eq _ _ (by omega)
    by_cases hge : row_total cs ≤ rc + line_rows cfg rows b cs (i + 1)
    · refine ⟨i + 1, 1, rfl, le_refl _, ?_, Or.inr ?_, ?_⟩
      · rw [rows_sum_one]
        simp only [find_top, hl, hadd]
        rw [if_pos hge]
      · rw [rows_sum_one]
        exact hge
      · intro t m ht htm
        have hm : m = 0 := by omega
        subst hm
        simpa [rows_sum] using hrc
    · obtain ⟨T, n, hTn, hn1, hft, hT0, hall⟩ :=
        ih (rc + line_rows cfg rows b cs (i + 1)) (by omega) (by omega)
      refine ⟨T, n + 1, by omega, by omega, ?_, ?_, ?_⟩
      · simp only [find_top, hl, hadd]
        rw [if_neg hge, hft, rows_sum_snoc]
        have hidx : T + n = i + 1 := hTn
        rw [hidx]
        congr 2
        omega
      · rcases hT0 with h0 | h0
        · exact Or.inl h0
        · refine Or.inr ?_
          rw [rows_sum_snoc, hTn]
          omega
      · intro t m ht htm
        by_cases hm : m = 0
        · subst hm
          simp only [rows_sum]
          omega
        · obtain ⟨m', rfl⟩ : ∃ m', m = m' + 1 := ⟨m - 1, by omega⟩
          have h1 := hall t m' ht (by omega)
          rw [rows_sum_snoc]
          have hidx : t + m' = i + 1 := by omega
          rw [hidx]
          omega

theorem line_call_eq (i row skip : Nat) (line : buffer_line) (h : b.lines[i]? = some line) :
    line_call cfg b cs i row skip =
      { line := i, coords := { cs with r1 := row },
        head_w := (split_buffer_cols cfg line (col_total cs) b.pad).1,
        text_w := (split_buffer_cols cfg line (col_total cs) b.pad).2,
        skip := skip, pad := line_pad cfg b line } := by
  simp [line_call, List.getD_eq_getElem?_getD, h]

theorem draw_remaining_spec
    (hfit : ∀ i, i < b.lines.length → cs.rN + line_rows cfg rows b cs i < UINT_SIZE) :
    ∀ d i r : Nat, i + d + 1 = b.lines.length →
      ∃ n draws, n ≤ d + 1 ∧
        draw_remaining cfg rows b (col_total cs) d i { cs with r1 := r } = .ok draws ∧
        draws.length = n ∧
        (∀ j, j < n → draws[j]? =
          some (line_call cfg b cs (i + j) (r + rows_sum cfg rows b cs i j) 0)) ∧
        (∀ j, j < n → r + rows_sum cfg rows b cs i j ≤ cs.rN) ∧
        (n ≤ d → cs.rN < r + rows_sum cfg rows b cs i n) := by
  intro d
  induction d with
  | zero =>
    intro i r hlen
    have hi : i < b.lines.length := by omega
    have hl : b.lines[i]? = some (b.lines[i]) := List.getElem?_eq_getElem hi
    by_cases hr : r ≤ cs.rN
    · refine ⟨1, [line_call cfg b cs i r 0], le_refl _, ?_, rfl, ?_, ?_,
        fun h => absurd h (by omega)⟩
      · rw [line_call_eq cfg b cs i _ 0 _ hl]
        simp only [draw_remaining, hr, if_true, hl]
      · intro j hj
        have hj0 : j = 0 := by omega
        subst hj0
        simp [rows_sum]
      · intro j hj
        have hj0 : j = 0 := by omega
        subst hj0
        simpa [rows_sum] using hr
    · refine ⟨0, [], Nat.zero_le _, ?_, rfl, fun j hj => absurd hj (by omega),
        fun j hj => absurd hj (by omega), fun _ => ?_⟩
      · simp only [draw_remaining, hr, if_false]
      · simp only [rows_sum]
        omega
  | succ d ih =>
    intro i r hlen
    have hi : i < b.lines.length := by omega
    have hl : b.lines[i]? = some (b.lines[i]) := List.getElem?_eq_getElem hi
    have hR := line_rows_eq cfg rows b cs i _ hl
    have hf := hfit i hi
    by_cases hr : r ≤ cs.rN
    · have hadd : u32_add r (rows b.lines[i]
          (split_buffer_cols cfg b.lines[i] (col_total cs) b.pad).2)
          = r + line_rows cfg rows b cs i := by
        rw [← hR]
        exact u32_add_eq _ _ (by omega)
      obtain ⟨n, rest, hn, hdr, hlen', hget, hpos, hstop⟩ :=
        ih (i + 1) (r + line_rows cfg rows b cs i) (by omega)
      refine ⟨n + 1, line_call cfg b cs i r 0 :: rest, by omega, ?_, by simp [hlen'],
        ?_, ?_, ?_⟩
      · rw [line_call_eq cfg b cs i _ 0 _ hl]
        simp only [draw_remaining, hr, if_true, hl, hadd, hdr, Res.bind]
      · intro j hj
        cases j with
        | zero => simp [rows_sum]
        | succ j =>
          have h1 := hget j (by omega)
          simp only [List.getElem?_cons_succ, h1, rows_sum]
          congr 2
          · omega
          · omega
      · intro j hj
        cases j with
        | zero => simpa [rows_sum] using hr
        | succ j =>
          have h1 := hpos j (by omega)
          simp only [rows_sum]
          omega
      · intro hnd
        have h1 := hstop (by omega)
        simp only [rows_sum]
        omega
    · refine ⟨0, [], Nat.zero_le _, ?_, rfl, fun j hj => absurd hj (by omega),
        fun j hj => absurd hj (by omega), fun _ => ?_⟩
      · simp only [draw_remaining, hr, if_false]
      · simp only [rows_sum]
        omega

theorem draw_buffer_unfold (hr : cs.r1 ≤ cs.rN) (hc : cs.c1 ≤ cs.cN)
    (hsb : b.scrollback < b.lines.length) :
    _draw_buffer cfg rows b cs =
      (find_top cfg rows b cs b.scrollback 0).bind fun top =>
        if top.2 > row_total cs then
          match b.lines[top.1]? with
          | none => .fault
          | some line =>
            if top.1 + 1 = b.lines.length then
              .ok [{ line := top.1, coords := cs,
                     head_w := (split_buffer_cols cfg line (col_total cs) b.pad).1,
                     text_w := (split_buffer_cols cfg line (col_total cs) b.pad).2,
                     skip := u32_sub top.2 (row_total cs), pad := line_pad cfg b line }]
            else
              (draw_remaining cfg rows b (col_total cs) (b.lines.length - 1 - (top.1 + 1))
                  (top.1 + 1)
                  { cs with r1 := (u32_add cs.r1
                      (u32_sub (rows line (split_buffer_cols cfg line (col_total cs) b.pad).2)
                        (u32_sub top.2 (row_total cs)))) }).bind
                fun rest => .ok (⟨top.1, cs,
                     (split_buffer_cols cfg line (col_total cs) b.pad).1,
                     (split_buffer_cols cfg line (col_total cs) b.pad).2,
                     u32_sub top.2 (row_total cs), line_pad cfg b line⟩ :: rest)
        else
          draw_remaining cfg rows b (col_total cs) (b.lines.length - 1 - top.1) top.1 cs := by
  have h1 : ¬ (cs.r1 > cs.rN) := by omega
  have h2 : ¬ (cs.c1 > cs.cN) := by omega
  have hl : b.lines[b.scrollback]? = some (b.lines[b.scrollback]) :=
    List.getElem?_eq_getElem hsb
  simp only [_draw_buffer, h1, h2, if_false, hl]

theorem draw_buffer_top_aligned
    (hr : cs.r1 ≤ cs.rN) (hc : cs.c1 ≤ cs.cN) (hsb : b.scrollback < b.lines.length)
    (hrows : ∀ i, i < b.lines.length → 1 ≤ line_rows cfg rows b cs i)
    (hfit : ∀ i, i < b.lines.length → cs.rN + line_rows cfg rows b cs i < UINT_SIZE)
    (hshort : rows_sum cfg rows b cs 0 (b.scrollback + 1) ≤ cs.rN - cs.r1 + 1) :
    ∃ n draws, _draw_buffer cfg rows b cs = .ok draws ∧ draws.length = n ∧
      b.scrollback < n ∧ n ≤ b.lines.length ∧
      ∀ j, j < n → draws[j]? =
        some (line_call cfg b cs j (cs.r1 + rows_sum cfg rows b cs 0 j) 0) := by
  have hlen0 : 0 < b.lines.length := by omega
  have hrN : cs.rN + 1 < UINT_SIZE := by
    have h1 := hrows 0 hlen0
    have h2 := hfit 0 hlen0
    omega
  have hH := row_total_eq cs hr hrN
  have hfit' : ∀ i, i < b.lines.length →
      row_total cs + line_rows cfg rows b cs i ≤ UINT_SIZE := by
    intro i hi
    have := hfit i hi
    omega
  obtain ⟨T, n, hTn, hn1, hft, hT0, _⟩ :=
    find_top_spec cfg rows b cs hfit' b.scrollback 0 hsb (by omega)
  have hsplit : rows_sum cfg rows b cs 0 (b.scrollback + 1)
      = rows_sum cfg rows b cs 0 T + rows_sum cfg rows b cs T n := by
    rw [← hTn, rows_sum_add, Nat.zero_add]
  have hTz : T = 0 := by
    rcases hT0 with h0 | h0
    · exact h0
    · by_contra hne
      have hge := rows_sum_ge cfg rows b cs hrows T 0 (by omega)
      omega
  subst hTz
  have hnsb : n = b.scrollback + 1 := by omega
  subst hnsb
  obtain ⟨m, draws, hm, hdr, hlen, hget, hpos, hstop⟩ :=
    draw_remaining_spec cfg rows b cs hfit (b.lines.length - 1) 0 cs.r1 (by omega)
  refine ⟨m, draws, ?_, hlen, ?_, by omega, ?_⟩
  · rw [draw_buffer_unfold cfg rows b cs hr hc hsb, hft]
    have hngt : ¬ (0 + rows_sum cfg rows b cs 0 (b.scrollback + 1) > row_total cs) := by
      omega
    simp only [Res.bind, hngt, if_false]
    exact hdr
  · by_contra hle
    have hms : m ≤ b.scrollback := by omega
    have h1 := hstop (by omega)
    have h2 : rows_sum cfg rows b cs 0 (b.scrollback + 1)
        = rows_sum cfg rows b cs 0 m + rows_sum cfg rows b cs m (b.scrollback + 1 - m) := by
      have h := rows_sum_add cfg rows b cs m (b.scrollback + 1 - m) 0
      simp only [Nat.zero_add] at h
      rw [← h]
      congr 1
      omega
    have h3 := rows_sum_ge cfg rows b cs hrows (b.scrollback + 1 - m) m (by omega)
    omega
  · intro j hj
    have := hget j hj
    simpa using this

theorem draw_remaining_exact
    (hfit : ∀ i, i < b.lines.length → cs.rN + line_rows cfg rows b cs i < UINT_SIZE)
    (i r k : Nat) (hi : i < b.lines.length) (hk : i + k ≤ b.lines.length)
    (hin : ∀ j, j < k → r + rows_sum cfg rows b cs i j ≤ cs.rN)
    (hout : cs.rN < r + rows_sum cfg rows b cs i k) :
    ∃ draws, draw_remaining cfg rows b (col_total cs) (b.lines.length - 1 - i) i
        { cs with r1 := r } = .ok draws ∧ draws.length = k ∧
      ∀ j, j < k → draws[j]? =
        some (line_call cfg b cs (i + j) (r + rows_sum cfg rows b cs i j) 0) := by
  obtain ⟨n, draws, hn, hdr, hlen, hget, hpos, hstop⟩ :=
    draw_remaining_spec cfg rows b cs hfit (b.lines.length - 1 - i) i r (by omega)
  have hnk : n = k := by
    rcases Nat.lt_trichotomy n k with h | h | h
    · have h1 := hstop (by omega)
      have h2 := hin n h
      omega
    · exact h
    · have h1 := hpos k h
      omega
  subst hnk
  exact ⟨draws, hdr, hlen, hget⟩

theorem rows_sum_tail_pos
    (hrows : ∀ i, i < b.lines.length → 1 ≤ line_rows cfg rows b cs i)
    (T n j : Nat) (hlen : T + n ≤ b.lines.length) (hj : j < n) :
    rows_sum cfg rows b cs T j + 1 ≤ rows_sum cfg rows b cs T n := by
  have h := rows_sum_add cfg rows b cs j (n - j) T
  have hjn : j + (n - j) = n := by omega
  rw [hjn] at h
  have h2 := rows_sum_ge cfg rows b cs hrows (n - j) (T + j) (by omega)
  omega

theorem overflow_layout_core
    (hr : cs.r1 ≤ cs.rN) (hc : cs.c1 ≤ cs.cN) (hsb : b.scrollback < b.lines.length)
    (hrows : ∀ i, i < b.lines.length → 1 ≤ line_rows cfg rows b cs i)
    (hfit : ∀ i, i < b.lines.length → cs.rN + line_rows cfg rows b cs i < UINT_SIZE)
    (hover : cs.rN - cs.r1 + 1 < rows_sum cfg rows b cs 0 (b.scrollback + 1)) :
    ∃ T n draws, T + n = b.scrollback + 1 ∧ 1 ≤ n ∧
      cs.rN - cs.r1 + 1 ≤ rows_sum cfg rows b cs T n ∧
      (∀ t m, T < t → t + m = b.scrollback + 1 →
        rows_sum cfg rows b cs t m < cs.rN - cs.r1 + 1) ∧
      rows_sum cfg rows b cs T n - (cs.rN - cs.r1 + 1) < line_rows cfg rows b cs T ∧
      _draw_buffer cfg rows b cs = .ok draws ∧ draws.length = n ∧
      ∀ j, j < n → draws[j]? = some (line_call cfg b cs (T + j)
          (cs.r1 + rows_sum cfg rows b cs T j -
            (if j = 0 then 0 else rows_sum cfg rows b cs T n - (cs.rN - cs.r1 + 1)))
          (if j = 0 then rows_sum cfg rows b cs T n - (cs.rN - cs.r1 + 1) else 0)) := by
  have hlen0 : 0 < b.lines.length := by omega
  have hrN : cs.rN + 1 < UINT_SIZE := by
    have h1 := hrows 0 hlen0
    have h2 := hfit 0 hlen0
    omega
  have hH := row_total_eq cs hr hrN
  have hfit' : ∀ i, i < b.lines.length →
      row_total cs + line_rows cfg rows b cs i ≤ UINT_SIZE := by
    intro i hi
    have := hfit i hi
    omega
  obtain ⟨T, n, hTn, hn1, hft, hT0, hall⟩ :=
    find_top_spec cfg rows b cs hfit' b.scrollback 0 hsb (by omega)
  simp only [Nat.zero_add] at hft hT0 hall
  rw [hH] at hT0 hall
  have hge : cs.rN - cs.r1 + 1 ≤ rows_sum cfg rows b cs T n := by
    rcases hT0 with h0 | h0
    · subst h0
      have : n = b.scrollback + 1 := by omega
      subst this
      omega
    · exact h0
  obtain ⟨n', rfl⟩ : ∃ n', n = n' + 1 := ⟨n - 1, by omega⟩
  have hTlen : T < b.lines.length := by omega
  have hhead : rows_sum cfg rows b cs T (n' + 1)
      = line_rows cfg rows b cs T + rows_sum cfg rows b cs (T + 1) n' := rfl
  have htail : rows_sum cfg rows b cs (T + 1) n' < cs.rN - cs.r1 + 1 := by
    by_cases hz : n' = 0
    · subst hz
      simp only [rows_sum]
      omega
    · exact hall (T + 1) n' (by omega) (by omega)
  have hskip : rows_sum cfg rows b cs T (n' + 1) - (cs.rN - cs.r1 + 1)
      < line_rows cfg rows b cs T := by
    have := hrows T hTlen
    omega
  have hl : b.lines[T]? = some (b.lines[T]) := List.getElem?_eq_getElem hTlen
  have hR := line_rows_eq cfg rows b cs T _ hl
  have hfT := hfit T hTlen
  have hkey : ∀ j, j < n' → cs.r1 + line_rows cfg rows b cs T
      - (rows_sum cfg rows b cs T (n' + 1) - (cs.rN - cs.r1 + 1))
      + rows_sum cfg rows b cs (T + 1) j ≤ cs.rN := by
    intro j hj
    have h1 := rows_sum_tail_pos cfg rows b cs hrows (T + 1) n' j (by omega) hj
    omega
  refine ⟨T, n' + 1, ?_⟩
  by_cases hgt : cs.rN - cs.r1 + 1 < rows_sum cfg rows b cs T (n' + 1)
  · -- the top line is drawn in part
    have hs1 : u32_sub (rows_sum cfg rows b cs T (n' + 1)) (row_total cs)
        = rows_sum cfg rows b cs T (n' + 1) - (cs.rN - cs.r1 + 1) := by
      rw [hH]
      exact u32_sub_eq _ _ hge (by omega)
    have hs2 : u32_sub (line_rows cfg rows b cs T)
        (rows_sum cfg rows b cs T (n' + 1) - (cs.rN - cs.r1 + 1))
        = line_rows cfg rows b cs T
          - (rows_sum cfg rows b cs T (n' + 1) - (cs.rN - cs.r1 + 1)) :=
      u32_sub_eq _ _ (by omega) (by omega)
    have hs3 : u32_add cs.r1 (line_rows cfg rows b cs T
          - (rows_sum cfg rows b cs T (n' + 1) - (cs.rN - cs.r1 + 1)))
        = cs.r1 + line_rows cfg rows b cs T
          - (rows_sum cfg rows b cs T (n' + 1) - (cs.rN - cs.r1 + 1)) := by
      rw [u32_add_eq _ _ (by omega)]
      omega
    have hcall : line_call cfg b cs T cs.r1
        (rows_sum cfg rows b cs T (n' + 1) - (cs.rN - cs.r1 + 1)) =
        ⟨T, cs, (split_buffer_cols cfg b.lines[T] (col_total cs) b.pad).1,
          (split_buffer_cols cfg b.lines[T] (col_total cs) b.pad).2,
          rows_sum cfg rows b cs T (n' + 1) - (cs.rN - cs.r1 + 1),
          line_pad cfg b b.lines[T]⟩ := by
      rw [line_call_eq cfg b cs T _ _ _ hl]
    by_cases hhd : T + 1 = b.lines.length
    · have hn0 : n' = 0 := by omega
      subst hn0
      refine ⟨[line_call cfg b cs T cs.r1
        (rows_sum cfg rows b cs T (0 + 1) - (cs.rN - cs.r1 + 1))], hTn, hn1, hge, hall,
        hskip, ?_, rfl, ?_⟩
      · rw [draw_buffer_unfold cfg rows b cs hr hc hsb, hft]
        have hgt' : rows_sum cfg rows b cs T (0 + 1) > row_total cs := by rw [hH]; exact hgt
        simp only [Res.bind, hgt', if_true, hl, hhd, hs1, hcall]
      · intro j hj
        have hj0 : j = 0 := by omega
        subst hj0
        simp [rows_sum]
    · obtain ⟨rest, hdr, hrl, hrget⟩ := draw_remaining_exact cfg rows b cs hfit (T + 1)
        (cs.r1 + line_rows cfg rows b cs T
          - (rows_sum cfg rows b cs T (n' + 1) - (cs.rN - cs.r1 + 1))) n'
        (by omega) (by omega) hkey (by omega)
      refine ⟨line_call cfg b cs T cs.r1
        (rows_sum cfg rows b cs T (n' + 1) - (cs.rN - cs.r1 + 1)) :: rest, hTn, hn1, hge,
        hall, hskip, ?_, by simp [hrl], ?_⟩
      · rw [draw_buffer_unfold cfg rows b cs hr hc hsb, hft]
        have hgt' : rows_sum cfg rows b cs T (n' + 1) > row_total cs := by rw [hH]; exact hgt
        simp only [Res.bind, hgt', if_true, hl, hhd, if_false, hs1, ← hR, hs2, hs3, hdr,
          hcall]
      · intro j hj
        cases j with
        | zero => simp [rows_sum]
        | succ j =>
          have h1 := hrget j (by omega)
          simp only [List.getElem?_cons_succ, h1]
          have hne : j + 1 ≠ 0 := by omega
          simp only [hne, if_false]
          congr 2
          · omega
          · simp only [rows_sum]
            omega
  · -- the top line is drawn in full
    have heq : rows_sum cfg rows b cs T (n' + 1) = cs.rN - cs.r1 + 1 := by omega
    obtain ⟨draws, hdr, hdl, hdget⟩ := draw_remaining_exact cfg rows b cs hfit T cs.r1
      (n' + 1) hTlen (by omega)
      (fun j hj => by
        have h1 := rows_sum_tail_pos cfg rows b cs hrows T (n' + 1) j (by omega) hj
        omega)
      (by omega)
    refine ⟨draws, hTn, hn1, hge, hall, hskip, ?_, hdl, ?_⟩
    · rw [draw_buffer_unfold cfg rows b cs hr hc hsb, hft]
      have hgt' : ¬ (rows_sum cfg rows b cs T (n' + 1) > row_total cs) := by rw [hH]; exact hgt
      simp only [Res.bind, hgt', if_false]
      exact hdr
    · intro j hj
      rw [hdget j hj, heq]
      simp

end DrawBuffer

/-! ## Claims about `_draw_buffer` -/

/-- C1. `_draw_buffer`, overflow case. With `rows(L) ≥ 1` the row count of line `L` and
`H = rN - r1 + 1`: when the lines from the oldest through the scroll-cursor line need
more than `H` rows, the top drawn line `T` is the newest line whose sum `S` of row counts
up to the scroll-cursor line reaches `H`; it is drawn on row `r1` with `skip = S - H`,
where `skip < rows(T)`; every newer line up to the scroll-cursor line is drawn with skip
0 on the row right after the rows of the line before it; nothing else is drawn; and the
last row of the scroll-cursor line is `rN`. (Row counts are taken to fit an
`unsigned int` together with `rN`.) -/
theorem draw_buffer_overflow (cfg : config) (rows : buffer_line → Nat → Nat) (b : buffer)
    (cs : coords)
    (hr : cs.r1 ≤ cs.rN) (hc : cs.c1 ≤ cs.cN) (hsb : b.scrollback < b.lines.length)
    (hrows : ∀ i, i < b.lines.length → 1 ≤ line_rows cfg rows b cs i)
    (hfit : ∀ i, i < b.lines.length → cs.rN + line_rows cfg rows b cs i < UINT_SIZE)
    (hover : cs.rN - cs.r1 + 1 < rows_sum cfg rows b cs 0 (b.scrollback + 1)) :
    ∃ T n draws, T + n = b.scrollback + 1 ∧ 1 ≤ n ∧
      cs.rN - cs.r1 + 1 ≤ rows_sum cfg rows b cs T n ∧
      (∀ t m, T < t → t + m = b.scrollback + 1 →
        rows_sum cfg rows b cs t m < cs.rN - cs.r1 + 1) ∧
      rows_sum cfg rows b cs T n - (cs.rN - cs.r1 + 1) < line_rows cfg rows b cs T ∧
      _draw_buffer cfg rows b cs = .ok draws ∧ draws.length = n ∧
      draws[0]? = some (line_call cfg b cs T cs.r1
        (rows_sum cfg rows b cs T n - (cs.rN - cs.r1 + 1))) ∧
      (∀ j, j + 1 < n → ∃ d0 d1, draws[j]? = some d0 ∧ draws[j + 1]? = some d1 ∧
        d1.line = d0.line + 1 ∧ d1.skip = 0 ∧
        d1.coords.r1 = d0.coords.r1 + (line_rows cfg rows b cs (T + j) - d0.skip)) ∧
      (∀ j, j < n → draws[j]? = some (line_call cfg b cs (T + j)
          (cs.r1 + rows_sum cfg rows b cs T j -
            (if j = 0 then 0 else rows_sum cfg rows b cs T n - (cs.rN - cs.r1 + 1)))
          (if j = 0 then rows_sum cfg rows b cs T n - (cs.rN - cs.r1 + 1) else 0))) ∧
      ∃ last, draws[n - 1]? = some last ∧ last.line = b.scrollback ∧
        last.coords.r1 + (line_rows cfg rows b cs b.scrollback - last.skip) - 1 = cs.rN := by
  obtain ⟨T, n, draws, hTn, hn1, hge, hall, hskip, hdraw, hlen, hget⟩ :=
    overflow_layout_core cfg rows b cs hr hc hsb hrows hfit hover
  refine ⟨T, n, draws, hTn, hn1, hge, hall, hskip, hdraw, hlen, ?_, ?_, hget, _,
    hget (n - 1) (by omega), ?_, ?_⟩
  · have h0 := hget 0 (by omega)
    simpa [rows_sum] using h0
  · intro j hj
    refine ⟨_, _, hget j (by omega), hget (j + 1) hj, ?_, ?_, ?_⟩
    · simp only [line_call]
      omega
    · simp [line_call]
    · simp only [line_call, Nat.add_one_ne_zero, if_false]
      have hsn := rows_sum_snoc cfg rows b cs T j
      by_cases hz : j = 0
      · subst hz
        simp only [if_true, rows_sum, Nat.add_zero] at hsn ⊢
        omega
      · have hpos : line_rows cfg rows b cs T ≤ rows_sum cfg rows b cs T j := by
          obtain ⟨j', rfl⟩ : ∃ j', j = j' + 1 := ⟨j - 1, by omega⟩
          simp only [rows_sum]
          omega
        simp only [hz, if_false]
        omega
  · simp only [line_call]
    omega
  · obtain ⟨n', rfl⟩ : ∃ n', n = n' + 1 := ⟨n - 1, by omega⟩
    have hsbT : b.scrollback = T + n' := by omega
    simp only [line_call, Nat.add_sub_cancel]
    rw [hsbT]
    by_cases hz : n' = 0
    · subst hz
      have h1 : rows_sum cfg rows b cs T (0 + 1) = line_rows cfg rows b cs T := by
        simp [rows_sum]
      rw [h1] at hge hskip ⊢
      simp only [if_true, rows_sum, Nat.add_zero]
      omega
    · have hsn := rows_sum_snoc cfg rows b cs T n'
      have htl := hall (T + n') 1 (by omega) (by omega)
      rw [rows_sum_one] at htl
      simp only [hz, if_false]
      omega

/-- The scenario of the spec: a ten-row rectangle and three lines of four rows each,
scroll cursor on the newest: the oldest line is drawn on row 1 with skip 2, the middle
line on row 3 and the newest on row 7, ending on row 10. -/
theorem draw_buffer_overflow_witness :
    _draw_buffer example_config example_rows example_buffer example_coords =
      .ok [⟨0, ⟨1, 80, 1, 10⟩, 14, 67, 2, 0⟩, ⟨1, ⟨1, 80, 3, 10⟩, 14, 67, 0, 0⟩,
           ⟨2, ⟨1, 80, 7, 10⟩, 14, 67, 0, 0⟩] ∧
    ∃ T n draws, T + n = example_buffer.scrollback + 1 ∧ 1 ≤ n ∧
      example_coords.rN - example_coords.r1 + 1
        ≤ rows_sum example_config example_rows example_buffer example_coords T n ∧
      (∀ t m, T < t → t + m = example_buffer.scrollback + 1 →
        rows_sum example_config example_rows example_buffer example_coords t m
          < example_coords.rN - example_coords.r1 + 1) ∧
      rows_sum example_config example_rows example_buffer example_coords T n
          - (example_coords.rN - example_coords.r1 + 1)
        < line_rows example_config example_rows example_buffer example_coords T ∧
      _draw_buffer example_config example_rows example_buffer example_coords = .ok draws ∧
      draws.length = n ∧
      draws[0]? = some (line_call example_config example_buffer example_coords T
        example_coords.r1
        (rows_sum example_config example_rows example_buffer example_coords T n
          - (example_coords.rN - example_coords.r1 + 1))) ∧
      (∀ j, j + 1 < n → ∃ d0 d1, draws[j]? = some d0 ∧ draws[j + 1]? = some d1 ∧
        d1.line = d0.line + 1 ∧ d1.skip = 0 ∧
        d1.coords.r1 = d0.coords.r1
          + (line_rows example_config example_rows example_buffer example_coords (T + j)
            - d0.skip)) ∧
      (∀ j, j < n → draws[j]? = some (line_call example_config example_buffer example_coords
          (T + j)
          (example_coords.r1
            + rows_sum example_config example_rows example_buffer example_coords T j -
            (if j = 0 then 0
             else rows_sum example_config example_rows example_buffer example_coords T n
              - (example_coords.rN - example_coords.r1 + 1)))
          (if j = 0 then
            rows_sum example_config example_rows example_buffer example_coords T n
              - (example_coords.rN - example_coords.r1 + 1)
           else 0))) ∧
      ∃ last, draws[n - 1]? = some last ∧ last.line = example_buffer.scrollback ∧
        last.coords.r1 + (line_rows example_config example_rows example_buffer
          example_coords example_buffer.scrollback - last.skip) - 1 = example_coords.rN :=
  ⟨by decide,
   draw_buffer_overflow example_config example_rows example_buffer example_coords
     (by decide) (by decide) (by decide) (by decide) (by decide) (by decide)⟩

/-- C2. `_draw_buffer`, short-buffer case. With `rows(L) ≥ 1` the row count of line `L`
and `H = rN - r1 + 1`: when the lines from the oldest through the scroll-cursor line need
at most `H` rows, the drawn lines are the lines `0, 1, ..` of the buffer up to at least
the scroll-cursor line, each with skip 0; the oldest line starts on row `r1` and each
following line starts on the row right after the rows of the line before it. (Row counts
are taken to fit an `unsigned int` together with `rN`.) -/
theorem draw_buffer_short (cfg : config) (rows : buffer_line → Nat → Nat) (b : buffer)
    (cs : coords)
    (hr : cs.r1 ≤ cs.rN) (hc : cs.c1 ≤ cs.cN) (hsb : b.scrollback < b.lines.length)
    (hrows : ∀ i, i < b.lines.length → 1 ≤ line_rows cfg rows b cs i)
    (hfit : ∀ i, i < b.lines.length → cs.rN + line_rows cfg rows b cs i < UINT_SIZE)
    (hshort : rows_sum cfg rows b cs 0 (b.scrollback + 1) ≤ cs.rN - cs.r1 + 1) :
    ∃ n draws, _draw_buffer cfg rows b cs = .ok draws ∧ draws.length = n ∧
      b.scrollback < n ∧ n ≤ b.lines.length ∧
      (∀ j, j < n → draws[j]? =
        some (line_call cfg b cs j (cs.r1 + rows_sum cfg rows b cs 0 j) 0)) ∧
      draws[0]? = some (line_call cfg b cs 0 cs.r1 0) ∧
      ∀ j, j + 1 < n → ∃ d0 d1, draws[j]? = some d0 ∧ draws[j + 1]? = some d1 ∧
        d0.skip = 0 ∧ d1.skip = 0 ∧ d1.line = d0.line + 1 ∧
        d1.coords.r1 = d0.coords.r1 + line_rows cfg rows b cs j := by
  obtain ⟨n, draws, hdraw, hlen, hsbn, hnl, hget⟩ :=
    draw_buffer_top_aligned cfg rows b cs hr hc hsb hrows hfit hshort
  refine ⟨n, draws, hdraw, hlen, hsbn, hnl, hget, ?_, ?_⟩
  · have := hget 0 (by omega)
    simpa [rows_sum] using this
  · intro j hj
    refine ⟨_, _, hget j (by omega), hget (j + 1) hj, ?_, ?_, ?_, ?_⟩
    · simp [line_call]
    · simp [line_call]
    · simp [line_call]
    · simp only [line_call]
      rw [rows_sum_snoc, Nat.zero_add]
      omega

/-- The three lines of four rows each in a twenty-row rectangle: drawn in full on rows 1,
5 and 9. -/
theorem draw_buffer_short_witness :
    _draw_buffer example_config example_rows example_buffer example_coords_tall =
      .ok [⟨0, ⟨1, 80, 1, 20⟩, 14, 67, 0, 0⟩, ⟨1, ⟨1, 80, 5, 20⟩, 14, 67, 0, 0⟩,
           ⟨2, ⟨1, 80, 9, 20⟩, 14, 67, 0, 0⟩] ∧
    ∃ n draws,
      _draw_buffer example_config example_rows example_buffer example_coords_tall
        = .ok draws ∧ draws.length = n ∧
      example_buffer.scrollback < n ∧ n ≤ example_buffer.lines.length ∧
      (∀ j, j < n → draws[j]? =
        some (line_call example_config example_buffer example_coords_tall j
          (example_coords_tall.r1
            + rows_sum example_config example_rows example_buffer example_coords_tall 0 j)
          0)) ∧
      draws[0]? = some (line_call example_config example_buffer example_coords_tall 0
        example_coords_tall.r1 0) ∧
      ∀ j, j + 1 < n → ∃ d0 d1, draws[j]? = some d0 ∧ draws[j + 1]? = some d1 ∧
        d0.skip = 0 ∧ d1.skip = 0 ∧ d1.line = d0.line + 1 ∧
        d1.coords.r1 = d0.coords.r1
          + line_rows example_config example_rows example_buffer example_coords_tall j :=
  ⟨by decide,
   draw_buffer_short example_config example_rows example_buffer example_coords_tall
     (by decide) (by decide) (by decide) (by decide) (by decide) (by decide)⟩

/-! ## Facts about `_draw_nav` -/

theorem pad_nextward_spec (chans : List channel) (cols : Nat) :
    ∀ fuel tmp_next total_len : Nat, tmp_next < chans.length →
      chans.length - tmp_next ≤ fuel →
      ∃ tn, pad_nextward chans cols fuel tmp_next (channel_get_next chans tmp_next) total_len
          = some tn ∧ tmp_next ≤ tn ∧ tn < chans.length := by
  intro fuel
  induction fuel with
  | zero =>
    intro tmp_next total_len h1 h2
    omega
  | succ fuel ih =>
    intro tmp_next total_len h1 h2
    unfold pad_nextward
    split
    · rename_i hcond
      have hne : channel_get_next chans tmp_next ≠ 0 := hcond.2
      have hnext : channel_get_next chans tmp_next = tmp_next + 1 := by
        unfold channel_get_next at hne ⊢
        split
        · rfl
        · rename_i hlt
          rw [if_neg hlt] at hne
          exact absurd rfl hne
      have hlt : tmp_next + 1 < chans.length := by
        by_contra hcon
        unfold channel_get_next at hne
        rw [if_neg hcon] at hne
        exact hne rfl
      rw [hnext]
      obtain ⟨tn, htn, hle, hlen⟩ := ih (tmp_next + 1) _ hlt (by omega)
      exact ⟨tn, htn, by omega, hlen⟩
    · exact ⟨tmp_next, rfl, le_refl _, h1⟩

theorem pad_prevward_spec (chans : List channel) (cols : Nat) :
    ∀ fuel tmp_prev total_len : Nat, tmp_prev < chans.length → tmp_prev + 1 ≤ fuel →
      ∃ tp, pad_prevward chans cols fuel tmp_prev (channel_get_prev chans tmp_prev) total_len
          = some tp ∧ tp ≤ tmp_prev := by
  intro fuel
  induction fuel with
  | zero =>
    intro tmp_prev total_len h1 h2
    omega
  | succ fuel ih =>
    intro tmp_prev total_len h1 h2
    unfold pad_prevward
    split
    · rename_i hcond
      have hne : channel_get_prev chans tmp_prev ≠ channel_get_last chans := hcond.2
      have hnz : tmp_prev ≠ 0 := by
        intro h0
        apply hne
        simp [channel_get_prev, channel_get_last, h0]
      have hprev : channel_get_prev chans tmp_prev = tmp_prev - 1 := by
        simp [channel_get_prev, hnz]
      rw [hprev]
      obtain ⟨tp, htp, hle⟩ := ih (tmp_prev - 1) _ (by omega) (by omega)
      exact ⟨tp, htp, by omega⟩
    · exact ⟨tmp_prev, rfl, le_refl _⟩

theorem frame_loop_spec (chans : List channel) (cols : Nat) (frame_prev frame_next : Option Nat) :
    ∀ fuel tmp_prev tmp_next total_len : Nat, ∀ nextward : Bool,
      tmp_prev ≤ tmp_next → tmp_next < chans.length →
      tmp_prev + (chans.length - 1 - tmp_next) + 1 ≤ fuel →
      ∃ fp fn, frame_loop chans cols frame_prev frame_next fuel tmp_prev tmp_next total_len
          nextward = some (fp, fn) ∧ fp ≤ tmp_prev ∧ tmp_next ≤ fn ∧ fn < chans.length := by
  intro fuel
  induction fuel with
  | zero =>
    intro tmp_prev tmp_next total_len nextward h1 h2 h3
    omega
  | succ fuel ih =>
    intro tmp_prev tmp_next total_len nextward h1 h2 h3
    unfold frame_loop
    split
    · obtain ⟨tn, htn, hle, hlen⟩ :=
        pad_nextward_spec chans cols (chans.length + 1) tmp_next total_len h2 (by omega)
      exact ⟨tmp_prev, tn, by simp [htn], le_refl _, hle, hlen⟩
    · rename_i hfirst
      split
      · obtain ⟨tp, htp, hle⟩ :=
          pad_prevward_spec chans cols (chans.length + 1) tmp_prev total_len (by omega)
            (by omega)
        exact ⟨tp, tmp_next, by simp [htp], hle, le_refl _, h2⟩
      · rename_i hlast
        have hp0 : tmp_prev ≠ 0 := fun h => hfirst (Or.inl h)
        have hnl : tmp_next ≠ chans.length - 1 := fun h => hlast (Or.inl h)
        have hnext : channel_get_next chans tmp_next = tmp_next + 1 := by
          have : tmp_next + 1 < chans.length := by omega
          simp [channel_get_next, this]
        have hprev : channel_get_prev chans tmp_prev = tmp_prev - 1 := by
          simp [channel_get_prev, hp0]
        cases nextward with
        | true =>
          simp only [if_true, hnext]
          by_cases hfull : total_len + (name_len chans (tmp_next + 1) + 2) ≥ cols
          · rw [if_pos hfull]
            exact ⟨tmp_prev, tmp_next, rfl, le_refl _, le_refl _, h2⟩
          · rw [if_neg hfull]
            obtain ⟨fp, fn, hfl, hfp, hfn, hlen⟩ :=
              ih tmp_prev (tmp_next + 1) (total_len + (name_len chans (tmp_next + 1) + 2))
                false (by omega) (by omega) (by omega)
            exact ⟨fp, fn, hfl, hfp, by omega, hlen⟩
        | false =>
          simp only [Bool.false_eq_true, if_false, hprev]
          by_cases hfull : total_len + (name_len chans (tmp_prev - 1) + 2) ≥ cols
          · rw [if_pos hfull]
            exact ⟨tmp_prev, tmp_next, rfl, le_refl _, le_refl _, h2⟩
          · rw [if_neg hfull]
            obtain ⟨fp, fn, hfl, hfp, hfn, hlen⟩ :=
              ih (tmp_prev - 1) tmp_next (total_len + (name_len chans (tmp_prev - 1) + 2))
                true (by omega) (by omega) (by omega)
            exact ⟨fp, fn, hfl, by omega, hfn, hlen⟩

theorem nav_labels_spec (chans : List channel) (frame_next : Nat) :
    ∀ fuel c : Nat, c ≤ frame_next → frame_next < chans.length →
      frame_next - c + 1 ≤ fuel →
      nav_labels chans frame_next fuel c = some (List.range' c (frame_next - c + 1)) := by
  intro fuel
  induction fuel with
  | zero =>
    intro c h1 h2 h3
    omega
  | succ fuel ih =>
    intro c h1 h2 h3
    unfold nav_labels
    split
    · rename_i heq
      subst heq
      simp
    · rename_i hne
      have hnext : channel_get_next chans c = c + 1 := by
        have : c + 1 < chans.length := by omega
        simp [channel_get_next, this]
      rw [hnext, ih (c + 1) (by omega) h2 (by omega)]
      have hk : frame_next - c + 1 = (frame_next - (c + 1) + 1) + 1 := by omega
      rw [hk, List.range'_succ]
      rfl

theorem draw_nav_spec (chans : List channel) (cols : Nat) (st : nav_frame) (c : Nat)
    (hc : c < chans.length) (hfit : name_len chans c + 2 < cols) :
    ∃ fp fn, _draw_nav chans cols st c
        = some (⟨some fp, some fn⟩, List.range' fp (fn - fp + 1)) ∧
      fp ≤ c ∧ c ≤ fn ∧ fn < chans.length ∧
      frame_loop chans cols (bump_frame chans st c).frame_prev
        (bump_frame chans st c).frame_next (chans.length + 1) c c (name_len chans c + 2) true
        = some (fp, fn) := by
  obtain ⟨fp, fn, hfl, hfp, hfn, hlen⟩ :=
    frame_loop_spec chans cols (bump_frame chans st c).frame_prev
      (bump_frame chans st c).frame_next (chans.length + 1) c c (name_len chans c + 2) true
      (le_refl _) hc (by omega)
  have hlab := nav_labels_spec chans fn (chans.length + 1) fp (by omega) hlen (by omega)
  refine ⟨fp, fn, ?_, hfp, hfn, hlen, hfl⟩
  have hng : ¬ (name_len chans c + 2 ≥ cols) := by omega
  simp only [_draw_nav, hng, if_false, hfl, Option.bind, hlab, Option.map]

/-! ## Claims about `_draw_nav` -/

/-- C10. `_draw_nav` framing invariant: for every channel list, every active channel `c`
of the list with `strlen(c.name) + 2 < cols` and every persisted frame (`NULL`
included), the call returns with a new frame that satisfies
`first ≤ frame_prev ≤ c ≤ frame_next ≤ last` in list order. -/
theorem draw_nav_frames_active (chans : List channel) (cols : Nat) (st : nav_frame) (c : Nat)
    (hc : c < chans.length) (hfit : name_len chans c + 2 < cols) :
    ∃ fp fn drawn, _draw_nav chans cols st c
        = some ({ frame_prev := some fp, frame_next := some fn }, drawn) ∧
      channel_get_first ≤ fp ∧ fp ≤ c ∧ c ≤ fn ∧ fn ≤ channel_get_last chans := by
  obtain ⟨fp, fn, hdn, hfp, hfn, hlen, _⟩ := draw_nav_spec chans cols st c hc hfit
  refine ⟨fp, fn, _, hdn, Nat.zero_le _, hfp, hfn, ?_⟩
  unfold channel_get_last
  omega

/-- Five one-letter channels in ten columns, the active channel "d" sitting on the
previous frame's end: the frame moves to "c".."e". -/
theorem draw_nav_frames_active_witness :
    _draw_nav example_channels 10 ⟨some 1, some 3⟩ 3 = some (⟨some 2, some 4⟩, [2, 3, 4]) ∧
    ∃ fp fn drawn, _draw_nav example_channels 10 ⟨some 1, some 3⟩ 3
        = some ({ frame_prev := some fp, frame_next := some fn }, drawn) ∧
      channel_get_first ≤ fp ∧ fp ≤ 3 ∧ 3 ≤ fn ∧ fn ≤ channel_get_last example_channels :=
  ⟨by decide,
   draw_nav_frames_active example_channels 10 ⟨some 1, some 3⟩ 3 (by decide) (by decide)⟩

/-! ## More facts about `_draw_nav` -/

theorem width_sum_add (chans : List channel) (m n : Nat) : ∀ lo : Nat,
    width_sum chans lo (m + n) = width_sum chans lo m + width_sum chans (lo + m) n := by
  induction m with
  | zero => intro lo; simp [width_sum]
  | succ m ih =>
    intro lo
    have h1 : m + 1 + n = (m + n) + 1 := by omega
    have h2 : lo + (m + 1) = lo + 1 + m := by omega
    rw [h1, h2]
    simp only [width_sum]
    rw [ih (lo + 1)]
    omega

theorem width_sum_snoc (chans : List channel) (lo n : Nat) :
    width_sum chans lo (n + 1) = width_sum chans lo n + (name_len chans (lo + n) + 2) := by
  rw [width_sum_add]
  simp [width_sum]

theorem pad_nextward_all (chans : List channel) (cols : Nat) :
    ∀ fuel tmp_next total_len : Nat, tmp_next < chans.length →
      chans.length - tmp_next ≤ fuel →
      total_len + width_sum chans (tmp_next + 1) (chans.length - 1 - tmp_next) < cols →
      pad_nextward chans cols fuel tmp_next (channel_get_next chans tmp_next) total_len
        = some (chans.length - 1) := by
  intro fuel
  induction fuel with
  | zero =>
    intro tmp_next total_len h1 h2 _
    omega
  | succ fuel ih =>
    intro tmp_next total_len h1 h2 h3
    by_cases hlast : tmp_next + 1 < chans.length
    · have hnext : channel_get_next chans tmp_next = tmp_next + 1 := by
        simp [channel_get_next, hlast]
      obtain ⟨k, hk⟩ : ∃ k, chans.length - 1 - tmp_next = k + 1 :=
        ⟨chans.length - 1 - tmp_next - 1, by omega⟩
      rw [hk] at h3
      simp only [width_sum] at h3
      have hcond : total_len + (name_len chans (tmp_next + 1) + 2) < cols ∧
          tmp_next + 1 ≠ channel_get_first := by
        refine ⟨by omega, ?_⟩
        unfold channel_get_first
        omega
      rw [hnext]
      unfold pad_nextward
      rw [if_pos hcond]
      have hk' : chans.length - 1 - (tmp_next + 1) = k := by omega
      exact ih (tmp_next + 1) _ hlast (by omega) (by rw [hk']; omega)
    · have hnext : channel_get_next chans tmp_next = 0 := by
        simp [channel_get_next, hlast]
      have hcond : ¬ (total_len + (name_len chans 0 + 2) < cols ∧
          (0 : Nat) ≠ channel_get_first) := by
        intro h
        exact h.2 rfl
      rw [hnext]
      unfold pad_nextward
      rw [if_neg hcond]
      congr 1
      omega

theorem pad_prevward_all (chans : List channel) (cols : Nat) :
    ∀ fuel tmp_prev total_len : Nat, tmp_prev < chans.length → tmp_prev + 1 ≤ fuel →
      total_len + width_sum chans 0 tmp_prev < cols →
      pad_prevward chans cols fuel tmp_prev (channel_get_prev chans tmp_prev) total_len
        = some 0 := by
  intro fuel
  induction fuel with
  | zero =>
    intro tmp_prev total_len h1 h2 _
    omega
  | succ fuel ih =>
    intro tmp_prev total_len h1 h2 h3
    by_cases hz : tmp_prev = 0
    · subst hz
      have hprev : channel_get_prev chans 0 = chans.length - 1 := by
        simp [channel_get_prev]
      have hcond : ¬ (total_len + (name_len chans (chans.length - 1) + 2) < cols ∧
          chans.length - 1 ≠ channel_get_last chans) := by
        intro h
        exact h.2 rfl
      rw [hprev]
      unfold pad_prevward
      rw [if_neg hcond]
    · have hprev : channel_get_prev chans tmp_prev = tmp_prev - 1 := by
        simp [channel_get_prev, hz]
      obtain ⟨k, rfl⟩ : ∃ k, tmp_prev = k + 1 := ⟨tmp_prev - 1, by omega⟩
      rw [width_sum_snoc, Nat.zero_add] at h3
      simp only [Nat.add_sub_cancel] at hprev
      have hcond : total_len + (name_len chans k + 2) < cols ∧
          k ≠ channel_get_last chans := by
        refine ⟨by omega, ?_⟩
        unfold channel_get_last
        omega
      rw [hprev]
      unfold pad_prevward
      rw [if_pos hcond]
      exact ih k _ (by omega) (by omega) (by omega)

theorem frame_loop_all (chans : List channel) (cols : Nat) :
    ∀ fuel tmp_prev tmp_next total_len : Nat, ∀ nextward : Bool,
      tmp_prev ≤ tmp_next → tmp_next < chans.length →
      tmp_prev + (chans.length - 1 - tmp_next) + 1 ≤ fuel →
      total_len + width_sum chans 0 tmp_prev
        + width_sum chans (tmp_next + 1) (chans.length - 1 - tmp_next) < cols →
      frame_loop chans cols none none fuel tmp_prev tmp_next total_len nextward
        = some (0, chans.length - 1) := by
  intro fuel
  induction fuel with
  | zero =>
    intro tmp_prev tmp_next total_len nextward h1 h2 h3 _
    omega
  | succ fuel ih =>
    intro tmp_prev tmp_next total_len nextward h1 h2 h3 h4
    unfold frame_loop
    by_cases hfirst : tmp_prev = channel_get_first
    · have hp : tmp_prev = channel_get_first ∨ some tmp_prev = (none : Option Nat) :=
        Or.inl hfirst
      rw [if_pos hp, pad_nextward_all chans cols (chans.length + 1) tmp_next total_len h2
        (by omega) (by omega)]
      simp [hfirst, channel_get_first]
    · have hp : ¬ (tmp_prev = channel_get_first ∨ some tmp_prev = (none : Option Nat)) := by
        intro h
        rcases h with h | h
        · exact hfirst h
        · exact Option.noConfusion h
      rw [if_neg hp]
      have hp0 : tmp_prev ≠ 0 := hfirst
      by_cases hlast : tmp_next = channel_get_last chans
      · have hq : tmp_next = channel_get_last chans ∨ some tmp_next = (none : Option Nat) :=
          Or.inl hlast
        rw [if_pos hq, pad_prevward_all chans cols (chans.length + 1) tmp_prev total_len
          (by omega) (by omega) (by omega)]
        simp [hlast, channel_get_last]
      · have hq : ¬ (tmp_next = channel_get_last chans ∨
            some tmp_next = (none : Option Nat)) := by
          intro h
          rcases h with h | h
          · exact hlast h
          · exact Option.noConfusion h
        rw [if_neg hq]
        have hnl : tmp_next ≠ chans.length - 1 := hlast
        have hnext : channel_get_next chans tmp_next = tmp_next + 1 := by
          have : tmp_next + 1 < chans.length := by omega
          simp [channel_get_next, this]
        have hprev : channel_get_prev chans tmp_prev = tmp_prev - 1 := by
          simp [channel_get_prev, hp0]
        obtain ⟨k, hk⟩ : ∃ k, chans.length - 1 - tmp_next = k + 1 :=
          ⟨chans.length - 1 - tmp_next - 1, by omega⟩
        obtain ⟨p, rfl⟩ : ∃ p, tmp_prev = p + 1 := ⟨tmp_prev - 1, by omega⟩
        have hw1 : width_sum chans (tmp_next + 1) (chans.length - 1 - tmp_next)
            = (name_len chans (tmp_next + 1) + 2) + width_sum chans (tmp_next + 1 + 1) k := by
          rw [hk]
          rfl
        have hw2 : width_sum chans 0 (p + 1)
            = width_sum chans 0 p + (name_len chans p + 2) := by
          rw [width_sum_snoc, Nat.zero_add]
        simp only [Nat.add_sub_cancel] at hprev
        cases nextward with
        | true =>
          simp only [if_true, hnext]
          have hfull : ¬ (total_len + (name_len chans (tmp_next + 1) + 2) ≥ cols) := by omega
          rw [if_neg hfull]
          have hk' : chans.length - 1 - (tmp_next + 1) = k := by omega
          exact ih (p + 1) (tmp_next + 1) _ false (by omega) (by omega) (by omega)
            (by rw [hk']; omega)
        | false =>
          simp only [Bool.false_eq_true, if_false, hprev]
          have hfull : ¬ (total_len + (name_len chans p + 2) ≥ cols) := by omega
          rw [if_neg hfull]
          exact ih p tmp_next _ true (by omega) (by omega) (by omega) (by omega)

theorem bump_frame_initial (chans : List channel) (c : Nat) :
    bump_frame chans ⟨none, none⟩ c = ⟨none, none⟩ := by
  simp [bump_frame]

/-! ## More claims about `_draw_nav` -/

/-- C11. `_draw_nav` shows every channel when all fit: starting from the initial frame
state (both boundaries `NULL`), for every channel list whose padded label widths
`strlen(name) + 2` sum to less than `cols` and every active channel `c` of the list, the
call returns with `frame_prev` the first and `frame_next` the last channel of the list,
and every label is drawn. -/
theorem draw_nav_all_fit (chans : List channel) (cols : Nat) (c : Nat)
    (hc : c < chans.length) (hall : width_sum chans 0 chans.length < cols) :
    _draw_nav chans cols ⟨none, none⟩ c
      = some ({ frame_prev := some channel_get_first,
                frame_next := some (channel_get_last chans) },
              List.range' 0 chans.length) := by
  have hsplit : width_sum chans 0 chans.length
      = width_sum chans 0 c + ((name_len chans c + 2)
        + width_sum chans (c + 1) (chans.length - 1 - c)) := by
    have h := width_sum_add chans c (chans.length - c) 0
    have h1 : c + (chans.length - c) = chans.length := by omega
    rw [h1, Nat.zero_add] at h
    obtain ⟨k, hk⟩ : ∃ k, chans.length - c = k + 1 := ⟨chans.length - c - 1, by omega⟩
    have hk' : chans.length - 1 - c = k := by omega
    rw [h, hk, hk']
    rfl
  have hfl := frame_loop_all chans cols (chans.length + 1) c c (name_len chans c + 2) true
    (le_refl _) hc (by omega) (by omega)
  have hlab := nav_labels_spec chans (chans.length - 1) (chans.length + 1) 0 (by omega)
    (by omega) (by omega)
  have hng : ¬ (name_len chans c + 2 ≥ cols) := by omega
  have hcnt : chans.length - 1 - 0 + 1 = chans.length := by omega
  rw [hcnt] at hlab
  simp only [_draw_nav, hng, if_false, bump_frame_initial, hfl, Option.bind, hlab,
    Option.map, channel_get_first, channel_get_last]

/-- The scenario of the spec: width 40, channels "a" to "e", active "c": the frame is
the whole list. -/
theorem draw_nav_all_fit_witness :
    _draw_nav example_channels 40 ⟨none, none⟩ 2
      = some ({ frame_prev := some channel_get_first,
                frame_next := some (channel_get_last example_channels) },
              List.range' 0 example_channels.length) :=
  draw_nav_all_fit example_channels 40 2 (by decide) (by decide)

/-- C12, as stated, fails: a channel with a three-byte name on a terminal of 5 columns
has `strlen + 2 == cols`; `_draw_nav` returns at once, draws no label and leaves the
frame as it was. -/
theorem draw_nav_exact_width_counterexample :
    name_len [⟨[97, 98, 99], 0⟩] 0 + 2 = 5 ∧
    _draw_nav [⟨[97, 98, 99], 0⟩] 5 ⟨none, none⟩ 0 = some (⟨none, none⟩, []) := by
  decide

/-- C12, amended. `_draw_nav` draws nothing exactly when the active channel's padded
label is at least as wide as the terminal: if `strlen(c.name) + 2 ≥ cols` no label is
drawn and the frame is left as it was; otherwise (`strlen(c.name) + 2 < cols`) the frame
is recomputed and the active channel's label is among the labels drawn. -/
theorem draw_nav_draws_iff (chans : List channel) (cols : Nat) (st : nav_frame) (c : Nat)
    (hc : c < chans.length) :
    (name_len chans c + 2 ≥ cols → _draw_nav chans cols st c = some (st, [])) ∧
    (name_len chans c + 2 < cols →
      ∃ fp fn drawn, _draw_nav chans cols st c
          = some ({ frame_prev := some fp, frame_next := some fn }, drawn) ∧
        c ∈ drawn) := by
  constructor
  · intro hge
    simp only [_draw_nav, hge, if_true]
  · intro hlt
    obtain ⟨fp, fn, hdn, hfp, hfn, hlen, _⟩ := draw_nav_spec chans cols st c hc hlt
    refine ⟨fp, fn, _, hdn, ?_⟩
    rw [List.mem_range']
    exact ⟨c - fp, by omega, by omega⟩

/-- Five one-letter channels: in three columns the label of "c" (width 3) is not drawn;
in ten columns it is. -/
theorem draw_nav_draws_iff_witness :
    _draw_nav example_channels 3 ⟨some 1, some 3⟩ 2 = some (⟨some 1, some 3⟩, []) ∧
    ∃ fp fn drawn, _draw_nav example_channels 10 ⟨some 1, some 3⟩ 2
        = some ({ frame_prev := some fp, frame_next := some fn }, drawn) ∧
      2 ∈ drawn :=
  ⟨(draw_nav_draws_iff example_channels 3 ⟨some 1, some 3⟩ 2 (by decide)).1 (by decide),
   (draw_nav_draws_iff example_channels 10 ⟨some 1, some 3⟩ 2 (by decide)).2 (by decide)⟩

/-! ## Claims about `_draw_input` -/

/-- C13. `_draw_input` reframing rule: with window `w` and cursor `h` as offsets into the
input text, width `cols` and no action message, one call sets the window to
`w + cols / 3` if `h > w + cols - 6`; otherwise to `max (w - cols / 3) 0` if `h = w - 1`;
otherwise leaves it at `w`; and the terminal cursor column it reports is `6 + (h - w')`
for the new window `w'`. -/
theorem draw_input_reframe (cols max_input h t w : Nat) :
    ((h : Int) > (w : Int) + (cols : Int) - 6 →
      (_draw_input cols max_input false ⟨h, t, w⟩).1.window = w + cols / 3) ∧
    (¬ ((h : Int) > (w : Int) + (cols : Int) - 6) → (h : Int) = (w : Int) - 1 →
      ((_draw_input cols max_input false ⟨h, t, w⟩).1.window : Int)
        = max ((w : Int) - ((cols / 3 : Nat) : Int)) 0) ∧
    (¬ ((h : Int) > (w : Int) + (cols : Int) - 6) → ¬ ((h : Int) = (w : Int) - 1) →
      (_draw_input cols max_input false ⟨h, t, w⟩).1.window = w) ∧
    (∃ v, (_draw_input cols max_input false ⟨h, t, w⟩).2 = some v ∧
      v.cursor_col
        = 6 + ((h : Int) - ((_draw_input cols max_input false ⟨h, t, w⟩).1.window : Int))) ∧
    (_draw_input cols max_input false ⟨h, t, w⟩).1.head = h ∧
    (_draw_input cols max_input false ⟨h, t, w⟩).1.tail = t := by
  refine ⟨fun h1 => ?_, fun h1 h2 => ?_, fun h1 h2 => ?_, ?_, rfl, rfl⟩
  · simp [_draw_input, h1]
  · have e : (_draw_input cols max_input false ⟨h, t, w⟩).1.window
        = if (w : Int) - ((cols / 3 : Nat) : Int) > 0 then w - cols / 3 else 0 := by
      simp only [_draw_input, Bool.false_eq_true, if_false]
      rw [if_neg h1, if_pos h2]
    rw [e]
    by_cases h3 : (w : Int) - ((cols / 3 : Nat) : Int) > 0
    · rw [if_pos h3]
      omega
    · rw [if_neg h3]
      omega
  · simp [_draw_input, h1, h2]
  · refine ⟨_, rfl, ?_⟩
    simp only [_draw_input, Bool.false_eq_true, if_false]
    omega

/-- The scenario of the spec: "hello world" with the cursor at the end (offset 11) on 11
columns with the window at 0: since `11 > 0 + 11 - 6` the window advances by `11 / 3 = 3`
to 3, and the reported column is `6 + (11 - 3) = 14`. -/
theorem draw_input_reframe_witness :
    (_draw_input 11 256 false ⟨11, 256, 0⟩).1.window = 0 + 11 / 3 ∧
    (_draw_input 11 256 false ⟨11, 256, 0⟩).1.window = 3 ∧
    (_draw_input 11 256 false ⟨11, 256, 0⟩).2
      = some ⟨[3, 4, 5, 6, 7, 8, 9, 10], [], 14⟩ :=
  ⟨(draw_input_reframe 11 256 11 256 0).1 (by decide), by decide, by decide⟩

/-- C14, as stated, fails. On 11 columns with the window at 0 and the cursor at offset 11
(the scenario of the spec) the call reports column 14, beyond the 11 columns; and on 5
columns with an empty input (window and cursor at 0) the call moves the window to 1, past
the cursor. -/
theorem draw_input_visible_counterexample :
    ((0 : Nat) ≤ 11 ∧
      ∃ v, (_draw_input 11 256 false ⟨11, 256, 0⟩).2 = some v ∧ v.cursor_col = 14 ∧
        ¬ (v.cursor_col ≤ 11)) ∧
    ((0 : Nat) ≤ 0 ∧ (_draw_input 5 256 false ⟨0, 256, 0⟩).1.window = 1 ∧
      ¬ ((_draw_input 5 256 false ⟨0, 256, 0⟩).1.window
          ≤ (_draw_input 5 256 false ⟨0, 256, 0⟩).1.head)) := by
  refine ⟨⟨by decide, ⟨[3, 4, 5, 6, 7, 8, 9, 10], [], 14⟩, by decide, rfl, by decide⟩,
    by decide, by decide, by decide⟩

/-- C14, amended. For every `cols ≥ 7` and every input state with
`window ≤ head ≤ window + cols + cols / 3 - 6` (no action message set), after one call the
window still satisfies `window ≤ head` and the reported terminal cursor column
`6 + (head - window)` is at most `cols`. -/
theorem draw_input_visible (cols max_input h t w : Nat)
    (hcols : 7 ≤ cols) (hwh : w ≤ h) (hnear : h + 6 ≤ w + cols + cols / 3) :
    (_draw_input cols max_input false ⟨h, t, w⟩).1.window
      ≤ (_draw_input cols max_input false ⟨h, t, w⟩).1.head ∧
    ∃ v, (_draw_input cols max_input false ⟨h, t, w⟩).2 = some v ∧
      v.cursor_col = 6 + ((h : Int)
        - ((_draw_input cols max_input false ⟨h, t, w⟩).1.window : Int)) ∧
      v.cursor_col ≤ (cols : Int) := by
  have hne : ¬ ((h : Int) = (w : Int) - 1) := by omega
  by_cases h1 : (h : Int) > (w : Int) + (cols : Int) - 6
  · have hw : (_draw_input cols max_input false ⟨h, t, w⟩).1.window = w + cols / 3 := by
      simp [_draw_input, h1]
    refine ⟨?_, _, rfl, ?_, ?_⟩
    · rw [hw]
      show w + cols / 3 ≤ h
      omega
    · simp only [_draw_input, Bool.false_eq_true, if_false]
      omega
    · simp only [_draw_input, Bool.false_eq_true, if_false, h1, if_true]
      push_cast
      omega
  · have hw : (_draw_input cols max_input false ⟨h, t, w⟩).1.window = w := by
      simp [_draw_input, h1, hne]
    refine ⟨?_, _, rfl, ?_, ?_⟩
    · rw [hw]
      exact hwh
    · simp only [_draw_input, Bool.false_eq_true, if_false]
      omega
    · simp only [_draw_input, Bool.false_eq_true, if_false, h1, hne]
      omega

/-- An 80-column terminal, window at 0, cursor at offset 75 (one past the last visible
position): the window moves to 26 and the cursor is reported on column 55. -/
theorem draw_input_visible_witness :
    (_draw_input 80 256 false ⟨75, 256, 0⟩).1.window
      ≤ (_draw_input 80 256 false ⟨75, 256, 0⟩).1.head ∧
    ∃ v, (_draw_input 80 256 false ⟨75, 256, 0⟩).2 = some v ∧
      v.cursor_col = 6 + ((75 : Nat) : Int)
        - ((_draw_input 80 256 false ⟨75, 256, 0⟩).1.window : Int) ∧
      v.cursor_col ≤ ((80 : Nat) : Int) := by
  obtain ⟨h1, v, h2, h3, h4⟩ :=
    draw_input_visible 80 256 75 256 0 (by decide) (by decide) (by decide)
  exact ⟨h1, v, h2, by omega, h4⟩

/-! ## Facts about `_draw_status` -/

theorem c_string_append_nul (a rest : List Nat) (ha : ∀ b ∈ a, b ≠ 0) :
    c_string (a ++ 0 :: rest) = a := by
  induction a with
  | nil => simp [c_string]
  | cons x xs ih =>
    have hx : x ≠ 0 := ha x (List.mem_cons_self _ _)
    have hxs : ∀ b ∈ xs, b ≠ 0 := fun b hb => ha b (List.mem_cons_of_mem _ hb)
    have ih' := ih hxs
    have hx' : (x != 0) = true := by simpa using hx
    simp only [c_string] at ih' ⊢
    rw [List.cons_append,
      @List.takeWhile_cons_of_pos _ (fun b => b != 0) x (xs ++ 0 :: rest) hx', ih']

theorem c_string_no_nul (buff : List Nat) : ∀ b ∈ c_string buff, b ≠ 0 := by
  intro b hb
  have h := List.mem_takeWhile_imp hb
  simpa using h

theorem dec_digits_no_nul : ∀ (fuel n : Nat) (acc : List Nat), (∀ b ∈ acc, b ≠ 0) →
    ∀ b ∈ dec_digits fuel n acc, b ≠ 0 := by
  intro fuel
  induction fuel with
  | zero =>
    intro n acc hacc b hb
    exact hacc b hb
  | succ fuel ih =>
    intro n acc hacc b hb
    have hacc' : ∀ b ∈ (48 + n % 10) :: acc, b ≠ 0 := by
      intro b hb
      rcases List.mem_cons.mp hb with h | h
      · omega
      · exact hacc b h
    unfold dec_digits at hb
    split at hb
    · exact hacc' b hb
    · exact ih _ _ hacc' b hb

theorem fmt_d_no_nul (v : Int) : ∀ b ∈ fmt_d v, b ≠ 0 := by
  intro b hb
  unfold fmt_d at hb
  split at hb
  · rcases List.mem_cons.mp hb with h | h
    · omega
    · exact dec_digits_no_nul _ _ [] (fun b hb => absurd hb (List.not_mem_nil b)) b h
  · exact dec_digits_no_nul _ _ [] (fun b hb => absurd hb (List.not_mem_nil b)) b hb

theorem fmt_02d_no_nul (v : Int) : ∀ b ∈ fmt_02d v, b ≠ 0 := by
  intro b hb
  unfold fmt_02d at hb
  split at hb
  · rcases List.mem_cons.mp hb with h | h
    · omega
    · exact fmt_d_no_nul v b h
  · exact fmt_d_no_nul v b hb

theorem Flow.next_bind {α : Type} (a : α) (f : α → Flow α) : (Flow.next a).bind f = f a := rfl

theorem Flow.bind_next {α : Type} (r : Flow α) : r.bind Flow.next = r := by
  cases r <;> rfl

theorem Flow.bind_assoc {α : Type} (r : Flow α) (f g : α → Flow α) :
    (r.bind f).bind g = r.bind fun a => (f a).bind g := by
  cases r <;> rfl

theorem put_all_append (cols : Nat) (fs gs : List (List Nat)) : ∀ s : status_buf,
    put_all cols (fs ++ gs) s = (put_all cols fs s).bind (put_all cols gs) := by
  induction fs with
  | nil => intro s; rfl
  | cons f fs ih =>
    intro s
    simp only [List.cons_append, put_all, Flow.bind_assoc]
    congr 1
    funext a
    exact ih a

theorem put_all_one (cols : Nat) (f : List Nat) (s : status_buf) :
    put_all cols [f] s = status_put cols s f := by
  simp [put_all, Flow.bind_next]

theorem put_all_nil (cols : Nat) : put_all cols [] = Flow.next := rfl

theorem status_usermodes_eq (hsep : List Nat) (cols : Nat) (st : status_state)
    (s : status_buf) :
    status_usermodes hsep cols st s = put_all cols (frag_usermodes hsep st) s := by
  unfold status_usermodes frag_usermodes
  cases st.server with
  | none => rfl
  | some srv =>
    simp only
    split
    · simp only [put_all, put_all_nil, Flow.bind_next, Flow.bind_assoc]
    · rfl

theorem status_priv_eq (hsep : List Nat) (cols : Nat) (st : status_state) (s : status_buf) :
    status_priv hsep cols st s = put_all cols (frag_priv hsep st) s := by
  unfold status_priv frag_priv
  split
  · simp only [put_all, put_all_nil, Flow.bind_next]
  · rfl

theorem status_chan_eq (hsep : List Nat) (cols : Nat) (st : status_state) (s : status_buf) :
    status_chan hsep cols st s = put_all cols (frag_chan hsep st) s := by
  unfold status_chan frag_chan
  split
  · simp only [put_all_append, put_all_one, Flow.bind_assoc]
    congr 1
    funext s1
    congr 1
    · split <;> simp [put_all, Flow.bind_next]
    · funext s2
      congr 1
      · split <;> simp [put_all, Flow.bind_next]
      · funext s3
        rw [put_all_one]
  · rfl

theorem status_latency_eq (hsep : List Nat) (cols : Nat) (st : status_state)
    (s : status_buf) :
    status_latency hsep cols st s = put_all cols (frag_latency hsep st) s := by
  unfold status_latency frag_latency
  cases st.server with
  | none => rfl
  | some srv =>
    simp only
    split
    · simp only [put_all, put_all_nil, Flow.bind_next]
    · rfl

theorem status_scrollback_eq (hsep : List Nat) (cols : Nat) (st : status_state)
    (s : status_buf) :
    status_scrollback hsep cols st s = put_all cols (frag_scrollback hsep st) s := by
  unfold status_scrollback frag_scrollback
  cases st.scrollback with
  | none => rfl
  | some pct => simp only [put_all, put_all_nil, Flow.bind_next]

theorem status_compose_eq (hsep : List Nat) (cols : Nat) (st : status_state) :
    status_compose hsep cols st
      = put_all cols (status_fragments hsep st)
          { buff := List.replicate (cols + 1) 0, col := 0 } := by
  unfold status_compose status_fragments
  simp only [put_all_append, Flow.next_bind]
  have h1 : status_usermodes hsep cols st = put_all cols (frag_usermodes hsep st) :=
    funext (status_usermodes_eq hsep cols st)
  have h2 : status_priv hsep cols st = put_all cols (frag_priv hsep st) :=
    funext (status_priv_eq hsep cols st)
  have h3 : status_chan hsep cols st = put_all cols (frag_chan hsep st) :=
    funext (status_chan_eq hsep cols st)
  have h4 : status_latency hsep cols st = put_all cols (frag_latency hsep st) :=
    funext (status_latency_eq hsep cols st)
  have h5 : status_scrollback hsep cols st = put_all cols (frag_scrollback hsep st) :=
    funext (status_scrollback_eq hsep cols st)
  rw [h1, h2, h3, h4, h5]

theorem snprintf_fits (cols : Nat) (str f : List Nat)
    (hlt : str.length + f.length < cols) :
    snprintf (str ++ List.replicate (cols + 1 - str.length) 0) str.length
        (cols - str.length + 1) f
      = .ok ((str ++ f) ++ List.replicate (cols + 1 - (str ++ f).length) 0, f.length) := by
  have hmin : min f.length (cols - str.length + 1 - 1) = f.length := by omega
  have htake : List.take (cols - str.length + 1 - 1) f = f :=
    List.take_of_length_le (by omega)
  have hne : ¬ (cols - str.length + 1 = 0) := by omega
  have hin : str.length + (f.length + 1)
      ≤ (str ++ List.replicate (cols + 1 - str.length) 0).length := by
    rw [List.length_append, List.length_replicate]
    omega
  have hrep : cols + 1 - str.length - (f.length + 1) + 1 = cols + 1 - (str ++ f).length := by
    rw [List.length_append]
    omega
  unfold snprintf
  rw [if_neg hne, hmin, if_pos hin, List.take_left' rfl, htake, List.drop_append,
    List.drop_replicate]
  congr 2
  rw [List.append_assoc, List.append_assoc, List.append_assoc, List.singleton_append,
    ← List.replicate_succ, hrep]

theorem snprintf_over (cols : Nat) (str f : List Nat)
    (hlt : str.length < cols) (hge : cols ≤ str.length + f.length) :
    snprintf (str ++ List.replicate (cols + 1 - str.length) 0) str.length
        (cols - str.length + 1) f
      = .ok (str ++ List.take (cols - str.length) f ++ [0], f.length) := by
  have hmin : min f.length (cols - str.length + 1 - 1) = cols - str.length := by omega
  have hne : ¬ (cols - str.length + 1 = 0) := by omega
  have hin : str.length + (cols - str.length + 1)
      ≤ (str ++ List.replicate (cols + 1 - str.length) 0).length := by
    rw [List.length_append, List.length_replicate]
    omega
  have hk : cols - str.length + 1 - 1 = cols - str.length := by omega
  have hz : cols + 1 - str.length - (cols - str.length + 1) = 0 := by omega
  unfold snprintf
  rw [if_neg hne, hmin, if_pos hin, List.take_left' rfl, hk, List.drop_append,
    List.drop_replicate, hz, List.replicate_zero, List.append_nil, List.append_assoc]

theorem status_put_fits (cols : Nat) (str f : List Nat) (hcu : cols + 1 < UINT_SIZE)
    (hlt : str.length + f.length < cols) :
    status_put cols { buff := str ++ List.replicate (cols + 1 - str.length) 0,
                      col := str.length } f
      = .next { buff := (str ++ f) ++ List.replicate (cols + 1 - (str ++ f).length) 0,
                col := (str ++ f).length } := by
  have hsize : u32_add (u32_sub cols str.length) 1 = cols - str.length + 1 := by
    unfold u32_add u32_sub UINT_SIZE at *
    omega
  have hng : ¬ (str.length + f.length ≥ cols) := by omega
  unfold status_put
  simp only
  rw [hsize, snprintf_fits cols str f hlt]
  simp only [hng, if_false, List.length_append]

theorem status_put_over (cols : Nat) (str f : List Nat) (hcu : cols + 1 < UINT_SIZE)
    (hstr : ∀ b ∈ str, b ≠ 0) (hf : ∀ b ∈ f, b ≠ 0)
    (hlt : str.length < cols) (hge : cols ≤ str.length + f.length) :
    ∃ b', status_put cols { buff := str ++ List.replicate (cols + 1 - str.length) 0,
                            col := str.length } f
        = .stop { buff := b', col := str.length + f.length } ∧
      c_string b' = (str ++ f).take cols := by
  have hsize : u32_add (u32_sub cols str.length) 1 = cols - str.length + 1 := by
    unfold u32_add u32_sub UINT_SIZE at *
    omega
  have hg : str.length + f.length ≥ cols := hge
  refine ⟨str ++ List.take (cols - str.length) f ++ [0], ?_, ?_⟩
  · unfold status_put
    simp only
    rw [hsize, snprintf_over cols str f hlt hge]
    simp only [hg, if_true]
  · have hsplit : (str ++ f).take cols = str ++ f.take (cols - str.length) := by
      rw [List.take_append_eq_append_take, List.take_of_length_le (by omega)]
    rw [hsplit]
    apply c_string_append_nul
    intro b hb
    rcases List.mem_append.mp hb with h | h
    · exact hstr b h
    · exact hf b (List.mem_of_mem_take h)

theorem put_all_spec (cols : Nat) (hcu : cols + 1 < UINT_SIZE) :
    ∀ (fs : List (List Nat)) (str : List Nat), (∀ b ∈ str, b ≠ 0) → str.length < cols →
      (∀ f ∈ fs, ∀ b ∈ f, b ≠ 0) →
      ((str ++ fs.flatten).length < cols ∧
        put_all cols fs { buff := str ++ List.replicate (cols + 1 - str.length) 0,
                          col := str.length }
          = .next { buff := (str ++ fs.flatten)
                      ++ List.replicate (cols + 1 - (str ++ fs.flatten).length) 0,
                    col := (str ++ fs.flatten).length }) ∨
      (cols ≤ (str ++ fs.flatten).length ∧
        ∃ b' c', put_all cols fs { buff := str ++ List.replicate (cols + 1 - str.length) 0,
                                   col := str.length }
            = .stop { buff := b', col := c' } ∧
          cols ≤ c' ∧ c_string b' = (str ++ fs.flatten).take cols) := by
  intro fs
  induction fs with
  | nil =>
    intro str _ hlt _
    left
    simp only [List.flatten_nil, List.append_nil]
    exact ⟨hlt, rfl⟩
  | cons f fs ih =>
    intro str hstr hlt hfs
    have hf : ∀ b ∈ f, b ≠ 0 := hfs f (List.mem_cons_self _ _)
    have hfs' : ∀ g ∈ fs, ∀ b ∈ g, b ≠ 0 := fun g hg => hfs g (List.mem_cons_of_mem _ hg)
    have hassoc : str ++ (f :: fs).flatten = (str ++ f) ++ fs.flatten := by
      rw [List.flatten_cons, List.append_assoc]
    rw [hassoc]
    by_cases hfit : str.length + f.length < cols
    · have hstr' : ∀ b ∈ str ++ f, b ≠ 0 := by
        intro b hb
        rcases List.mem_append.mp hb with h | h
        · exact hstr b h
        · exact hf b h
      have hput := status_put_fits cols str f hcu hfit
      have hrec := ih (str ++ f) hstr' (by rw [List.length_append]; exact hfit) hfs'
      simp only [put_all, hput, Flow.bind]
      exact hrec
    · obtain ⟨b', hput, hcs⟩ := status_put_over cols str f hcu hstr hf hlt (by omega)
      right
      refine ⟨?_, b', str.length + f.length, ?_, by omega, ?_⟩
      · simp only [List.length_append] at *
        omega
      · simp only [put_all, hput, Flow.bind]
      · rw [hcs]
        exact (List.take_append_of_le_length (by rw [List.length_append]; omega)).symm

theorem fragments_no_nul (hsep : List Nat) (st : status_state) (hsep0 : ∀ b ∈ hsep, b ≠ 0) :
    ∀ f ∈ status_fragments hsep st, ∀ b ∈ f, b ≠ 0 := by
  intro f hf b hb
  have hc := c_string_no_nul
  have hd := fmt_d_no_nul
  have h2 := fmt_02d_no_nul
  unfold status_fragments frag_usermodes frag_priv frag_chan frag_latency frag_scrollback
    at hf
  simp only [List.mem_append] at hf
  rcases hf with (((hf | hf) | hf) | hf) | hf
  · cases hsrv : st.server with
    | none => simp [hsrv] at hf
    | some srv =>
      simp only [hsrv] at hf
      split at hf
      · simp only [List.mem_cons, List.mem_singleton, List.not_mem_nil, or_false] at hf
        rcases hf with rfl | rfl | rfl
        · rcases List.mem_append.mp hb with h | h
          · exact hsep0 b h
          · simp at h; omega
        · exact hc _ b hb
        · simp at hb; omega
      · simp at hf
  · split at hf
    · simp only [List.mem_singleton] at hf
      subst hf
      rcases List.mem_append.mp hb with h | h
      · exact hsep0 b h
      · simp at h; omega
    · simp at hf
  · split at hf
    · simp only [List.mem_append, List.mem_singleton] at hf
      rcases hf with ((rfl | hf) | hf) | rfl
      · rcases List.mem_append.mp hb with h | h
        · rcases List.mem_append.mp h with h | h
          · exact hsep0 b h
          · simp at h; omega
        · exact hd _ b h
      · split at hf
        · rename_i htf
          simp only [List.mem_singleton] at hf
          subst hf
          simp at hb
          omega
        · simp at hf
      · split at hf
        · simp only [List.mem_singleton] at hf
          subst hf
          rcases List.mem_append.mp hb with h | h
          · simp at h; omega
          · exact hc _ b h
        · simp at hf
      · simp at hb; omega
    · simp at hf
  · cases hsrv : st.server with
    | none => simp [hsrv] at hf
    | some srv =>
      simp only [hsrv] at hf
      split at hf
      · simp only [List.mem_singleton] at hf
        subst hf
        simp only [List.mem_append] at hb
        rcases hb with ((h | h) | h) | h
        · exact hsep0 b h
        · simp at h; omega
        · exact hd _ b h
        · simp at h; omega
      · simp at hf
  · cases hsb : st.scrollback with
    | none => simp [hsb] at hf
    | some pct =>
      simp only [hsb, List.mem_singleton] at hf
      subst hf
      simp only [List.mem_append] at hb
      rcases hb with ((h | h) | h) | h
      · exact hsep0 b h
      · simp at h; omega
      · exact h2 _ b h
      · simp at h; omega

theorem draw_status_spec (hsep : List Nat) (cols rows : Nat) (st : status_state)
    (h3 : 3 ≤ cols) (hcu : cols + 1 < UINT_SIZE) (hsep0 : ∀ b ∈ hsep, b ≠ 0) :
    _draw_status hsep cols rows st
      = .ok (some { rule := c_string (List.replicate cols (hsep.headD 0)),
                    status_row := u32_sub rows 1,
                    status := (status_fragments hsep st).flatten.take cols
                      ++ (List.replicate (cols - (status_fragments hsep st).flatten.length)
                            hsep).flatten }) := by
  have hn3 : ¬ (cols < 3) := by omega
  have hspec := put_all_spec cols hcu (status_fragments hsep st) []
    (fun b hb => absurd hb (List.not_mem_nil b)) (by simp; omega)
    (fragments_no_nul hsep st hsep0)
  simp only [List.nil_append, List.length_nil, Nat.sub_zero] at hspec
  simp only [_draw_status, hn3, if_false, status_compose_eq]
  rcases hspec with ⟨hlt, hput⟩ | ⟨hge, b', c', hput, hc', hcs⟩
  · rw [hput]
    simp only
    obtain ⟨k, hk⟩ : ∃ k, cols + 1 - (status_fragments hsep st).flatten.length = k + 1 :=
      ⟨cols - (status_fragments hsep st).flatten.length, by omega⟩
    rw [hk, List.replicate_succ,
      c_string_append_nul _ _ (by
        intro b hb
        obtain ⟨f, hf, hbf⟩ := List.mem_flatten.mp hb
        exact fragments_no_nul hsep st hsep0 f hf b hbf),
      List.take_of_length_le (by omega)]
  · rw [hput]
    simp only
    have h0 : cols - c' = 0 := by omega
    have h1 : cols - (status_fragments hsep st).flatten.length = 0 := by omega
    rw [hcs, h0, h1]

/-! ## Claims about `_draw_status` -/

/-- C15. `_draw_status` output width: for every `cols ≥ 3` (below `UINT_MAX`, so that the
size `cols + 1` of `status_buff` is representable), a one-byte non-NUL separator glyph and
every channel and server state, the text printed on the status row (the composed status
followed by the trailing separators) is exactly `cols` characters long. -/
theorem draw_status_width (hsep : List Nat) (cols rows : Nat) (st : status_state)
    (h3 : 3 ≤ cols) (hcu : cols + 1 < UINT_SIZE) (hlen : hsep.length = 1)
    (hsep0 : ∀ b ∈ hsep, b ≠ 0) :
    ∃ v, _draw_status hsep cols rows st = .ok (some v) ∧ v.status.length = cols := by
  refine ⟨_, draw_status_spec hsep cols rows st h3 hcu hsep0, ?_⟩
  obtain ⟨g, rfl⟩ := List.length_eq_one.mp hlen
  simp only [List.length_append, List.length_take, List.flatten_replicate_singleton,
    List.length_replicate]
  omega

/-- A channel state whose fragments take 28 columns, on 40 columns and on 10 columns. -/
theorem draw_status_width_witness :
    (∃ v, _draw_status [45] 40 24 example_status = .ok (some v) ∧ v.status.length = 40) ∧
    (∃ v, _draw_status [45] 10 24 example_status = .ok (some v) ∧ v.status.length = 10) :=
  ⟨draw_status_width [45] 40 24 example_status (by decide) (by decide) (by decide)
     (by decide),
   draw_status_width [45] 10 24 example_status (by decide) (by decide) (by decide)
     (by decide)⟩

/-- C16, as stated, fails: for a private buffer without a server on 3 columns the only
fragment is `-[priv]`, 7 characters that do not fit in the 3 columns; the status row
shows its first three characters `-[p`. -/
theorem draw_status_partial_counterexample :
    status_fragments [45] example_status_priv = [[45, 91, 112, 114, 105, 118, 93]] ∧
    _draw_status [45] 3 24 example_status_priv
      = .ok (some ⟨[45, 45, 45], 23, [45, 91, 112]⟩) := by
  decide

/-- C16, amended. For every `cols ≥ 3` (below `UINT_MAX`), every non-NUL separator and
every channel state, the text printed on the status row is the concatenation of the
fragments (in order: user modes, `[priv]` or channel count, type and modes, latency,
scrollback percentage) cut off after `cols` characters, followed only by separator
padding for the columns the fragments leave free: a fragment that does not fit in the
remaining columns is printed cut to them, and nothing of a later fragment is printed. -/
theorem draw_status_truncates (hsep : List Nat) (cols rows : Nat) (st : status_state)
    (h3 : 3 ≤ cols) (hcu : cols + 1 < UINT_SIZE) (hsep0 : ∀ b ∈ hsep, b ≠ 0) :
    ∃ v, _draw_status hsep cols rows st = .ok (some v) ∧
      v.status = (status_fragments hsep st).flatten.take cols
        ++ (List.replicate (cols - (status_fragments hsep st).flatten.length) hsep).flatten :=
  ⟨_, draw_status_spec hsep cols rows st h3 hcu hsep0, rfl⟩

/-- The channel state of the example on 10 columns: the status row is the first ten
characters `-[+iw]-[12` of the fragments. -/
theorem draw_status_truncates_witness :
    (∃ v, _draw_status [45] 10 24 example_status = .ok (some v) ∧
      v.status = (status_fragments [45] example_status).flatten.take 10
        ++ (List.replicate (10 - (status_fragments [45] example_status).flatten.length)
              [45]).flatten) ∧
    (status_fragments [45] example_status).flatten.take 10
      = [45, 91, 43, 105, 119, 93, 45, 91, 49, 50] :=
  ⟨draw_status_truncates [45] 10 24 example_status (by decide) (by decide) (by decide),
   by decide⟩

/-! ## Facts about `_draw_fmt` -/

theorem snprintf_ok (buff : List Nat) (pos size : Nat) (text : List Nat)
    (hin : pos + size ≤ buff.length) :
    ∃ b, snprintf buff pos size text = .ok (b, text.length) ∧ b.length = buff.length := by
  unfold snprintf
  by_cases hz : size = 0
  · rw [if_pos hz]
    exact ⟨buff, rfl, rfl⟩
  · rw [if_neg hz]
    have hle : pos + (min text.length (size - 1) + 1) ≤ buff.length := by omega
    rw [if_pos hle]
    refine ⟨_, rfl, ?_⟩
    simp only [List.length_append, List.length_take, List.length_drop, List.length_cons,
      List.length_nil]
    omega

theorem store_ok (buff : List Nat) (i v : Nat) (h : i < buff.length) :
    store buff i v = .ok (buff.set i v) := by
  simp [store, h]

theorem draw_fmt_styling (s : fmt_state) (text : List Nat)
    (hbuf : s.offset + s.buff_n < s.buff.length) :
    (text.length < s.buff_n → ∃ b, _draw_fmt s false (some text)
        = .ok (1, { buff := b, offset := s.offset + text.length,
                    buff_n := s.buff_n - text.length, text_n := s.text_n })) ∧
    (s.buff_n ≤ text.length → ∃ b, _draw_fmt s false (some text)
        = .ok (0, { buff := b, offset := s.offset, buff_n := s.buff_n,
                    text_n := s.text_n })) := by
  obtain ⟨b, hsn, hlen⟩ := snprintf_ok s.buff s.offset s.buff_n text (by omega)
  constructor
  · intro hlt
    have hc : ¬ (s.buff_n ≤ text.length) := by omega
    refine ⟨b, ?_⟩
    simp [_draw_fmt, hsn, Res.bind, hc]
  · intro hge
    refine ⟨b.set 0 0, ?_⟩
    simp [_draw_fmt, hsn, Res.bind, hge, store_ok b 0 0 (by omega)]

theorem draw_fmt_text (s : fmt_state) (text : List Nat)
    (hbuf : s.offset + s.buff_n < s.buff.length) (htn : s.text_n < s.buff.length) :
    (text.length < s.text_n → text.length < s.buff_n → ∃ b, _draw_fmt s true (some text)
        = .ok (1, { buff := b, offset := s.offset + text.length,
                    buff_n := s.buff_n - text.length,
                    text_n := s.text_n - text.length })) ∧
    (s.text_n ≤ text.length → ∃ b, _draw_fmt s true (some text)
        = .ok (0, { buff := b, offset := s.offset, buff_n := s.buff_n,
                    text_n := s.text_n })) ∧
    (text.length < s.text_n → s.buff_n ≤ text.length →
      _draw_fmt s true (some text) = .fatal) := by
  obtain ⟨b, hsn, hlen⟩ := snprintf_ok s.buff s.offset s.buff_n text (by omega)
  refine ⟨fun h1 h2 => ⟨b, ?_⟩, fun h1 => ⟨b.set s.text_n 0, ?_⟩, fun h1 h2 => ?_⟩
  · have h3 : ¬ (s.text_n ≤ text.length) := by omega
    have h4 : ¬ (s.buff_n ≤ text.length) := by omega
    simp [_draw_fmt, hsn, Res.bind, h3, h4]
  · simp [_draw_fmt, hsn, Res.bind, h1, store_ok b s.text_n 0 (by omega)]
  · have h3 : ¬ (s.text_n ≤ text.length) := by omega
    simp [_draw_fmt, hsn, Res.bind, h3, h2]

theorem draw_fmt_styling_fits (s : fmt_state) (text : List Nat)
    (hbuf : s.offset + s.buff_n < s.buff.length) (hlt : text.length < s.buff_n) :
    ∃ b, b.length = s.buff.length ∧ _draw_fmt s false (some text)
        = .ok (1, { buff := b, offset := s.offset + text.length,
                    buff_n := s.buff_n - text.length, text_n := s.text_n }) := by
  obtain ⟨b, hsn, hlen⟩ := snprintf_ok s.buff s.offset s.buff_n text (by omega)
  have hc : ¬ (s.buff_n ≤ text.length) := by omega
  refine ⟨b, hlen, ?_⟩
  simp [_draw_fmt, hsn, Res.bind, hc]

theorem draw_fmt_text_fits (s : fmt_state) (text : List Nat)
    (hbuf : s.offset + s.buff_n < s.buff.length) (h1 : text.length < s.text_n)
    (h2 : text.length < s.buff_n) :
    ∃ b, b.length = s.buff.length ∧ _draw_fmt s true (some text)
        = .ok (1, { buff := b, offset := s.offset + text.length,
                    buff_n := s.buff_n - text.length,
                    text_n := s.text_n - text.length }) := by
  obtain ⟨b, hsn, hlen⟩ := snprintf_ok s.buff s.offset s.buff_n text (by omega)
  have h3 : ¬ (s.text_n ≤ text.length) := by omega
  have h4 : ¬ (s.buff_n ≤ text.length) := by omega
  refine ⟨b, hlen, ?_⟩
  simp [_draw_fmt, hsn, Res.bind, h3, h4]

theorem fmt_chain_styling_fits : ∀ (ws : List (Bool × List Nat)) (s : fmt_state),
    s.offset + s.buff_n < s.buff.length →
    s.text_n + 22 * (ws.filter (fun w => !w.1)).length < s.buff_n →
    (∀ w, w ∈ ws → w.1 = false → w.2.length ≤ 22) →
    ∃ s1 r, fmt_chain s ws = .ok (s1, r) ∧ r ≠ some false := by
  intro ws
  induction ws with
  | nil =>
    intro s _ _ _
    exact ⟨s, none, rfl, fun h => Option.noConfusion h⟩
  | cons w rest ih =>
    intro s hbuf hroom hlen
    obtain ⟨txt, text⟩ := w
    have hrest : ∀ w, w ∈ rest → w.1 = false → w.2.length ≤ 22 :=
      fun w hw => hlen w (List.mem_cons_of_mem _ hw)
    cases txt with
    | false =>
      have hl : text.length ≤ 22 := hlen (false, text) (List.mem_cons_self _ _) rfl
      simp only [List.filter_cons, Bool.not_false, if_true, List.length_cons] at hroom
      obtain ⟨b, hbl, hb⟩ := draw_fmt_styling_fits s text hbuf (by omega)
      obtain ⟨s1, r, h1, h2⟩ := ih
        { buff := b, offset := s.offset + text.length, buff_n := s.buff_n - text.length,
          text_n := s.text_n }
        (by simp only [hbl]; omega) (by simp only; omega) hrest
      refine ⟨s1, r, ?_, h2⟩
      simp only [fmt_chain, hb]
      exact h1
    | true =>
      simp only [List.filter_cons, Bool.not_true, Bool.false_eq_true, if_false] at hroom
      by_cases hfit : text.length < s.text_n
      · obtain ⟨b, hbl, hb⟩ := draw_fmt_text_fits s text hbuf hfit (by omega)
        obtain ⟨s1, r, h1, h2⟩ := ih
          { buff := b, offset := s.offset + text.length, buff_n := s.buff_n - text.length,
            text_n := s.text_n - text.length }
          (by simp only [hbl]; omega) (by simp only; omega) hrest
        refine ⟨s1, r, ?_, h2⟩
        simp only [fmt_chain, hb]
        exact h1
      · obtain ⟨b, hb⟩ := (draw_fmt_text s text hbuf (by omega)).2.1 (by omega)
        refine ⟨⟨b, s.offset, s.buff_n, s.text_n⟩, some true, ?_, by decide⟩
        simp only [fmt_chain, hb, if_true]

/-- In the header composition of `_draw_buffer_line` no styling write overflows: for every
header width of at least 1 and escape sequences no longer than `FG(255) BG(255)` (22
bytes), the chain of writes returns, and a write that returns 0 is a text write. -/
theorem header_styling_fits (head_w : Nat) (fg time padding reset author : List Nat)
    (colour : Option (List Nat)) (hw : 1 ≤ head_w) (hfg : fg.length ≤ 22)
    (hreset : reset.length ≤ 22) (hcol : ∀ c, colour = some c → c.length ≤ 22) :
    ∃ s1 r, fmt_chain (header_start head_w)
        (header_writes fg time padding reset colour author) = .ok (s1, r) ∧
      r ≠ some false := by
  apply fmt_chain_styling_fits
  · simp [header_start]
  · cases colour <;> simp [header_start, header_writes] <;> omega
  · intro w hw1 hw2
    cases colour with
    | none =>
      simp only [header_writes, List.append_nil, List.cons_append, List.nil_append,
        List.mem_cons, List.mem_singleton, List.not_mem_nil, or_false] at hw1
      rcases hw1 with h | h | h | h | h <;> rw [h] at hw2 ⊢ <;>
        first | exact hfg | exact hreset | exact Bool.noConfusion hw2
    | some c =>
      simp only [header_writes, List.cons_append, List.nil_append,
        List.mem_cons, List.mem_singleton, List.not_mem_nil, or_false] at hw1
      rcases hw1 with h | h | h | h | h | h <;> rw [h] at hw2 ⊢ <;>
        first | exact hfg | exact hreset | exact hcol c rfl | exact Bool.noConfusion hw2

/-! ## Claims about `_draw_fmt` -/

/-- C17. `_draw_fmt` budget accounting, for a write whose formatted length is `L` into a
buffer that holds the `buff_n` bytes from `offset` on and the byte at `text_n`. A styling
write returns 1 iff `L < buff_n`, and then `offset` grows by `L`, `buff_n` shrinks by `L`
and `text_n` is unchanged. A text write returns 1 iff `L < text_n` and `L < buff_n`, and
then `offset` grows by `L` and both `buff_n` and `text_n` shrink by `L`; with
`L < text_n` and `L ≥ buff_n` it is fatal. Every write that returns 1 leaves
`offset + buff_n` unchanged, and every write that returns 0 (an output error included)
leaves all three counters unchanged. -/
theorem draw_fmt_accounting (s : fmt_state) (text : List Nat)
    (hbuf : s.offset + s.buff_n < s.buff.length) (htn : s.text_n < s.buff.length) :
    (text.length < s.buff_n → ∃ b, _draw_fmt s false (some text)
        = .ok (1, { buff := b, offset := s.offset + text.length,
                    buff_n := s.buff_n - text.length, text_n := s.text_n })) ∧
    (s.buff_n ≤ text.length → ∃ b, _draw_fmt s false (some text)
        = .ok (0, { buff := b, offset := s.offset, buff_n := s.buff_n,
                    text_n := s.text_n })) ∧
    (text.length < s.text_n → text.length < s.buff_n → ∃ b, _draw_fmt s true (some text)
        = .ok (1, { buff := b, offset := s.offset + text.length,
                    buff_n := s.buff_n - text.length,
                    text_n := s.text_n - text.length })) ∧
    (s.text_n ≤ text.length → ∃ b, _draw_fmt s true (some text)
        = .ok (0, { buff := b, offset := s.offset, buff_n := s.buff_n,
                    text_n := s.text_n })) ∧
    (text.length < s.text_n → s.buff_n ≤ text.length →
      _draw_fmt s true (some text) = .fatal) ∧
    (∀ txt, ∃ b, _draw_fmt s txt none
        = .ok (0, { buff := b, offset := s.offset, buff_n := s.buff_n,
                    text_n := s.text_n })) ∧
    (∀ txt s', _draw_fmt s txt (some text) = .ok (1, s') →
      s'.offset + s'.buff_n = s.offset + s.buff_n) := by
  obtain ⟨hs1, hs2⟩ := draw_fmt_styling s text hbuf
  obtain ⟨ht1, ht2, ht3⟩ := draw_fmt_text s text hbuf htn
  refine ⟨hs1, hs2, ht1, ht2, ht3, ?_, ?_⟩
  · intro txt
    refine ⟨s.buff.set 0 0, ?_⟩
    simp only [_draw_fmt, Res.bind, store_ok s.buff 0 0 (by omega)]
  · intro txt s' hres
    cases txt with
    | false =>
      by_cases hlt : text.length < s.buff_n
      · obtain ⟨b, hb⟩ := hs1 hlt
        rw [hb] at hres
        injection hres with hres
        injection hres with _ hres
        subst hres
        simp only
        omega
      · obtain ⟨b, hb⟩ := hs2 (by omega)
        rw [hb] at hres
        injection hres with hres
        injection hres with h01 _
        exact absurd h01 (by decide)
    | true =>
      by_cases h1 : text.length < s.text_n
      · by_cases h2 : text.length < s.buff_n
        · obtain ⟨b, hb⟩ := ht1 h1 h2
          rw [hb] at hres
          injection hres with hres
          injection hres with _ hres
          subst hres
          simp only
          omega
        · rw [ht3 h1 (by omega)] at hres
          exact Res.noConfusion hres
      · obtain ⟨b, hb⟩ := ht2 (by omega)
        rw [hb] at hres
        injection hres with hres
        injection hres with h01 _
        exact absurd h01 (by decide)

/-- The header buffer of `_draw_buffer_line` for a header width of 9: the styling write
`FG(239) BG_R` (16 bytes) and the text write `" 12:34 "` (7 columns of the 8) both return
1 and move the counters as stated. -/
theorem draw_fmt_accounting_witness :
    (∃ b, _draw_fmt (header_start 9) false (some example_fg)
        = .ok (1, { buff := b, offset := 0 + 16, buff_n := 101 - 16, text_n := 8 })) ∧
    (∃ b, _draw_fmt (header_start 9) true (some example_time)
        = .ok (1, { buff := b, offset := 0 + 7, buff_n := 101 - 7, text_n := 8 - 7 })) :=
  ⟨(draw_fmt_accounting (header_start 9) example_fg (by decide) (by decide)).1 (by decide),
   (draw_fmt_accounting (header_start 9) example_time (by decide) (by decide)).2.2.1
     (by decide) (by decide)⟩

/-- C19: the code at a failing input, the header of `_draw_buffer_line` for a header
width of 9 (8 text columns). After the styling write `FG(239) BG_R` and the text write
`" 12:34 "` the buffer holds 23 bytes and one text column remains; the text write of a
pad of five blanks then returns 0, and the buffer, read as a string, is the single byte
`ESC` instead of the 23 bytes composed before followed by one blank, because the
terminator is stored at `buff[text_n]`, counted from the start of the buffer. -/
theorem draw_fmt_text_overflow_cuts_composed :
    ∃ s1 s2 b, _draw_fmt (header_start 9) false (some example_fg) = .ok (1, s1) ∧
      _draw_fmt s1 true (some example_time) = .ok (1, s2) ∧
      s2.offset = 23 ∧ s2.text_n = 1 ∧ 5 < s2.buff_n ∧
      c_string s2.buff = example_fg ++ example_time ∧
      _draw_fmt s2 true (some [32, 32, 32, 32, 32])
        = .ok (0, { buff := b, offset := 23, buff_n := 78, text_n := 1 }) ∧
      c_string b = [27] ∧
      c_string b ≠ example_fg ++ example_time ++ [32] :=
  ⟨{ buff := example_fg ++ List.replicate 86 0, offset := 16, buff_n := 85, text_n := 8 },
   { buff := example_fg ++ example_time ++ List.replicate 79 0, offset := 23, buff_n := 78,
     text_n := 1 },
   (example_fg ++ example_time ++ [32, 32, 32, 32, 32] ++ List.replicate 74 0).set 1 0,
   by decide, by decide, by decide, by decide, by decide, by decide, by decide, by decide,
   by decide⟩

/-! ## Claims about `draw` -/

/-- C20. Dirty-bit scheduler step, for every state of `_draw` in which the spare bits of
`all_bits` are set only together with the four flags (true initially and kept by every
operation) and every terminal size. `draw()` emits nothing and changes nothing when no
flag is set; emits only the placeholder when a flag is set and the terminal has fewer
than 5 columns or fewer than 5 rows; otherwise calls exactly the region routines whose
flag is set, and no placeholder; whenever a flag was set all flags are clear afterwards;
and a second `draw()` emits nothing. `draw_all()` sets all four flags and each
`draw_<region>()` sets its own flag and leaves the others as they were. -/
theorem draw_scheduler (d : draw_bits) (cols rows : Nat) (hwf : draw_bits_ok d) :
    ((d.buffer = false ∧ d.input = false ∧ d.nav = false ∧ d.status = false) →
      draw d cols rows = (d, [])) ∧
    ((d.buffer = true ∨ d.input = true ∨ d.nav = true ∨ d.status = true) →
      (cols < 5 ∨ rows < 5) →
      draw d cols rows
        = ({ buffer := false, input := false, nav := false, status := false,
             spare := false }, [.placeholder, .flush])) ∧
    ((d.buffer = true ∨ d.input = true ∨ d.nav = true ∨ d.status = true) →
      5 ≤ cols → 5 ≤ rows →
      (draw d cols rows).1
        = { buffer := false, input := false, nav := false, status := false,
            spare := false } ∧
      (∀ cs, draw_op.region_buffer cs ∈ (draw d cols rows).2 ↔
        (d.buffer = true ∧ cs = buffer_coords cols rows)) ∧
      (draw_op.region_nav ∈ (draw d cols rows).2 ↔ d.nav = true) ∧
      (draw_op.region_input ∈ (draw d cols rows).2 ↔ d.input = true) ∧
      (draw_op.region_status ∈ (draw d cols rows).2 ↔ d.status = true) ∧
      draw_op.placeholder ∉ (draw d cols rows).2) ∧
    (∀ cols2 rows2, (draw (draw d cols rows).1 cols2 rows2).2 = []) ∧
    ((draw_all d).buffer = true ∧ (draw_all d).input = true ∧ (draw_all d).nav = true ∧
      (draw_all d).status = true) ∧
    (draw_buffer d = { d with buffer := true } ∧ draw_input d = { d with input := true } ∧
      draw_nav d = { d with nav := true } ∧ draw_status d = { d with status := true }) ∧
    (draw_bits_ok ⟨false, false, false, false, false⟩ ∧ draw_bits_ok (draw d cols rows).1 ∧
      draw_bits_ok (draw_all d) ∧ draw_bits_ok (draw_buffer d) ∧
      draw_bits_ok (draw_input d) ∧ draw_bits_ok (draw_nav d) ∧
      draw_bits_ok (draw_status d)) := by
  refine ⟨?_, ?_, ?_, ?_, ⟨rfl, rfl, rfl, rfl⟩, ⟨rfl, rfl, rfl, rfl⟩, ?_⟩ <;>
    rcases d with ⟨b, i, n, s, sp⟩ <;> unfold draw_bits_ok at hwf
  · rintro ⟨rfl, rfl, rfl, rfl⟩
    cases sp with
    | false => simp [draw, all_bits]
    | true => simp at hwf
  · intro hany hsmall
    have hall : all_bits ⟨b, i, n, s, sp⟩ = true := by
      simp only [all_bits, Bool.or_eq_true]
      rcases hany with h | h | h | h <;> simp_all
    have hs : cols < COLS_MIN ∨ rows < ROWS_MIN := hsmall
    simp [draw, hall, hs]
  · intro hany hc hr
    have hall : all_bits ⟨b, i, n, s, sp⟩ = true := by
      simp only [all_bits, Bool.or_eq_true]
      rcases hany with h | h | h | h <;> simp_all
    have hs : ¬ (cols < COLS_MIN ∨ rows < ROWS_MIN) := by
      unfold COLS_MIN ROWS_MIN
      omega
    have hd : draw ⟨b, i, n, s, sp⟩ cols rows
        = (⟨false, false, false, false, false⟩,
           [.cursor_save]
             ++ (if b then [.region_buffer (buffer_coords cols rows)] else [])
             ++ (if n then [.region_nav] else [])
             ++ (if i then [.region_input] else [])
             ++ (if s then [.region_status] else [])
             ++ [.clear_attributes, .cursor_restore, .flush]) := by
      simp only [draw, hall, hs, if_false, Bool.true_eq_false]
    rw [hd]
    refine ⟨rfl, ?_, ?_, ?_, ?_, ?_⟩
    · intro cs
      cases b <;> cases i <;> cases n <;> cases s <;> simp [eq_comm]
    · cases b <;> cases i <;> cases n <;> cases s <;> simp
    · cases b <;> cases i <;> cases n <;> cases s <;> simp
    · cases b <;> cases i <;> cases n <;> cases s <;> simp
    · cases b <;> cases i <;> cases n <;> cases s <;> simp
  · intro cols2 rows2
    by_cases hall : all_bits ⟨b, i, n, s, sp⟩ = false
    · have h1 : (draw ⟨b, i, n, s, sp⟩ cols rows).1 = ⟨b, i, n, s, sp⟩ := by
        simp only [draw, hall, if_true]
      rw [h1]
      simp only [draw, hall, if_true]
    · have hall' : all_bits ⟨b, i, n, s, sp⟩ = true := by
        cases h : all_bits ⟨b, i, n, s, sp⟩
        · exact absurd h hall
        · rfl
      have h1 : (draw ⟨b, i, n, s, sp⟩ cols rows).1
          = ⟨false, false, false, false, false⟩ := by
        simp only [draw, hall', Bool.true_eq_false, if_false]
        split <;> rfl
      rw [h1]
      rfl
  · refine ⟨?_, ?_, ?_, ?_, ?_, ?_, ?_⟩
    · intro h
      exact Bool.noConfusion h
    · unfold draw_bits_ok draw
      split
      · exact hwf
      · split <;> exact fun h => Bool.noConfusion h
    · exact fun _ => ⟨rfl, rfl, rfl, rfl⟩
    · intro h
      obtain ⟨_, h2, h3, h4⟩ := hwf h
      exact ⟨rfl, h2, h3, h4⟩
    · intro h
      obtain ⟨h1, _, h3, h4⟩ := hwf h
      exact ⟨h1, rfl, h3, h4⟩
    · intro h
      obtain ⟨h1, h2, _, h4⟩ := hwf h
      exact ⟨h1, h2, rfl, h4⟩
    · intro h
      obtain ⟨h1, h2, h3, _⟩ := hwf h
      exact ⟨h1, h2, h3, rfl⟩

/-- All four flags set by `draw_all()` on an 80 by 24 terminal: the four regions are
drawn, buffer first, and a second `draw()` emits nothing. -/
theorem draw_scheduler_witness :
    draw (draw_all ⟨false, false, false, false, false⟩) 80 24
      = (⟨false, false, false, false, false⟩,
         [.cursor_save, .region_buffer ⟨1, 80, 3, 22⟩, .region_nav, .region_input,
          .region_status, .clear_attributes, .cursor_restore, .flush]) ∧
    (∀ cols2 rows2,
      (draw (draw (draw_all ⟨false, false, false, false, false⟩) 80 24).1 cols2 rows2).2
        = []) :=
  ⟨by decide,
   (draw_scheduler (draw_all ⟨false, false, false, false, false⟩) 80 24
     (fun _ => ⟨rfl, rfl, rfl, rfl⟩)).2.2.2.1⟩


/-! ## Facts about `_draw_buffer_line` -/

theorem int_of_uint_small (n : Nat) (h : n < 2 ^ 31) : int_of_uint n = (n : Int) := by
  unfold int_of_uint UINT_SIZE
  have e : n % 2 ^ 32 = n := Nat.mod_eq_of_lt (by omega)
  rw [e, if_pos h]

theorem wrap_segments_fuel (n : Nat) (mem : List Nat) (end_ : Nat) (hn : 1 ≤ n)
    (hnul : ∃ b, mem[end_]? = some b ∧ b ≠ 32) :
    ∀ f1 f2 p, p ≤ end_ → end_ - p ≤ f1 → end_ - p ≤ f2 →
      wrap_segments (n : Int) mem end_ f1 p = wrap_segments (n : Int) mem end_ f2 p := by
  intro f1
  induction f1 with
  | zero =>
    intro f2 p hp h1 _
    have hlt : ¬ p < end_ := by omega
    cases f2 with
    | zero => rfl
    | succ f2 => simp only [wrap_segments, if_neg hlt]
  | succ f1 ih =>
    intro f2 p hp h1 h2
    by_cases hlt : p < end_
    · obtain ⟨ret, p', hw, hpp, hpe, hr1, hr2⟩ :=
        word_wrap_progress n mem p end_ hn hlt hnul
      cases f2 with
      | zero => omega
      | succ f2 =>
        simp only [wrap_segments, if_pos hlt, hw]
        rw [ih f2 p' hpe (by omega) (by omega)]
    · cases f2 with
      | zero => simp only [wrap_segments, if_neg hlt]
      | succ f2 => simp only [wrap_segments, if_neg hlt]

theorem wrap_segments_step (n : Nat) (mem : List Nat) (end_ : Nat) (hn : 1 ≤ n)
    (hnul : ∃ b, mem[end_]? = some b ∧ b ≠ 32) (p ret p' : Nat) (hlt : p < end_)
    (hw : word_wrap (n : Int) mem p end_ = .ok (ret, p')) (hpp : p < p') (hpe : p' ≤ end_) :
    wrap_segments (n : Int) mem end_ (end_ - p) p =
      (p, ret) :: wrap_segments (n : Int) mem end_ (end_ - p') p' := by
  obtain ⟨m, hm⟩ : ∃ m, end_ - p = m + 1 := ⟨end_ - p - 1, by omega⟩
  rw [hm]
  simp only [wrap_segments, if_pos hlt, hw]
  rw [wrap_segments_fuel n mem end_ hn hnul m (end_ - p') p' hpe (by omega) (le_refl _)]

theorem wrap_segments_end (n : Int) (mem : List Nat) (end_ fuel : Nat) :
    wrap_segments n mem end_ fuel end_ = [] := by
  cases fuel with
  | zero => rfl
  | succ f => simp only [wrap_segments, if_neg (Nat.lt_irrefl end_)]

theorem word_wrap_at_end (n : Nat) (mem : List Nat) (end_ : Nat) (hn : 1 ≤ n) :
    word_wrap (n : Int) mem end_ end_ = .ok (end_, end_) := by
  unfold word_wrap
  rw [if_neg (by omega), if_pos (by omega)]

theorem skip_wraps_segments (n : Nat) (mem : List Nat) (end_ : Nat) (hn : 1 ≤ n)
    (hnul : ∃ b, mem[end_]? = some b ∧ b ≠ 32) :
    ∀ skip p, p ≤ end_ → ∃ q, skip_wraps (n : Int) mem end_ skip p = .ok q ∧ q ≤ end_ ∧
      wrap_segments (n : Int) mem end_ (end_ - q) q =
        (wrap_segments (n : Int) mem end_ (end_ - p) p).drop skip := by
  intro skip
  induction skip with
  | zero =>
    intro p hp
    exact ⟨p, rfl, hp, rfl⟩
  | succ skip ih =>
    intro p hp
    by_cases hlt : p < end_
    · obtain ⟨ret, p', hw, hpp, hpe, hr1, hr2⟩ :=
        word_wrap_progress n mem p end_ hn hlt hnul
      obtain ⟨q, hq, hqe, hqs⟩ := ih p' hpe
      refine ⟨q, ?_, hqe, ?_⟩
      · simp only [skip_wraps, hw, Res.bind]
        exact hq
      · rw [wrap_segments_step n mem end_ hn hnul p ret p' hlt hw hpp hpe, List.drop_succ_cons]
        exact hqs
    · have hpe : p = end_ := by omega
      subst hpe
      obtain ⟨q, hq, hqe, hqs⟩ := ih p (le_refl _)
      refine ⟨q, ?_, hqe, ?_⟩
      · simp only [skip_wraps, word_wrap_at_end n mem p hn, Res.bind]
        exact hq
      · rw [hqs, wrap_segments_end, List.drop_nil, List.drop_nil]

theorem range_flatten_succ {α : Type} (f : Nat → List α) (k : Nat) :
    ((List.range (k + 1)).map f).flatten =
      f 0 ++ ((List.range k).map (fun i => f (i + 1))).flatten := by
  rw [List.range_succ_eq_map, List.map_cons, List.flatten_cons, List.map_map]
  rfl

theorem line_body_rows (mem : List Nat) (end_ : Nat) (cs : coords) (head_w text_w : Nat)
    (hw : 1 ≤ text_w) (hwi : text_w < 2 ^ 31) (hrN : cs.rN + 1 < UINT_SIZE)
    (hnul : mem[end_]? = some 0) (hbody : ∀ i, i < end_ → mem[i]? ≠ some 0) :
    ∀ fuel r1 p1, p1 ≤ end_ → end_ - p1 < fuel → r1 ≤ cs.rN →
      line_body mem end_ cs head_w text_w fuel r1 p1 =
        some (.ok
          (((List.range (max 1 (min
                (wrap_segments (text_w : Int) mem end_ (end_ - p1) p1).length
                (cs.rN - r1 + 1)))).map
              (fun i => row_out cs head_w text_w (r1 + i)
                (wrap_segments (text_w : Int) mem end_ (end_ - p1) p1)[i]?)).flatten,
           r1 + max 1 (min (wrap_segments (text_w : Int) mem end_ (end_ - p1) p1).length
                (cs.rN - r1 + 1)))) := by
  have hsp := getElem?_nul_ne_space mem end_ hnul
  have hlen : end_ < mem.length := by
    by_contra hcon
    rw [List.getElem?_eq_none (by omega)] at hnul
    exact Option.noConfusion hnul
  have hread : ∀ i, i < end_ → ∃ b, mem[i]? = some b ∧ b ≠ 0 := by
    intro i hi
    have hil : i < mem.length := by omega
    refine ⟨mem[i], List.getElem?_eq_getElem hil, ?_⟩
    intro h0
    exact hbody i hi (by rw [List.getElem?_eq_getElem hil, h0])
  intro fuel
  induction fuel with
  | zero =>
    intro r1 p1 _ h
    omega
  | succ fuel ih =>
    intro r1 p1 hp hf hr
    have hadd : u32_add r1 1 = r1 + 1 := u32_add_eq r1 1 (by omega)
    have hone : List.range 1 = [0] := rfl
    by_cases hlt : p1 < end_
    · obtain ⟨b, hb, hb0⟩ := hread p1 hlt
      obtain ⟨ret, p', hww, hpp, hpe, hr1, hr2⟩ :=
        word_wrap_progress text_w mem p1 end_ hw hlt hsp
      rw [wrap_segments_step text_w mem end_ hw hsp p1 ret p' hlt hww hpp hpe]
      by_cases hlt' : p' < end_
      · obtain ⟨b', hb', hb0'⟩ := hread p' hlt'
        obtain ⟨ret2, p2, hww2, hpp2, hpe2, hr3, hr4⟩ :=
          word_wrap_progress text_w mem p' end_ hw hlt' hsp
        have hpos : 1 ≤ (wrap_segments (text_w : Int) mem end_ (end_ - p') p').length := by
          rw [wrap_segments_step text_w mem end_ hw hsp p' ret2 p2 hlt' hww2 hpp2 hpe2]
          simp only [List.length_cons]
          omega
        by_cases hrow : r1 + 1 ≤ cs.rN
        · have hrec := ih (r1 + 1) p' hpe (by omega) hrow
          have hk : max 1 (min ((wrap_segments (text_w : Int) mem end_ (end_ - p') p').length + 1)
              (cs.rN - r1 + 1)) =
              max 1 (min (wrap_segments (text_w : Int) mem end_ (end_ - p') p').length
                (cs.rN - (r1 + 1) + 1)) + 1 := by omega
          have hfun : (fun i => row_out cs head_w text_w (r1 + (i + 1))
                (((p1, ret) :: wrap_segments (text_w : Int) mem end_ (end_ - p') p')[i + 1]?)) =
              (fun i => row_out cs head_w text_w (r1 + 1 + i)
                (wrap_segments (text_w : Int) mem end_ (end_ - p') p')[i]?) := by
            funext i
            rw [List.getElem?_cons_succ, show r1 + (i + 1) = r1 + 1 + i by omega]
          simp only [List.length_cons]
          rw [hk, range_flatten_succ, hfun]
          simp only [line_body, hb, hww, hb', int_of_uint_small text_w hwi, hadd, ne_eq, hb0,
            hb0', not_false_eq_true, true_and, hrow, if_true, hrec, emit, row_out,
            List.getElem?_cons_zero, Nat.add_zero]
          congr 3
          omega
        · have hk : max 1 (min ((wrap_segments (text_w : Int) mem end_ (end_ - p') p').length + 1)
              (cs.rN - r1 + 1)) = 1 := by omega
          simp only [List.length_cons]
          rw [hk]
          simp [line_body, hb, hww, hb', int_of_uint_small text_w hwi, hadd, hb0,
            hrow, row_out, hone]
      · have hpe' : p' = end_ := by omega
        subst hpe'
        rw [wrap_segments_end]
        have hk : max 1 (min ([(p1, ret)] : List (Nat × Nat)).length (cs.rN - r1 + 1)) = 1 := by
          simp only [List.length_singleton]
          omega
        rw [hk]
        simp [line_body, hb, hww, hnul, int_of_uint_small text_w hwi, hadd, hb0, row_out, hone]
    · have hpe' : p1 = end_ := by omega
      subst hpe'
      rw [wrap_segments_end]
      simp [line_body, hnul, hadd, row_out, hone]

theorem row_out_row (cs : coords) (head_w text_w r1 : Nat) (s : Option (Nat × Nat))
    (o : line_out) (ho : o ∈ row_out cs head_w text_w r1 s) : o.row = r1 := by
  have hsep : ∀ o, o ∈ sep_out cs text_w r1 → o.row = r1 := by
    intro o h
    unfold sep_out at h
    split at h
    · rw [List.mem_singleton] at h
      rw [h]
      rfl
    · exact absurd h (List.not_mem_nil _)
  cases s with
  | none => exact hsep o ho
  | some s =>
    simp only [row_out, List.mem_append, List.mem_singleton] at ho
    rcases ho with h | h
    · exact hsep o h
    · rw [h]
      rfl

/-- C21. The function `_draw_buffer_line` stays inside its rectangle: for a rectangle that
passes `check_coords` with `rN` below `UINT_MAX`, a body width from 1 up to `INT_MAX`, a
text with no NUL before its terminator at `text_len`, and every `skip`, the call returns;
with `segs` the `word_wrap` segments of the text left after dropping the first `skip`
ones and `k = max 1 (min segs.length (rN - r1 + 1))`, the row cursor ends at `r1 + k`,
the outputs are the header (when `skip = 0`) followed, for the rows `r1 + i` with `i < k`
in order, by the separator and the segment `segs[i]` of that row, and every output is
positioned on a row from `r1` to `rN`. -/
theorem draw_buffer_line_in_rect (line : buffer_line) (cs : coords)
    (head_w text_w skip pad : Nat)
    (hr : cs.r1 ≤ cs.rN) (hc : cs.c1 ≤ cs.cN) (hrN : cs.rN + 1 < UINT_SIZE)
    (hw : 1 ≤ text_w) (hwi : text_w < 2 ^ 31)
    (hnul : line.text[line.text_len]? = some 0)
    (hbody : ∀ i, i < line.text_len → line.text[i]? ≠ some 0) :
    ∃ ops,
      _draw_buffer_line line cs head_w text_w skip pad =
        some (.ok (ops, cs.r1 + max 1 (min
          ((wrap_segments (text_w : Int) line.text line.text_len line.text_len 0).drop
            skip).length (cs.rN - cs.r1 + 1)))) ∧
      ops = (if skip = 0 then [line_out.header cs.r1] else []) ++
        ((List.range (max 1 (min
          ((wrap_segments (text_w : Int) line.text line.text_len line.text_len 0).drop
            skip).length (cs.rN - cs.r1 + 1)))).map
          (fun i => row_out cs head_w text_w (cs.r1 + i)
            ((wrap_segments (text_w : Int) line.text line.text_len line.text_len 0).drop
              skip)[i]?)).flatten ∧
      ∀ o, o ∈ ops → cs.r1 ≤ line_out.row o ∧ line_out.row o ≤ cs.rN := by
  have hsp := getElem?_nul_ne_space line.text line.text_len hnul
  obtain ⟨q, hq, hqe, hqs⟩ :=
    skip_wraps_segments text_w line.text line.text_len hw hsp skip 0 (Nat.zero_le _)
  rw [Nat.sub_zero] at hqs
  have hbodyrows := line_body_rows line.text line.text_len cs head_w text_w hw hwi hrN hnul
    hbody (line.text_len + 1) cs.r1 q hqe (by omega) hr
  rw [hqs] at hbodyrows
  refine ⟨_, ?_, rfl, ?_⟩
  · unfold _draw_buffer_line
    rw [if_neg (by omega), int_of_uint_small text_w hwi, hq]
    simp only [hbodyrows, emit]
  · intro o ho
    rw [List.mem_append] at ho
    rcases ho with h | h
    · split at h
      · rw [List.mem_singleton] at h
        rw [h]
        exact ⟨le_refl _, hr⟩
      · exact absurd h (List.not_mem_nil _)
    · rw [List.mem_flatten] at h
      obtain ⟨l, hl, hol⟩ := h
      rw [List.mem_map] at hl
      obtain ⟨i, hi, hil⟩ := hl
      rw [List.mem_range] at hi
      rw [← hil] at hol
      rw [row_out_row cs head_w text_w (cs.r1 + i) _ o hol]
      omega

/-- The text `"wrap     testing"` at body width 3 with the first segment skipped, in a
rectangle of the two rows 3 and 4: the segments `ap` and `tes` are written, one per row. -/
theorem draw_buffer_line_in_rect_witness :
    ∃ ops,
      _draw_buffer_line example_line ⟨1, 80, 3, 4⟩ 10 3 1 0 =
        some (.ok (ops, 3 + max 1 (min
          ((wrap_segments ((3 : Nat) : Int) example_line.text example_line.text_len
            example_line.text_len 0).drop 1).length (4 - 3 + 1)))) ∧
      ops = (if 1 = 0 then [line_out.header 3] else []) ++
        ((List.range (max 1 (min
          ((wrap_segments ((3 : Nat) : Int) example_line.text example_line.text_len
            example_line.text_len 0).drop 1).length (4 - 3 + 1)))).map
          (fun i => row_out ⟨1, 80, 3, 4⟩ 10 3 (3 + i)
            ((wrap_segments ((3 : Nat) : Int) example_line.text example_line.text_len
              example_line.text_len 0).drop 1)[i]?)).flatten ∧
      ∀ o, o ∈ ops → 3 ≤ line_out.row o ∧ line_out.row o ≤ 4 :=
  draw_buffer_line_in_rect example_line ⟨1, 80, 3, 4⟩ 10 3 1 0
    (by decide) (by decide) (by decide) (by decide) (by decide) (by decide) (by decide)

/-! ## The frame of `_draw_nav` fits the terminal -/

theorem pad_nextward_fits (chans : List channel) (cols lo : Nat) :
    ∀ fuel tmp_next total_len tn : Nat, lo ≤ tmp_next →
      total_len = width_sum chans lo (tmp_next - lo + 1) → total_len < cols →
      pad_nextward chans cols fuel tmp_next (channel_get_next chans tmp_next) total_len
        = some tn →
      width_sum chans lo (tn - lo + 1) < cols := by
  intro fuel
  induction fuel with
  | zero =>
    intro tmp_next total_len tn _ _ _ h
    simp only [pad_nextward] at h
    cases h
  | succ fuel ih =>
    intro tmp_next total_len tn hlo hsum hlt h
    unfold pad_nextward at h
    split at h
    · rename_i hcond
      have hne : channel_get_next chans tmp_next ≠ 0 := hcond.2
      have hnext : channel_get_next chans tmp_next = tmp_next + 1 := by
        unfold channel_get_next at hne ⊢
        split
        · rfl
        · rename_i hl
          rw [if_neg hl] at hne
          exact absurd rfl hne
      rw [hnext] at h hcond
      refine ih (tmp_next + 1) _ tn (by omega) ?_ hcond.1 h
      rw [show tmp_next + 1 - lo + 1 = (tmp_next - lo + 1) + 1 by omega, width_sum_snoc,
        ← hsum, show lo + (tmp_next - lo + 1) = tmp_next + 1 by omega]
    · injection h with h
      subst h
      rw [← hsum]
      exact hlt

theorem pad_prevward_fits (chans : List channel) (cols hi : Nat) :
    ∀ fuel tmp_prev total_len tp : Nat, tmp_prev ≤ hi →
      total_len = width_sum chans tmp_prev (hi - tmp_prev + 1) → total_len < cols →
      pad_prevward chans cols fuel tmp_prev (channel_get_prev chans tmp_prev) total_len
        = some tp →
      tp ≤ hi ∧ width_sum chans tp (hi - tp + 1) < cols := by
  intro fuel
  induction fuel with
  | zero =>
    intro tmp_prev total_len tp _ _ _ h
    simp only [pad_prevward] at h
    cases h
  | succ fuel ih =>
    intro tmp_prev total_len tp hle hsum hlt h
    unfold pad_prevward at h
    split at h
    · rename_i hcond
      have hne : channel_get_prev chans tmp_prev ≠ chans.length - 1 := hcond.2
      have hp0 : tmp_prev ≠ 0 := by
        intro h0
        apply hne
        simp [channel_get_prev, h0]
      have hprev : channel_get_prev chans tmp_prev = tmp_prev - 1 := by
        simp [channel_get_prev, hp0]
      rw [hprev] at h hcond
      refine ih (tmp_prev - 1) _ tp (by omega) ?_ hcond.1 h
      have hcons : ∀ lo n, width_sum chans lo (n + 1) =
          (name_len chans lo + 2) + width_sum chans (lo + 1) n := fun _ _ => rfl
      rw [show hi - (tmp_prev - 1) + 1 = (hi - tmp_prev + 1) + 1 by omega, hcons,
        show tmp_prev - 1 + 1 = tmp_prev by omega, ← hsum]
      omega
    · injection h with h
      subst h
      rw [← hsum]
      exact ⟨hle, hlt⟩

theorem frame_loop_fits (chans : List channel) (cols : Nat) (frame_prev frame_next : Option Nat) :
    ∀ fuel tmp_prev tmp_next total_len : Nat, ∀ nextward : Bool, ∀ fp fn : Nat,
      tmp_prev ≤ tmp_next → tmp_next < chans.length →
      total_len = width_sum chans tmp_prev (tmp_next - tmp_prev + 1) → total_len < cols →
      frame_loop chans cols frame_prev frame_next fuel tmp_prev tmp_next total_len nextward
        = some (fp, fn) →
      width_sum chans fp (fn - fp + 1) < cols := by
  intro fuel
  induction fuel with
  | zero =>
    intro tmp_prev tmp_next total_len nextward fp fn _ _ _ _ h
    simp only [frame_loop] at h
    cases h
  | succ fuel ih =>
    intro tmp_prev tmp_next total_len nextward fp fn h1 h2 hsum hlt h
    have hcons : ∀ lo n, width_sum chans lo (n + 1) =
        (name_len chans lo + 2) + width_sum chans (lo + 1) n := fun _ _ => rfl
    unfold frame_loop at h
    split at h
    · rw [Option.map_eq_some'] at h
      obtain ⟨tn, htn, he⟩ := h
      injection he with he1 he2
      subst he1
      subst he2
      exact pad_nextward_fits chans cols tmp_prev _ tmp_next total_len tn h1 hsum hlt htn
    · rename_i hfirst
      split at h
      · rw [Option.map_eq_some'] at h
        obtain ⟨tp, htp, he⟩ := h
        injection he with he1 he2
        subst he1
        subst he2
        exact (pad_prevward_fits chans cols tmp_next _ tmp_prev total_len tp h1 hsum hlt
          htp).2
      · rename_i hlast
        have hp0 : tmp_prev ≠ 0 := fun h => hfirst (Or.inl h)
        have hnl : tmp_next ≠ chans.length - 1 := fun h => hlast (Or.inl h)
        have hnext : channel_get_next chans tmp_next = tmp_next + 1 := by
          have : tmp_next + 1 < chans.length := by omega
          simp [channel_get_next, this]
        have hprev : channel_get_prev chans tmp_prev = tmp_prev - 1 := by
          simp [channel_get_prev, hp0]
        cases nextward with
        | true =>
          simp only [if_true, hnext] at h
          by_cases hfull : total_len + (name_len chans (tmp_next + 1) + 2) ≥ cols
          · rw [if_pos hfull] at h
            injection h with h
            injection h with he1 he2
            subst he1
            subst he2
            rw [← hsum]
            exact hlt
          · rw [if_neg hfull] at h
            refine ih tmp_prev (tmp_next + 1) _ false fp fn (by omega) (by omega) ?_
              (by omega) h
            rw [show tmp_next + 1 - tmp_prev + 1 = (tmp_next - tmp_prev + 1) + 1 by omega,
              width_sum_snoc, ← hsum,
              show tmp_prev + (tmp_next - tmp_prev + 1) = tmp_next + 1 by omega]
        | false =>
          simp only [Bool.false_eq_true, if_false, hprev] at h
          by_cases hfull : total_len + (name_len chans (tmp_prev - 1) + 2) ≥ cols
          · rw [if_pos hfull] at h
            injection h with h
            injection h with he1 he2
            subst he1
            subst he2
            rw [← hsum]
            exact hlt
          · rw [if_neg hfull] at h
            refine ih (tmp_prev - 1) tmp_next _ true fp fn (by omega) h2 ?_ (by omega) h
            rw [show tmp_next - (tmp_prev - 1) + 1 = (tmp_next - tmp_prev + 1) + 1 by omega,
              hcons, show tmp_prev - 1 + 1 = tmp_prev by omega, ← hsum]
            omega

/-- C22. The function `_draw_nav` never overfills the row: for every channel list, every
active channel `c` of the list with `strlen(c.name) + 2 < cols` and every persisted frame,
the framing and drawing loops terminate, the labels from the new `frame_prev` to the new
`frame_next` inclusive are the ones drawn, and their padded widths `strlen(name) + 2` sum
to strictly less than `cols`. -/
theorem draw_nav_fits (chans : List channel) (cols : Nat) (st : nav_frame) (c : Nat)
    (hc : c < chans.length) (hfit : name_len chans c + 2 < cols) :
    ∃ fp fn, _draw_nav chans cols st c
        = some (⟨some fp, some fn⟩, List.range' fp (fn - fp + 1)) ∧
      fp ≤ fn ∧ width_sum chans fp (fn - fp + 1) < cols := by
  obtain ⟨fp, fn, hd, hfc, hcf, hfn, hloop⟩ := draw_nav_spec chans cols st c hc hfit
  refine ⟨fp, fn, hd, le_trans hfc hcf, ?_⟩
  refine frame_loop_fits chans cols _ _ (chans.length + 1) c c (name_len chans c + 2) true
    fp fn (le_refl _) hc ?_ hfit hloop
  rw [Nat.sub_self]
  simp [width_sum]

/-- Five one-letter channels on 8 columns with a persisted frame `(b, d)`: the new frame
around `c` holds two labels, 6 columns. -/
theorem draw_nav_fits_witness :
    ∃ fp fn, _draw_nav example_channels 8 ⟨some 1, some 3⟩ 2
        = some (⟨some fp, some fn⟩, List.range' fp (fn - fp + 1)) ∧
      fp ≤ fn ∧ width_sum example_channels fp (fn - fp + 1) < 8 :=
  draw_nav_fits example_channels 8 ⟨some 1, some 3⟩ 2 (by decide) (by decide)


/-! ## Facts about the case-insensitive comparison -/

theorem cmp_bytes_self : ∀ a : List Nat, cmp_bytes a a = 0
  | [] => rfl
  | x :: a => by
    simp only [cmp_bytes, Nat.lt_irrefl, if_false]
    exact cmp_bytes_self a

theorem cmp_bytes_swap : ∀ a b : List Nat, cmp_bytes b a = - cmp_bytes a b
  | [], [] => rfl
  | [], _ :: _ => rfl
  | _ :: _, [] => rfl
  | x :: a, y :: b => by
    have ih := cmp_bytes_swap a b
    simp only [cmp_bytes]
    split_ifs <;> omega

theorem cmp_bytes_eq : ∀ a b : List Nat, cmp_bytes a b = 0 → a = b
  | [], [], _ => rfl
  | [], _ :: _, h => by simp [cmp_bytes] at h
  | _ :: _, [], h => by simp [cmp_bytes] at h
  | x :: a, y :: b, h => by
    simp only [cmp_bytes] at h
    by_cases h1 : x < y
    · rw [if_pos h1] at h
      omega
    · rw [if_neg h1] at h
      by_cases h2 : y < x
      · rw [if_pos h2] at h
        omega
      · rw [if_neg h2] at h
        have hxy : x = y := by omega
        rw [hxy, cmp_bytes_eq a b h]

theorem cmp_bytes_trans : ∀ a b c : List Nat,
    cmp_bytes a b < 0 → cmp_bytes b c < 0 → cmp_bytes a c < 0
  | [], [], _, h, _ => by simp [cmp_bytes] at h
  | [], _ :: _, [], _, h => by simp [cmp_bytes] at h
  | [], _ :: _, _ :: _, _, _ => by simp [cmp_bytes]
  | _ :: _, [], _, h, _ => by simp [cmp_bytes] at h
  | _ :: _, _ :: _, [], _, h => by simp [cmp_bytes] at h
  | x :: a, y :: b, z :: c, h1, h2 => by
    have ih := cmp_bytes_trans a b c
    simp only [cmp_bytes] at h1 h2 ⊢
    split_ifs at h1 h2 ⊢ <;> omega

theorem cmp_bytes_take : ∀ (n : Nat) (a b : List Nat),
    cmp_bytes a b < 0 → cmp_bytes (a.take n) (b.take n) ≤ 0
  | 0, _, _, _ => by simp [cmp_bytes]
  | _ + 1, [], [], _ => by simp [cmp_bytes]
  | _ + 1, [], _ :: _, _ => by simp [cmp_bytes]
  | _ + 1, _ :: _, [], h => by simp [cmp_bytes] at h
  | n + 1, x :: a, y :: b, h => by
    have ih := cmp_bytes_take n a b
    simp only [cmp_bytes, List.take_succ_cons] at h ⊢
    split_ifs at h ⊢ <;> omega

theorem strcasecmp_swap (a b : List Nat) : strcasecmp b a = - strcasecmp a b :=
  cmp_bytes_swap (lower a) (lower b)

theorem strcasecmp_trans (a b c : List Nat) (h1 : strcasecmp a b < 0)
    (h2 : strcasecmp b c < 0) : strcasecmp a c < 0 :=
  cmp_bytes_trans (lower a) (lower b) (lower c) h1 h2

theorem strcasecmp_congr (a b c : List Nat) (h : strcasecmp a b = 0) :
    strcasecmp a c = strcasecmp b c := by
  unfold strcasecmp at h ⊢
  rw [cmp_bytes_eq _ _ h]

/-! ## Facts about the AVL tree -/

theorem heights_ok_node (h : Int) (l r : avl_node) (k : List Nat) (v : Nat) :
    heights_ok (.node h l r k v) = true ↔
      h = ((max (height l) (height r) + 1 : Nat) : Int) ∧
        heights_ok l = true ∧ heights_ok r = true := by
  simp only [heights_ok, Bool.and_eq_true, decide_eq_true_eq, and_assoc]

theorem balanced_node (h : Int) (l r : avl_node) (k : List Nat) (v : Nat) :
    balanced (.node h l r k v) = true ↔
      (height l ≤ height r + 1 ∧ height r ≤ height l + 1) ∧
        balanced l = true ∧ balanced r = true := by
  simp only [balanced, Bool.and_eq_true, decide_eq_true_eq, and_assoc]

theorem H_eq (t : avl_node) (h : heights_ok t = true) : H t = (height t : Int) := by
  cases t with
  | null => rfl
  | node h1 l r k v =>
    rw [heights_ok_node] at h
    simp only [H, height]
    exact h.1

theorem heights_ok_with_height (l r : avl_node) (k : List Nat) (v : Nat)
    (hl : heights_ok l = true) (hr : heights_ok r = true) :
    heights_ok (with_height l r k v) = true := by
  unfold with_height
  rw [heights_ok_node, H_eq l hl, H_eq r hr]
  refine ⟨?_, hl, hr⟩
  push_cast
  rfl

theorem height_with_height (l r : avl_node) (k : List Nat) (v : Nat) :
    height (with_height l r k v) = max (height l) (height r) + 1 := rfl

theorem balanced_with_height (l r : avl_node) (k : List Nat) (v : Nat)
    (hl : balanced l = true) (hr : balanced r = true)
    (h1 : height l ≤ height r + 1) (h2 : height r ≤ height l + 1) :
    balanced (with_height l r k v) = true := by
  unfold with_height
  rw [balanced_node]
  exact ⟨⟨h1, h2⟩, hl, hr⟩

theorem entries_with_height (l r : avl_node) (k : List Nat) (v : Nat) :
    entries (with_height l r k v) = entries l ++ (k, v) :: entries r := rfl

theorem with_height_eq (l r : avl_node) (k : List Nat) (v : Nat)
    (hl : heights_ok l = true) (hr : heights_ok r = true) :
    with_height l r k v = .node ((max (height l) (height r) + 1 : Nat) : Int) l r k v := by
  unfold with_height
  rw [H_eq l hl, H_eq r hr]
  push_cast
  rfl

theorem del_rebalance_left (l r : avl_node) (k : List Nat) (v : Nat)
    (hl : heights_ok l = true) (hr : heights_ok r = true)
    (bl : balanced l = true) (br : balanced r = true)
    (c1 : height l = height r + 2) :
    ∃ t, del_rebalance l r k v = .ret t ∧ heights_ok t = true ∧ balanced t = true ∧
      entries t = entries l ++ (k, v) :: entries r ∧
      height l ≤ height t ∧ height t ≤ height l + 1 ∧
      (∀ h ll lr lk lv, l = .node h ll lr lk lv → height ll ≠ height lr →
        height t = height l) := by
  have hc : H l - H r > 1 := by
    rw [H_eq l hl, H_eq r hr]
    omega
  cases l with
  | null => simp [height] at c1
  | node lh ll lr lk lv =>
    rw [heights_ok_node] at hl
    rw [balanced_node] at bl
    obtain ⟨hlh, hll, hlr⟩ := hl
    obtain ⟨⟨b1, b2⟩, bll, blr⟩ := bl
    simp only [height] at c1 ⊢
    by_cases c2 : height ll < height lr
    · have hc2 : H ll - H lr < 0 := by
        rw [H_eq ll hll, H_eq lr hlr]
        omega
      cases lr with
      | null => simp [height] at c2
      | node rh b c pk pv =>
        rw [heights_ok_node] at hlr
        rw [balanced_node] at blr
        obtain ⟨hrh, hb, hcc⟩ := hlr
        obtain ⟨⟨b3, b4⟩, bb, bc⟩ := blr
        simp only [height] at c1 c2 b1 b2 ⊢
        have key : del_rebalance (.node lh ll (.node rh b c pk pv) lk lv) r k v =
            .ret (with_height (with_height ll b lk lv) (with_height c r k v) pk pv) := by
          unfold del_rebalance
          rw [if_pos hc]
          simp only [if_pos hc2, avl_rotate_L, avl_rotate_R, rotated, with_height]
        refine ⟨_, key, ?_, ?_, ?_, ?_, ?_, ?_⟩
        · exact heights_ok_with_height _ _ _ _ (heights_ok_with_height _ _ _ _ hll hb)
            (heights_ok_with_height _ _ _ _ hcc hr)
        · refine balanced_with_height _ _ _ _
            (balanced_with_height _ _ _ _ bll bb (by omega) (by omega))
            (balanced_with_height _ _ _ _ bc br (by omega) (by omega)) ?_ ?_
          · simp only [height_with_height]
            omega
          · simp only [height_with_height]
            omega
        · simp only [entries_with_height, entries, List.append_assoc, List.cons_append]
        · simp only [height_with_height]
          omega
        · simp only [height_with_height]
          omega
        · intro _ _ _ _ _ _ _
          simp only [height_with_height]
          omega
    · have hc2 : ¬ H ll - H lr < 0 := by
        rw [H_eq ll hll, H_eq lr hlr]
        omega
      have key : del_rebalance (.node lh ll lr lk lv) r k v =
          .ret (with_height ll (with_height lr r k v) lk lv) := by
        unfold del_rebalance
        rw [if_pos hc]
        simp only [if_neg hc2, avl_rotate_R, rotated, with_height]
      refine ⟨_, key, ?_, ?_, ?_, ?_, ?_, ?_⟩
      · exact heights_ok_with_height _ _ _ _ hll (heights_ok_with_height _ _ _ _ hlr hr)
      · refine balanced_with_height _ _ _ _ bll
          (balanced_with_height _ _ _ _ blr br (by omega) (by omega)) ?_ ?_
        · simp only [height_with_height]
          omega
        · simp only [height_with_height]
          omega
      · simp only [entries_with_height, entries, List.append_assoc, List.cons_append]
      · simp only [height_with_height]
        omega
      · simp only [height_with_height]
        omega
      · intro h0 ll0 lr0 lk0 lv0 he hne
        injection he with e1 e2 e3 e4 e5
        subst e2
        subst e3
        simp only [height_with_height]
        omega

theorem del_rebalance_right (l r : avl_node) (k : List Nat) (v : Nat)
    (hl : heights_ok l = true) (hr : heights_ok r = true)
    (bl : balanced l = true) (br : balanced r = true)
    (c1 : height r = height l + 2) :
    ∃ t, del_rebalance l r k v = .ret t ∧ heights_ok t = true ∧ balanced t = true ∧
      entries t = entries l ++ (k, v) :: entries r ∧
      height r ≤ height t ∧ height t ≤ height r + 1 ∧
      (∀ h rl rr rk rv, r = .node h rl rr rk rv → height rl ≠ height rr →
        height t = height r) := by
  have hc0 : ¬ H l - H r > 1 := by
    rw [H_eq l hl, H_eq r hr]
    omega
  have hc : H l - H r < -1 := by
    rw [H_eq l hl, H_eq r hr]
    omega
  cases r with
  | null => simp [height] at c1
  | node rh rl rr rk rv =>
    rw [heights_ok_node] at hr
    rw [balanced_node] at br
    obtain ⟨hrh, hrl, hrr⟩ := hr
    obtain ⟨⟨b1, b2⟩, brl, brr⟩ := br
    simp only [height] at c1 ⊢
    by_cases c2 : height rr < height rl
    · have hc2 : H rl - H rr > 0 := by
        rw [H_eq rl hrl, H_eq rr hrr]
        omega
      cases rl with
      | null => simp [height] at c2
      | node lh b c pk pv =>
        rw [heights_ok_node] at hrl
        rw [balanced_node] at brl
        obtain ⟨hlh, hb, hcc⟩ := hrl
        obtain ⟨⟨b3, b4⟩, bb, bc⟩ := brl
        simp only [height] at c1 c2 b1 b2 ⊢
        have key : del_rebalance l (.node rh (.node lh b c pk pv) rr rk rv) k v =
            .ret (with_height (with_height l b k v) (with_height c rr rk rv) pk pv) := by
          unfold del_rebalance
          rw [if_neg hc0, if_pos hc]
          simp only [if_pos hc2, avl_rotate_L, avl_rotate_R, rotated, with_height]
        refine ⟨_, key, ?_, ?_, ?_, ?_, ?_, ?_⟩
        · exact heights_ok_with_height _ _ _ _ (heights_ok_with_height _ _ _ _ hl hb)
            (heights_ok_with_height _ _ _ _ hcc hrr)
        · refine balanced_with_height _ _ _ _
            (balanced_with_height _ _ _ _ bl bb (by omega) (by omega))
            (balanced_with_height _ _ _ _ bc brr (by omega) (by omega)) ?_ ?_
          · simp only [height_with_height]
            omega
          · simp only [height_with_height]
            omega
        · simp only [entries_with_height, entries, List.append_assoc, List.cons_append]
        · simp only [height_with_height]
          omega
        · simp only [height_with_height]
          omega
        · intro _ _ _ _ _ _ _
          simp only [height_with_height]
          omega
    · have hc2 : ¬ H rl - H rr > 0 := by
        rw [H_eq rl hrl, H_eq rr hrr]
        omega
      have key : del_rebalance l (.node rh rl rr rk rv) k v =
          .ret (with_height (with_height l rl k v) rr rk rv) := by
        unfold del_rebalance
        rw [if_neg hc0, if_pos hc]
        simp only [if_neg hc2, avl_rotate_L, rotated, with_height]
      refine ⟨_, key, ?_, ?_, ?_, ?_, ?_, ?_⟩
      · exact heights_ok_with_height _ _ _ _ (heights_ok_with_height _ _ _ _ hl hrl) hrr
      · refine balanced_with_height _ _ _ _
          (balanced_with_height _ _ _ _ bl brl (by omega) (by omega)) brr ?_ ?_
        · simp only [height_with_height]
          omega
        · simp only [height_with_height]
          omega
      · simp only [entries_with_height, entries, List.append_assoc, List.cons_append]
      · simp only [height_with_height]
        omega
      · simp only [height_with_height]
        omega
      · intro h0 rl0 rr0 rk0 rv0 he hne
        injection he with e1 e2 e3 e4 e5
        subst e2
        subst e3
        simp only [height_with_height]
        omega

theorem del_rebalance_even (l r : avl_node) (k : List Nat) (v : Nat)
    (hl : heights_ok l = true) (hr : heights_ok r = true)
    (h1 : height l ≤ height r + 1) (h2 : height r ≤ height l + 1) :
    del_rebalance l r k v = .ret (with_height l r k v) := by
  have hc0 : ¬ H l - H r > 1 := by
    rw [H_eq l hl, H_eq r hr]
    omega
  have hc : ¬ H l - H r < -1 := by
    rw [H_eq l hl, H_eq r hr]
    omega
  unfold del_rebalance
  rw [if_neg hc0, if_neg hc]

theorem add_rebalance_eq (key : List Nat) (l r : avl_node) (k : List Nat) (v : Nat)
    (hl : heights_ok l = true) (hr : heights_ok r = true)
    (sl : H l - H r > 1 → ∀ h ll lr lk lv, l = .node h ll lr lk lv →
      (strcasecmp key lk > 0 ↔ height ll < height lr))
    (sr : H l - H r < -1 → ∀ h rl rr rk rv, r = .node h rl rr rk rv →
      (strcasecmp rk key > 0 ↔ height rr < height rl)) :
    add_rebalance key l r k v = del_rebalance l r k v := by
  unfold add_rebalance del_rebalance
  by_cases c1 : H l - H r > 1
  · rw [if_pos c1, if_pos c1]
    cases l with
    | null => rfl
    | node lh ll lr lk lv =>
      rw [heights_ok_node] at hl
      have e := sl c1 lh ll lr lk lv rfl
      have e2 : (strcasecmp key lk > 0) ↔ (H ll - H lr < 0) := by
        rw [e, H_eq ll hl.2.1, H_eq lr hl.2.2]
        omega
      simp only [e2]
  · rw [if_neg c1, if_neg c1]
    by_cases c2 : H l - H r < -1
    · rw [if_pos c2, if_pos c2]
      cases r with
      | null => rfl
      | node rh rl rr rk rv =>
        rw [heights_ok_node] at hr
        have e := sr c2 rh rl rr rk rv rfl
        have e2 : (strcasecmp rk key > 0) ↔ (H rl - H rr > 0) := by
          rw [e, H_eq rl hr.2.1, H_eq rr hr.2.2]
          omega
        simp only [e2]
    · rw [if_neg c2, if_neg c2]

theorem avl_keys_node (h : Int) (l r : avl_node) (k : List Nat) (v : Nat) :
    avl_keys (.node h l r k v) = avl_keys l ++ k :: avl_keys r := by
  simp only [avl_keys, entries, List.map_append, List.map_cons]

theorem bst_node (h : Int) (l r : avl_node) (k : List Nat) (v : Nat) :
    bst (.node h l r k v) ↔
      bst l ∧ bst r ∧ (∀ x ∈ avl_keys l, strcasecmp x k < 0) ∧
        (∀ y ∈ avl_keys r, strcasecmp k y < 0) ∧
        (∀ x ∈ avl_keys l, ∀ y ∈ avl_keys r, strcasecmp x y < 0) := by
  unfold bst
  rw [avl_keys_node, List.pairwise_append, List.pairwise_cons]
  constructor
  · rintro ⟨h1, ⟨h2, h3⟩, h4⟩
    exact ⟨h1, h3, fun x hx => h4 x hx k (List.mem_cons_self _ _), h2,
      fun x hx y hy => h4 x hx y (List.mem_cons_of_mem _ hy)⟩
  · rintro ⟨h1, h2, h3, h4, h5⟩
    refine ⟨h1, ⟨h4, h2⟩, ?_⟩
    intro x hx y hy
    rw [List.mem_cons] at hy
    rcases hy with hy | hy
    · rw [hy]
      exact h3 x hx
    · exact h5 x hx y hy

theorem height_pos_ne_null (t : avl_node) (h : 0 < height t) : t ≠ .null := by
  intro e
  rw [e] at h
  exact Nat.lt_irrefl 0 h

theorem add_step_right (key : List Nat) (l r r1 : avl_node) (k : List Nat) (v : Nat)
    (hl : heights_ok l = true) (hr1 : heights_ok r1 = true)
    (bl : balanced l = true) (br1 : balanced r1 = true)
    (b1 : height l ≤ height r + 1) (b2 : height r ≤ height l + 1)
    (g1 : height r ≤ height r1) (g2 : height r1 ≤ height r + 1)
    (cpos : strcasecmp key k > 0)
    (hs : height r1 = height r + 1 → r ≠ .null →
      ∀ h a b rk rv, r1 = .node h a b rk rv →
        strcasecmp key rk ≠ 0 ∧ (strcasecmp key rk > 0 → height a < height b) ∧
        (strcasecmp key rk < 0 → height b < height a)) :
    ∃ t, add_rebalance key l r1 k v = .ret t ∧ heights_ok t = true ∧ balanced t = true ∧
      entries t = entries l ++ (k, v) :: entries r1 ∧
      max (height l) (height r) + 1 ≤ height t ∧
      height t ≤ max (height l) (height r) + 1 + 1 ∧
      (height t = max (height l) (height r) + 1 + 1 →
        ∀ h a b k1 v1, t = .node h a b k1 v1 →
          strcasecmp key k1 ≠ 0 ∧ (strcasecmp key k1 > 0 → height a < height b) ∧
          (strcasecmp key k1 < 0 → height b < height a)) := by
  have eHl := H_eq l hl
  have eHr := H_eq r1 hr1
  by_cases c : height r1 = height l + 2
  · have hgrow : height r1 = height r + 1 := by omega
    have hrn : r ≠ .null := height_pos_ne_null r (by omega)
    have shape := hs hgrow hrn
    have heq : add_rebalance key l r1 k v = del_rebalance l r1 k v := by
      apply add_rebalance_eq key l r1 k v hl hr1
      · intro hc
        rw [eHl, eHr] at hc
        omega
      · intro _ h a b rk rv e
        obtain ⟨s0, s1, s2⟩ := shape h a b rk rv e
        have hsw := strcasecmp_swap key rk
        constructor
        · intro hp
          exact s2 (by omega)
        · intro hlt
          by_contra hcon
          have : strcasecmp key rk > 0 := by omega
          have := s1 this
          omega
    obtain ⟨t, ht, ho, hb, he, hh1, hh2, hh3⟩ :=
      del_rebalance_right l r1 k v hl hr1 bl br1 c
    have hexact : height t = height r1 := by
      cases r1 with
      | null => simp [height] at c
      | node h a b rk rv =>
        obtain ⟨s0, s1, s2⟩ := shape h a b rk rv rfl
        apply hh3 h a b rk rv rfl
        intro hab
        rcases lt_or_gt_of_ne s0 with hlt | hgt
        · have := s2 hlt
          omega
        · have := s1 hgt
          omega
    refine ⟨t, by rw [heq, ht], ho, hb, he, by omega, by omega, ?_⟩
    intro hcon
    omega
  · have heq : add_rebalance key l r1 k v = del_rebalance l r1 k v := by
      apply add_rebalance_eq key l r1 k v hl hr1
      · intro hc
        rw [eHl, eHr] at hc
        omega
      · intro hc
        rw [eHl, eHr] at hc
        omega
    have hev := del_rebalance_even l r1 k v hl hr1 (by omega) (by omega)
    refine ⟨with_height l r1 k v, by rw [heq, hev], heights_ok_with_height _ _ _ _ hl hr1,
      balanced_with_height _ _ _ _ bl br1 (by omega) (by omega), rfl, ?_, ?_, ?_⟩
    · rw [height_with_height]
      omega
    · rw [height_with_height]
      omega
    · intro hg h a b k1 v1 e
      rw [height_with_height] at hg
      unfold with_height at e
      injection e with e1 e2 e3 e4 e5
      subst e2
      subst e3
      subst e4
      refine ⟨by omega, fun _ => by omega, fun hlt => by omega⟩

theorem add_step_left (key : List Nat) (l l1 r : avl_node) (k : List Nat) (v : Nat)
    (hl1 : heights_ok l1 = true) (hr : heights_ok r = true)
    (bl1 : balanced l1 = true) (br : balanced r = true)
    (b1 : height l ≤ height r + 1) (b2 : height r ≤ height l + 1)
    (g1 : height l ≤ height l1) (g2 : height l1 ≤ height l + 1)
    (cneg : strcasecmp key k < 0)
    (hs : height l1 = height l + 1 → l ≠ .null →
      ∀ h a b lk lv, l1 = .node h a b lk lv →
        strcasecmp key lk ≠ 0 ∧ (strcasecmp key lk > 0 → height a < height b) ∧
        (strcasecmp key lk < 0 → height b < height a)) :
    ∃ t, add_rebalance key l1 r k v = .ret t ∧ heights_ok t = true ∧ balanced t = true ∧
      entries t = entries l1 ++ (k, v) :: entries r ∧
      max (height l) (height r) + 1 ≤ height t ∧
      height t ≤ max (height l) (height r) + 1 + 1 ∧
      (height t = max (height l) (height r) + 1 + 1 →
        ∀ h a b k1 v1, t = .node h a b k1 v1 →
          strcasecmp key k1 ≠ 0 ∧ (strcasecmp key k1 > 0 → height a < height b) ∧
          (strcasecmp key k1 < 0 → height b < height a)) := by
  have eHl := H_eq l1 hl1
  have eHr := H_eq r hr
  by_cases c : height l1 = height r + 2
  · have hgrow : height l1 = height l + 1 := by omega
    have hln : l ≠ .null := height_pos_ne_null l (by omega)
    have shape := hs hgrow hln
    have heq : add_rebalance key l1 r k v = del_rebalance l1 r k v := by
      apply add_rebalance_eq key l1 r k v hl1 hr
      · intro _ h a b lk lv e
        obtain ⟨s0, s1, s2⟩ := shape h a b lk lv e
        constructor
        · intro hp
          exact s1 hp
        · intro hlt
          by_contra hcon
          have : strcasecmp key lk < 0 := by omega
          have := s2 this
          omega
      · intro hc
        rw [eHl, eHr] at hc
        omega
    obtain ⟨t, ht, ho, hb, he, hh1, hh2, hh3⟩ :=
      del_rebalance_left l1 r k v hl1 hr bl1 br c
    have hexact : height t = height l1 := by
      cases l1 with
      | null => simp [height] at c
      | node h a b lk lv =>
        obtain ⟨s0, s1, s2⟩ := shape h a b lk lv rfl
        apply hh3 h a b lk lv rfl
        intro hab
        rcases lt_or_gt_of_ne s0 with hlt | hgt
        · have := s2 hlt
          omega
        · have := s1 hgt
          omega
    refine ⟨t, by rw [heq, ht], ho, hb, he, by omega, by omega, ?_⟩
    intro hcon
    omega
  · have heq : add_rebalance key l1 r k v = del_rebalance l1 r k v := by
      apply add_rebalance_eq key l1 r k v hl1 hr
      · intro hc
        rw [eHl, eHr] at hc
        omega
      · intro hc
        rw [eHl, eHr] at hc
        omega
    have hev := del_rebalance_even l1 r k v hl1 hr (by omega) (by omega)
    refine ⟨with_height l1 r k v, by rw [heq, hev], heights_ok_with_height _ _ _ _ hl1 hr,
      balanced_with_height _ _ _ _ bl1 br (by omega) (by omega), rfl, ?_, ?_, ?_⟩
    · rw [height_with_height]
      omega
    · rw [height_with_height]
      omega
    · intro hg h a b k1 v1 e
      rw [height_with_height] at hg
      unfold with_height at e
      injection e with e1 e2 e3 e4 e5
      subst e2
      subst e3
      subst e4
      refine ⟨by omega, fun hgt => by omega, fun _ => by omega⟩

theorem mem_avl_keys (t : avl_node) (e : List Nat × Nat) (h : e ∈ entries t) :
    e.1 ∈ avl_keys t :=
  List.mem_map_of_mem Prod.fst h

theorem avl_add_rec (key : List Nat) (val : Nat) : ∀ t : avl_node,
    heights_ok t = true → balanced t = true → bst t →
    ((∃ x, x ∈ avl_keys t ∧ strcasecmp key x = 0) → _avl_add t key val = .jmp t) ∧
    ((∀ x, x ∈ avl_keys t → strcasecmp key x ≠ 0) →
      ∃ t1, _avl_add t key val = .ret t1 ∧ heights_ok t1 = true ∧ balanced t1 = true ∧
        (∃ pre post, entries t = pre ++ post ∧ entries t1 = pre ++ (key, val) :: post ∧
          (∀ e, e ∈ pre → strcasecmp e.1 key < 0) ∧
          (∀ e, e ∈ post → strcasecmp key e.1 < 0)) ∧
        height t ≤ height t1 ∧ height t1 ≤ height t + 1 ∧
        (height t1 = height t + 1 → t ≠ .null →
          ∀ h a b k1 v1, t1 = .node h a b k1 v1 →
            strcasecmp key k1 ≠ 0 ∧ (strcasecmp key k1 > 0 → height a < height b) ∧
            (strcasecmp key k1 < 0 → height b < height a))) := by
  intro t
  induction t with
  | null =>
    intro _ _ _
    constructor
    · rintro ⟨x, hx, _⟩
      simp [avl_keys, entries] at hx
    · intro _
      refine ⟨.node 1 .null .null key val, rfl, by simp [heights_ok, height],
        by simp [balanced, height], ⟨[], [], rfl, rfl, ?_, ?_⟩,
        by simp [height], by simp [height], ?_⟩
      · intro e he
        exact absurd he (List.not_mem_nil _)
      · intro e he
        exact absurd he (List.not_mem_nil _)
      · intro _ hn
        exact absurd rfl hn
  | node h l r k v ihl ihr =>
    intro ho hb hbst
    rw [heights_ok_node] at ho
    rw [balanced_node] at hb
    rw [bst_node] at hbst
    obtain ⟨_, hol, hor⟩ := ho
    obtain ⟨⟨b1, b2⟩, hbl, hbr⟩ := hb
    obtain ⟨sl, sr, lk, kr, _⟩ := hbst
    have hkeys := avl_keys_node h l r k v
    by_cases c0 : strcasecmp key k = 0
    · constructor
      · intro _
        simp only [_avl_add, if_pos c0]
      · intro hnew
        exact absurd c0 (hnew k (by rw [hkeys]; simp))
    · by_cases cpos : strcasecmp key k > 0
      · have hun : ∀ res, _avl_add r key val = res →
            _avl_add (.node h l r k v) key val =
              (match res with
                | .ret r1 => add_rebalance key l r1 k v
                | .jmp r1 => .jmp (.node h l r1 k v)
                | .fault => .fault
                | .out => .out) := by
          intro res hres
          simp only [_avl_add, if_neg c0, if_pos cpos, hres]
        constructor
        · rintro ⟨x, hx, hx0⟩
          rw [hkeys, List.mem_append, List.mem_cons] at hx
          have hxr : x ∈ avl_keys r := by
            rcases hx with hx | hx | hx
            · have h1 := lk x hx
              have h2 := strcasecmp_congr key x k hx0
              omega
            · rw [hx] at hx0
              exact absurd hx0 c0
            · exact hx
          rw [hun _ ((ihr hor hbr sr).1 ⟨x, hxr, hx0⟩)]
        · intro hnew
          obtain ⟨r1, hr1, ho1, hb1, ⟨pre, post, e1, e2, p1, p2⟩, g1, g2, hs⟩ :=
            (ihr hor hbr sr).2 (fun x hx => hnew x (by rw [hkeys]; simp [hx]))
          obtain ⟨t1, ht1, hto, htb, hte, hh1, hh2, hh3⟩ :=
            add_step_right key l r r1 k v hol ho1 hbl hb1 b1 b2 g1 g2 cpos hs
          have hkk : strcasecmp k key < 0 := by
            have := strcasecmp_swap key k
            omega
          refine ⟨t1, by rw [hun _ hr1]; exact ht1, hto, htb,
            ⟨entries l ++ (k, v) :: pre, post, ?_, ?_, ?_, p2⟩, ?_, ?_, ?_⟩
          · simp only [entries, e1, List.append_assoc, List.cons_append]
          · rw [hte, e2]
            simp only [List.append_assoc, List.cons_append]
          · intro e he
            rw [List.mem_append, List.mem_cons] at he
            rcases he with he | he | he
            · exact strcasecmp_trans _ _ _ (lk e.1 (mem_avl_keys l e he)) hkk
            · rw [he]
              exact hkk
            · exact p1 e he
          · simp only [height]
            exact hh1
          · simp only [height]
            exact hh2
          · intro hg _
            simp only [height] at hg
            exact hh3 hg
      · have cneg : strcasecmp key k < 0 := by omega
        have hun : ∀ res, _avl_add l key val = res →
            _avl_add (.node h l r k v) key val =
              (match res with
                | .ret l1 => add_rebalance key l1 r k v
                | .jmp l1 => .jmp (.node h l1 r k v)
                | .fault => .fault
                | .out => .out) := by
          intro res hres
          simp only [_avl_add, if_neg c0, if_neg cpos, hres]
        constructor
        · rintro ⟨x, hx, hx0⟩
          rw [hkeys, List.mem_append, List.mem_cons] at hx
          have hxl : x ∈ avl_keys l := by
            rcases hx with hx | hx | hx
            · exact hx
            · rw [hx] at hx0
              exact absurd hx0 c0
            · have h1 := kr x hx
              have h2 := strcasecmp_congr key x k hx0
              have h3 := strcasecmp_swap k x
              omega
          rw [hun _ ((ihl hol hbl sl).1 ⟨x, hxl, hx0⟩)]
        · intro hnew
          obtain ⟨l1, hl1, ho1, hb1, ⟨pre, post, e1, e2, p1, p2⟩, g1, g2, hs⟩ :=
            (ihl hol hbl sl).2 (fun x hx => hnew x (by rw [hkeys]; simp [hx]))
          obtain ⟨t1, ht1, hto, htb, hte, hh1, hh2, hh3⟩ :=
            add_step_left key l l1 r k v ho1 hor hb1 hbr b1 b2 g1 g2 cneg hs
          refine ⟨t1, by rw [hun _ hl1]; exact ht1, hto, htb,
            ⟨pre, post ++ (k, v) :: entries r, ?_, ?_, p1, ?_⟩, ?_, ?_, ?_⟩
          · simp only [entries, e1, List.append_assoc]
          · rw [hte, e2]
            simp only [List.append_assoc, List.cons_append]
          · intro e he
            rw [List.mem_append, List.mem_cons] at he
            rcases he with he | he | he
            · exact p2 e he
            · rw [he]
              exact cneg
            · exact strcasecmp_trans _ _ _ cneg (kr e.1 (mem_avl_keys r e he))
          · simp only [height]
            exact hh1
          · simp only [height]
            exact hh2
          · intro hg _
            simp only [height] at hg
            exact hh3 hg

theorem set_leftmost_spec (key : List Nat) (val : Nat) : ∀ t : avl_node, t ≠ .null →
    ∃ nk nv rest, leftmost t = some (nk, nv) ∧ entries t = (nk, nv) :: rest ∧
      entries (set_leftmost key val t) = (key, val) :: rest := by
  intro t
  induction t with
  | null =>
    intro h
    exact absurd rfl h
  | node h l r k v ihl _ =>
    intro _
    cases l with
    | null => exact ⟨k, v, entries r, rfl, rfl, rfl⟩
    | node lh ll lr lk lv =>
      obtain ⟨nk, nv, rest, e1, e2, e3⟩ := ihl (fun e => avl_node.noConfusion e)
      refine ⟨nk, nv, rest ++ (k, v) :: entries r, ?_, ?_, ?_⟩
      · simp only [leftmost]
        exact e1
      · simp only [entries] at e2 ⊢
        rw [e2]
        rfl
      · simp only [set_leftmost, entries] at e3 ⊢
        rw [e3]
        rfl

theorem set_leftmost_height (key : List Nat) (val : Nat) : ∀ t : avl_node,
    height (set_leftmost key val t) = height t ∧ avl_size (set_leftmost key val t) = avl_size t ∧
      heights_ok (set_leftmost key val t) = heights_ok t ∧
      balanced (set_leftmost key val t) = balanced t := by
  intro t
  induction t with
  | null => exact ⟨rfl, rfl, rfl, rfl⟩
  | node h l r k v ihl _ =>
    cases l with
    | null => exact ⟨rfl, rfl, rfl, rfl⟩
    | node lh ll lr lk lv =>
      obtain ⟨e1, e2, e3, e4⟩ := ihl
      simp only [set_leftmost] at e1 e2 e3 e4 ⊢
      refine ⟨?_, ?_, ?_, ?_⟩
      · simp only [height] at e1 ⊢
        rw [e1]
      · simp only [avl_size] at e2 ⊢
        rw [e2]
      · rw [heights_ok, heights_ok, e3]
        simp only [height] at e1 ⊢
        rw [e1]
      · rw [balanced, balanced, e4]
        simp only [height] at e1 ⊢
        rw [e1]

theorem del_step_right (l r r1 : avl_node) (k : List Nat) (v : Nat)
    (hl : heights_ok l = true) (hr1 : heights_ok r1 = true)
    (bl : balanced l = true) (br1 : balanced r1 = true)
    (b1 : height l ≤ height r + 1) (b2 : height r ≤ height l + 1)
    (g1 : height r1 ≤ height r) (g2 : height r ≤ height r1 + 1) :
    ∃ t, del_rebalance l r1 k v = .ret t ∧ heights_ok t = true ∧ balanced t = true ∧
      entries t = entries l ++ (k, v) :: entries r1 ∧
      height t ≤ max (height l) (height r) + 1 ∧
      max (height l) (height r) + 1 ≤ height t + 1 := by
  by_cases c : height l = height r1 + 2
  · obtain ⟨t, ht, ho, hb, he, hh1, hh2, _⟩ := del_rebalance_left l r1 k v hl hr1 bl br1 c
    exact ⟨t, ht, ho, hb, he, by omega, by omega⟩
  · have hev := del_rebalance_even l r1 k v hl hr1 (by omega) (by omega)
    refine ⟨with_height l r1 k v, hev, heights_ok_with_height _ _ _ _ hl hr1,
      balanced_with_height _ _ _ _ bl br1 (by omega) (by omega), rfl, ?_, ?_⟩
    · rw [height_with_height]
      omega
    · rw [height_with_height]
      omega

theorem del_step_left (l l1 r : avl_node) (k : List Nat) (v : Nat)
    (hl1 : heights_ok l1 = true) (hr : heights_ok r = true)
    (bl1 : balanced l1 = true) (br : balanced r = true)
    (b1 : height l ≤ height r + 1) (b2 : height r ≤ height l + 1)
    (g1 : height l1 ≤ height l) (g2 : height l ≤ height l1 + 1) :
    ∃ t, del_rebalance l1 r k v = .ret t ∧ heights_ok t = true ∧ balanced t = true ∧
      entries t = entries l1 ++ (k, v) :: entries r ∧
      height t ≤ max (height l) (height r) + 1 ∧
      max (height l) (height r) + 1 ≤ height t + 1 := by
  by_cases c : height r = height l1 + 2
  · obtain ⟨t, ht, ho, hb, he, hh1, hh2, _⟩ := del_rebalance_right l1 r k v hl1 hr bl1 br c
    exact ⟨t, ht, ho, hb, he, by omega, by omega⟩
  · have hev := del_rebalance_even l1 r k v hl1 hr (by omega) (by omega)
    refine ⟨with_height l1 r k v, hev, heights_ok_with_height _ _ _ _ hl1 hr,
      balanced_with_height _ _ _ _ bl1 br (by omega) (by omega), rfl, ?_, ?_⟩
    · rw [height_with_height]
      omega
    · rw [height_with_height]
      omega

theorem filter_keep (key : List Nat) (es : List (List Nat × Nat))
    (h : ∀ e, e ∈ es → strcasecmp key e.1 ≠ 0) :
    es.filter (fun e => decide (strcasecmp key e.1 ≠ 0)) = es := by
  rw [List.filter_eq_self]
  intro e he
  exact decide_eq_true (h e he)

theorem left_ne (key k : List Nat) (l : avl_node)
    (lk : ∀ x, x ∈ avl_keys l → strcasecmp x k < 0) (hk : 0 ≤ strcasecmp key k) :
    ∀ e, e ∈ entries l → strcasecmp key e.1 ≠ 0 := by
  intro e he h0
  have h1 := lk e.1 (mem_avl_keys l e he)
  have h2 := strcasecmp_congr key e.1 k h0
  omega

theorem right_ne (key k : List Nat) (r : avl_node)
    (kr : ∀ x, x ∈ avl_keys r → strcasecmp k x < 0) (hk : strcasecmp key k ≤ 0) :
    ∀ e, e ∈ entries r → strcasecmp key e.1 ≠ 0 := by
  intro e he h0
  have h1 := kr e.1 (mem_avl_keys r e he)
  have h2 := strcasecmp_congr key e.1 k h0
  have h3 := strcasecmp_swap k e.1
  omega

theorem filter_node_eq (key : List Nat) (h : Int) (l r : avl_node) (k : List Nat) (v : Nat)
    (lk : ∀ x, x ∈ avl_keys l → strcasecmp x k < 0)
    (kr : ∀ x, x ∈ avl_keys r → strcasecmp k x < 0) (c0 : strcasecmp key k = 0) :
    (entries (.node h l r k v)).filter (fun e => decide (strcasecmp key e.1 ≠ 0)) =
      entries l ++ entries r := by
  simp only [entries, List.filter_append, List.filter_cons]
  rw [filter_keep key _ (left_ne key k l lk (by omega)),
    filter_keep key _ (right_ne key k r kr (by omega))]
  simp [c0]

theorem filter_node_right (key : List Nat) (h : Int) (l r : avl_node) (k : List Nat) (v : Nat)
    (lk : ∀ x, x ∈ avl_keys l → strcasecmp x k < 0) (cpos : strcasecmp key k > 0) :
    (entries (.node h l r k v)).filter (fun e => decide (strcasecmp key e.1 ≠ 0)) =
      entries l ++ (k, v) :: (entries r).filter (fun e => decide (strcasecmp key e.1 ≠ 0)) := by
  simp only [entries, List.filter_append, List.filter_cons]
  rw [filter_keep key _ (left_ne key k l lk (by omega))]
  have : strcasecmp key k ≠ 0 := by omega
  simp [this]

theorem filter_node_left (key : List Nat) (h : Int) (l r : avl_node) (k : List Nat) (v : Nat)
    (kr : ∀ x, x ∈ avl_keys r → strcasecmp k x < 0) (cneg : strcasecmp key k < 0) :
    (entries (.node h l r k v)).filter (fun e => decide (strcasecmp key e.1 ≠ 0)) =
      (entries l).filter (fun e => decide (strcasecmp key e.1 ≠ 0)) ++ (k, v) :: entries r := by
  simp only [entries, List.filter_append, List.filter_cons]
  rw [filter_keep key _ (right_ne key k r kr (by omega))]
  have : strcasecmp key k ≠ 0 := by omega
  simp [this]

theorem avl_del_rec : ∀ (fuel : Nat) (key : List Nat) (t : avl_node), avl_size t < fuel →
    heights_ok t = true → balanced t = true → bst t →
    ((∀ x, x ∈ avl_keys t → strcasecmp key x ≠ 0) → _avl_del fuel t key = .jmp t) ∧
    ((∃ x, x ∈ avl_keys t ∧ strcasecmp key x = 0) →
      ∃ t1, _avl_del fuel t key = .ret t1 ∧ heights_ok t1 = true ∧ balanced t1 = true ∧
        entries t1 = (entries t).filter (fun e => decide (strcasecmp key e.1 ≠ 0)) ∧
        height t1 ≤ height t ∧ height t ≤ height t1 + 1) := by
  intro fuel
  induction fuel with
  | zero =>
    intro _ _ h
    omega
  | succ fuel ih =>
    intro key t hsz ho hb hbst
    cases t with
    | null =>
      constructor
      · intro _
        rfl
      · rintro ⟨x, hx, _⟩
        simp [avl_keys, entries] at hx
    | node h l r k v =>
      have hbst0 := hbst
      rw [heights_ok_node] at ho
      rw [balanced_node] at hb
      rw [bst_node] at hbst
      obtain ⟨_, hol, hor⟩ := ho
      obtain ⟨⟨b1, b2⟩, hbl, hbr⟩ := hb
      obtain ⟨sl, sr, lk, kr, _⟩ := hbst
      have hkeys := avl_keys_node h l r k v
      simp only [avl_size] at hsz
      by_cases c0 : strcasecmp key k = 0
      · constructor
        · intro hnone
          exact absurd c0 (hnone k (by rw [hkeys]; simp))
        · intro _
          rw [filter_node_eq key h l r k v lk kr c0]
          cases l with
          | null =>
            refine ⟨r, by simp only [_avl_del, if_pos c0], hor, hbr, rfl, ?_, ?_⟩
            · simp only [height]
              omega
            · simp only [height] at b2 ⊢
              omega
          | node lh ll lr lk1 lv =>
            cases r with
            | null =>
              refine ⟨_, by simp only [_avl_del, if_pos c0], hol, hbl, ?_, ?_, ?_⟩
              · simp only [entries, List.append_nil]
              · simp only [height]
                omega
              · simp only [height] at b1 ⊢
                omega
            | node rh rl rr rk rv =>
              obtain ⟨nk, nv, rest, e1, e2, e3⟩ :=
                set_leftmost_spec k v (.node rh rl rr rk rv) (fun e => avl_node.noConfusion e)
              obtain ⟨f1, f2, f3, f4⟩ := set_leftmost_height k v (.node rh rl rr rk rv)
              have hbst1 : bst (set_leftmost k v (.node rh rl rr rk rv)) := by
                unfold bst avl_keys at sr ⊢
                rw [e2] at sr
                rw [e3]
                simp only [List.map_cons, List.pairwise_cons] at sr ⊢
                refine ⟨?_, sr.2⟩
                intro y hy
                apply kr y
                unfold avl_keys
                rw [e2]
                exact List.mem_cons_of_mem _ hy
              have hself : strcasecmp k k = 0 := cmp_bytes_self _
              obtain ⟨r1, hr1, ho1, hb1, he1, g1, g2⟩ :=
                (ih k (set_leftmost k v (.node rh rl rr rk rv)) (by omega)
                  (by rw [f3]; exact hor) (by rw [f4]; exact hbr) hbst1).2
                  ⟨k, by unfold avl_keys; rw [e3]; simp, hself⟩
              have hrest : entries r1 = rest := by
                rw [he1, e3]
                simp only [List.filter_cons, hself, ne_eq, not_true_eq_false, decide_False,
                  Bool.false_eq_true, if_false]
                apply filter_keep
                intro e he h0
                have : strcasecmp k e.1 < 0 := by
                  apply kr
                  unfold avl_keys
                  rw [e2]
                  exact List.mem_cons_of_mem _ (List.mem_map_of_mem Prod.fst he)
                omega
              rw [f1] at g1 g2
              obtain ⟨t1, ht1, hto, htb, hte, hh1, hh2⟩ :=
                del_step_right (.node lh ll lr lk1 lv) (.node rh rl rr rk rv) r1 nk nv
                  hol ho1 hbl hb1 b1 b2 g1 g2
              refine ⟨t1, ?_, hto, htb, ?_, ?_, ?_⟩
              · simp only [_avl_del, if_pos c0, e1, hr1]
                exact ht1
              · rw [hte, hrest, e2]
              · rw [show height (avl_node.node h (.node lh ll lr lk1 lv)
                    (.node rh rl rr rk rv) k v) =
                    max (height (avl_node.node lh ll lr lk1 lv))
                      (height (avl_node.node rh rl rr rk rv)) + 1 from rfl]
                exact hh1
              · rw [show height (avl_node.node h (.node lh ll lr lk1 lv)
                    (.node rh rl rr rk rv) k v) =
                    max (height (avl_node.node lh ll lr lk1 lv))
                      (height (avl_node.node rh rl rr rk rv)) + 1 from rfl]
                exact hh2
      · by_cases cpos : strcasecmp key k > 0
        · have hun : ∀ res, _avl_del fuel r key = res →
              _avl_del (fuel + 1) (.node h l r k v) key =
                (match res with
                  | .ret r1 => del_rebalance l r1 k v
                  | .jmp r1 => .jmp (.node h l r1 k v)
                  | .fault => .fault
                  | .out => .out) := by
            intro res hres
            simp only [_avl_del, if_neg c0, if_pos cpos, hres]
          have ihr := ih key r (by omega) hor hbr sr
          constructor
          · intro hnone
            rw [hun _ (ihr.1 (fun x hx => hnone x (by rw [hkeys]; simp [hx])))]
          · rintro ⟨x, hx, hx0⟩
            rw [hkeys, List.mem_append, List.mem_cons] at hx
            have hxr : x ∈ avl_keys r := by
              rcases hx with hx | hx | hx
              · have h1 := lk x hx
                have h2 := strcasecmp_congr key x k hx0
                omega
              · rw [hx] at hx0
                exact absurd hx0 c0
              · exact hx
            obtain ⟨r1, hr1, ho1, hb1, he1, g1, g2⟩ := ihr.2 ⟨x, hxr, hx0⟩
            obtain ⟨t1, ht1, hto, htb, hte, hh1, hh2⟩ :=
              del_step_right l r r1 k v hol ho1 hbl hb1 b1 b2 g1 g2
            refine ⟨t1, by rw [hun _ hr1]; exact ht1, hto, htb, ?_, ?_, ?_⟩
            · rw [filter_node_right key h l r k v lk cpos, hte, he1]
            · simp only [height]
              exact hh1
            · simp only [height]
              exact hh2
        · have cneg : strcasecmp key k < 0 := by omega
          have hun : ∀ res, _avl_del fuel l key = res →
              _avl_del (fuel + 1) (.node h l r k v) key =
                (match res with
                  | .ret l1 => del_rebalance l1 r k v
                  | .jmp l1 => .jmp (.node h l1 r k v)
                  | .fault => .fault
                  | .out => .out) := by
            intro res hres
            simp only [_avl_del, if_neg c0, if_neg cpos, hres]
          have ihl := ih key l (by omega) hol hbl sl
          constructor
          · intro hnone
            rw [hun _ (ihl.1 (fun x hx => hnone x (by rw [hkeys]; simp [hx])))]
          · rintro ⟨x, hx, hx0⟩
            rw [hkeys, List.mem_append, List.mem_cons] at hx
            have hxl : x ∈ avl_keys l := by
              rcases hx with hx | hx | hx
              · exact hx
              · rw [hx] at hx0
                exact absurd hx0 c0
              · have h1 := kr x hx
                have h2 := strcasecmp_congr key x k hx0
                have h3 := strcasecmp_swap k x
                omega
            obtain ⟨l1, hl1, ho1, hb1, he1, g1, g2⟩ := ihl.2 ⟨x, hxl, hx0⟩
            obtain ⟨t1, ht1, hto, htb, hte, hh1, hh2⟩ :=
              del_step_left l l1 r k v ho1 hor hb1 hbr b1 b2 g1 g2
            refine ⟨t1, by rw [hun _ hl1]; exact ht1, hto, htb, ?_, ?_, ?_⟩
            · rw [filter_node_left key h l r k v kr cneg, hte, he1]
            · simp only [height]
              exact hh1
            · simp only [height]
              exact hh2

theorem bst_insert (t t1 : avl_node) (key : List Nat) (val : Nat)
    (pre post : List (List Nat × Nat)) (hbst : bst t)
    (e1 : entries t = pre ++ post) (e2 : entries t1 = pre ++ (key, val) :: post)
    (p1 : ∀ e, e ∈ pre → strcasecmp e.1 key < 0)
    (p2 : ∀ e, e ∈ post → strcasecmp key e.1 < 0) : bst t1 := by
  unfold bst avl_keys at hbst ⊢
  rw [e1, List.map_append, List.pairwise_append] at hbst
  obtain ⟨h1, h2, h3⟩ := hbst
  rw [e2, List.map_append, List.map_cons, List.pairwise_append, List.pairwise_cons]
  refine ⟨h1, ⟨?_, h2⟩, ?_⟩
  · intro y hy
    rw [List.mem_map] at hy
    obtain ⟨e, he, hey⟩ := hy
    rw [← hey]
    exact p2 e he
  · intro x hx y hy
    rw [List.mem_cons] at hy
    rcases hy with hy | hy
    · rw [List.mem_map] at hx
      obtain ⟨e, he, hex⟩ := hx
      rw [hy, ← hex]
      exact p1 e he
    · exact h3 x hx y hy

theorem bst_filter (t t1 : avl_node) (p : List Nat × Nat → Bool) (hbst : bst t)
    (e : entries t1 = (entries t).filter p) : bst t1 := by
  unfold bst avl_keys at hbst ⊢
  rw [e]
  exact List.Pairwise.sublist (List.Sublist.map Prod.fst (List.filter_sublist _)) hbst

/-- C23. The AVL invariants are preserved: for a tree whose keys in order are strictly
increasing under `strcasecmp`, whose stored heights are the true heights and whose
subtree heights differ by at most one at every node, `avl_add` of a key that matches no
key of the tree returns 1 and leaves a tree with the same three properties whose entries
are the old ones with (key, val) put in; `avl_add` of a key that matches one returns 0
with the tree unchanged; `avl_del` of a key that matches one returns 1 and leaves a tree
with the three properties whose entries are the old ones without the matching one; and
`avl_del` of a key that matches none returns 0 with the tree unchanged. -/
theorem avl_invariants_preserved (t : avl_node) (key : List Nat) (val : Nat)
    (hbst : bst t) (ho : heights_ok t = true) (hb : balanced t = true) :
    ((∀ x, x ∈ avl_keys t → strcasecmp key x ≠ 0) →
      ∃ t1, avl_add t key val = some (1, t1) ∧
        bst t1 ∧ heights_ok t1 = true ∧ balanced t1 = true ∧
        ∃ pre post, entries t = pre ++ post ∧ entries t1 = pre ++ (key, val) :: post) ∧
    ((∃ x, x ∈ avl_keys t ∧ strcasecmp key x = 0) → avl_add t key val = some (0, t)) ∧
    ((∃ x, x ∈ avl_keys t ∧ strcasecmp key x = 0) →
      ∃ t1, avl_del t key = some (1, t1) ∧
        bst t1 ∧ heights_ok t1 = true ∧ balanced t1 = true ∧
        entries t1 = (entries t).filter (fun e => decide (strcasecmp key e.1 ≠ 0))) ∧
    ((∀ x, x ∈ avl_keys t → strcasecmp key x ≠ 0) → avl_del t key = some (0, t)) := by
  have hadd := avl_add_rec key val t ho hb hbst
  have hdel := avl_del_rec (avl_size t + 1) key t (Nat.lt_succ_self _) ho hb hbst
  refine ⟨?_, ?_, ?_, ?_⟩
  · intro hnew
    obtain ⟨t1, ht1, ho1, hb1, ⟨pre, post, e1, e2, p1, p2⟩, _⟩ := hadd.2 hnew
    refine ⟨t1, ?_, bst_insert t t1 key val pre post hbst e1 e2 p1 p2, ho1, hb1,
      pre, post, e1, e2⟩
    unfold avl_add
    rw [ht1]
  · intro hdup
    unfold avl_add
    rw [hadd.1 hdup]
  · intro hfound
    obtain ⟨t1, ht1, ho1, hb1, e1, _⟩ := hdel.2 hfound
    refine ⟨t1, ?_, bst_filter t t1 _ hbst e1, ho1, hb1, e1⟩
    unfold avl_del
    rw [ht1]
  · intro hnone
    unfold avl_del
    rw [hdel.1 hnone]

/-- The tree of the keys `b`, `D`, `f` with the key `a` (new) and value 7. -/
theorem avl_invariants_preserved_witness :
    ((∀ x, x ∈ avl_keys example_tree → strcasecmp [97] x ≠ 0) →
      ∃ t1, avl_add example_tree [97] 7 = some (1, t1) ∧
        bst t1 ∧ heights_ok t1 = true ∧ balanced t1 = true ∧
        ∃ pre post, entries example_tree = pre ++ post ∧
          entries t1 = pre ++ (([97] : List Nat), 7) :: post) ∧
    ((∃ x, x ∈ avl_keys example_tree ∧ strcasecmp [97] x = 0) →
      avl_add example_tree [97] 7 = some (0, example_tree)) ∧
    ((∃ x, x ∈ avl_keys example_tree ∧ strcasecmp [97] x = 0) →
      ∃ t1, avl_del example_tree [97] = some (1, t1) ∧
        bst t1 ∧ heights_ok t1 = true ∧ balanced t1 = true ∧
        entries t1 =
          (entries example_tree).filter (fun e => decide (strcasecmp [97] e.1 ≠ 0))) ∧
    ((∀ x, x ∈ avl_keys example_tree → strcasecmp [97] x ≠ 0) →
      avl_del example_tree [97] = some (0, example_tree)) :=
  avl_invariants_preserved example_tree [97] 7 (by decide) (by decide) (by decide)

/-! ## Prefix lookup in the AVL tree -/

theorem strncasecmp_left (key x k : List Nat) (len : Nat) (hxk : strcasecmp x k < 0)
    (hc : strncasecmp key k len > 0) : strncasecmp key x len ≠ 0 := by
  intro h0
  unfold strncasecmp at hc h0
  have h1 := cmp_bytes_take len (lower x) (lower k) hxk
  rw [cmp_bytes_eq _ _ h0] at hc
  omega

theorem strncasecmp_right (key x k : List Nat) (len : Nat) (hkx : strcasecmp k x < 0)
    (hc : strncasecmp key k len < 0) : strncasecmp key x len ≠ 0 := by
  intro h0
  unfold strncasecmp at hc h0
  have h1 := cmp_bytes_take len (lower k) (lower x) hkx
  have h2 := cmp_bytes_swap ((lower k).take len) ((lower x).take len)
  rw [cmp_bytes_eq _ _ h0] at hc
  omega

theorem avl_get_rec (key : List Nat) (len : Nat) : ∀ t : avl_node, bst t →
    (∀ m, _avl_get t key len = some m →
      ∃ h l r k v, m = .node h l r k v ∧ strncasecmp key k len = 0 ∧ (k, v) ∈ entries t) ∧
    (_avl_get t key len = none → ∀ x, x ∈ avl_keys t → strncasecmp key x len ≠ 0) := by
  intro t
  induction t with
  | null =>
    intro _
    constructor
    · intro m hm
      simp [_avl_get] at hm
    · intro _ x hx
      simp [avl_keys, entries] at hx
  | node h l r k v ihl ihr =>
    intro hbst
    rw [bst_node] at hbst
    obtain ⟨sl, sr, lk, kr, _⟩ := hbst
    have hkeys := avl_keys_node h l r k v
    by_cases cpos : strncasecmp key k len > 0
    · have hun : _avl_get (.node h l r k v) key len = _avl_get r key len := by
        simp only [_avl_get, if_pos cpos]
      rw [hun]
      constructor
      · intro m hm
        obtain ⟨h1, l1, r1, k1, v1, e, hc, hmem⟩ := (ihr sr).1 m hm
        refine ⟨h1, l1, r1, k1, v1, e, hc, ?_⟩
        simp only [entries, List.mem_append, List.mem_cons]
        exact Or.inr (Or.inr hmem)
      · intro hn x hx
        rw [hkeys, List.mem_append, List.mem_cons] at hx
        rcases hx with hx | hx | hx
        · exact strncasecmp_left key x k len (lk x hx) cpos
        · rw [hx]
          omega
        · exact (ihr sr).2 hn x hx
    · by_cases cneg : strncasecmp key k len < 0
      · have hun : _avl_get (.node h l r k v) key len = _avl_get l key len := by
          simp only [_avl_get, if_neg cpos, if_pos cneg]
        rw [hun]
        constructor
        · intro m hm
          obtain ⟨h1, l1, r1, k1, v1, e, hc, hmem⟩ := (ihl sl).1 m hm
          refine ⟨h1, l1, r1, k1, v1, e, hc, ?_⟩
          simp only [entries, List.mem_append, List.mem_cons]
          exact Or.inl hmem
        · intro hn x hx
          rw [hkeys, List.mem_append, List.mem_cons] at hx
          rcases hx with hx | hx | hx
          · exact (ihl sl).2 hn x hx
          · rw [hx]
            omega
          · exact strncasecmp_right key x k len (kr x hx) cneg
      · have hun : _avl_get (.node h l r k v) key len = some (.node h l r k v) := by
          simp only [_avl_get, if_neg cpos, if_neg cneg]
        rw [hun]
        constructor
        · intro m hm
          injection hm with hm
          refine ⟨h, l, r, k, v, hm.symm, by omega, ?_⟩
          rw [entries, List.mem_append]
          exact Or.inr (List.mem_cons_self _ _)
        · intro hn
          exact Option.noConfusion hn

/-- C24. The prefix lookup `avl_get` is sound and complete: for every tree whose keys in
order are strictly increasing under `strcasecmp`, every key and every `len`, a node that
`avl_get` returns is a node of the tree whose key agrees with `key` on the first `len`
characters (`strncasecmp` is 0), and when `avl_get` returns `NULL` no key of the tree
agrees with `key` on the first `len` characters. -/
theorem avl_get_prefix (t : avl_node) (key : List Nat) (len : Nat) (hbst : bst t) :
    (∀ h l r k v, avl_get t key len = .node h l r k v →
      strncasecmp key k len = 0 ∧ (k, v) ∈ entries t) ∧
    (avl_get t key len = .null → ∀ x, x ∈ avl_keys t → strncasecmp key x len ≠ 0) := by
  obtain ⟨h1, h2⟩ := avl_get_rec key len t hbst
  unfold avl_get
  cases hg : _avl_get t key len with
  | none =>
    refine ⟨?_, fun _ => h2 hg⟩
    intro h l r k v e
    exact avl_node.noConfusion e
  | some m =>
    obtain ⟨h0, l0, r0, k0, v0, e, hc, hmem⟩ := h1 m hg
    constructor
    · intro h l r k v e1
      simp only at e1
      rw [e] at e1
      injection e1 with _ _ _ e4 e5
      rw [← e4, ← e5]
      exact ⟨hc, hmem⟩
    · intro e1
      simp only at e1
      rw [e] at e1
      exact avl_node.noConfusion e1

/-- The tree of the keys `b`, `D`, `f` looked up with the prefix `d`. -/
theorem avl_get_prefix_witness :
    (∀ h l r k v, avl_get example_tree [100, 120] 1 = .node h l r k v →
      strncasecmp [100, 120] k 1 = 0 ∧ (k, v) ∈ entries example_tree) ∧
    (avl_get example_tree [100, 120] 1 = .null →
      ∀ x, x ∈ avl_keys example_tree → strncasecmp [100, 120] x 1 ≠ 0) :=
  avl_get_prefix example_tree [100, 120] 1 (by decide)

/-! ## `parse` and the trailing parameter -/

/-- C25. On the message `C a a a a a a a a a a a a a a :t` (a command, 14 middle
parameters, then a colon and the trailing text) `parse` returns with the trailing parameter
`:t`: the colon that the grammar of the doc comment leaves out of `trailing`
(`14( SPACE middle ) [ SPACE [ ":" ] trailing ]`) is kept. With 13 middle parameters the
colon is dropped and the trailing parameter is `t`. In both cases the parameters are
terminated after the last middle one. -/
theorem parse_trailing_keeps_colon :
    parse_strings example_mesg_14 =
        some ([67], ((List.replicate 13 [97, 32]).flatten ++ [97]), [58, 116]) ∧
      parse_strings example_mesg_13 =
        some ([67], ((List.replicate 12 [97, 32]).flatten ++ [97]), [116]) := by
  constructor <;> decide

/-! ## `check_pinged` and the end of the message -/

/-- C26. On the message `hi 123` (seven bytes with its terminator) and the nick `bob`,
`check_pinged` reads outside the message: after the word `hi` the loop that skips the
bytes outside 0x41..0x7D passes the blank, the digits and the terminator. The same
happens on a message of one blank. On `hi bob` the call returns 1 and on `hi there` it
returns 0. -/
theorem check_pinged_reads_past_nul :
    check_pinged [104, 105, 32, 49, 50, 51, 0] [98, 111, 98, 0] = some .fault ∧
      check_pinged [32, 0] [98, 111, 98, 0] = some .fault ∧
      check_pinged [104, 105, 32, 98, 111, 98, 0] [98, 111, 98, 0] = some (.ok 1) ∧
      check_pinged [104, 105, 32, 116, 104, 101, 114, 101, 0] [98, 111, 98, 0] = some (.ok 0) := by
  refine ⟨?_, ?_, ?_, ?_⟩ <;> decide

end Rirc
